import Mathlib

/-!
# CCBReader: the `.ccbi` binary reader of cocos2d-x

A shallow embedding of `cocos2dx/extensions/CCBIReader/CCBReader.cpp`.

Conventions of the embedding

* `unsigned char` values are natural numbers in `0..255`; the loaded file is a
  `List Nat`, and `mBytes` is `none` for a `NULL` pointer.
* `std::string` is a list of bytes (`List Nat`); `std::vector` is a `List`.
* A member function that reads and updates the reader is a function from the
  reader state to a `Res` holding the returned value and the new state.
* The source performs no bounds check on any read.  A read outside the loaded
  buffer or outside the string vector, and a shift of a 32-bit `int` by 32 or
  more, have no behaviour defined by C++; these executions end in `Res.undefined`.
  A failed `assert` ends in `Res.abort`.  `Res.exhausted` is an artefact of
  the embedding: the budget given to a loop or to the recursion ran out.
* `int` is 32 bits and `long long` 64 bits, both two's complement: `1 << 31`
  is `INT_MIN`, and a conversion to `int` wraps modulo `2 ^ 32`.
-/

namespace CCB

/-- Outcome of running a piece of the reader. -/
inductive Res (α : Type) where
  /-- normal return -/
  | ok (a : α) : Res α
  /-- an `assert` failed: the process is stopped -/
  | abort : Res α
  /-- the execution has no behaviour defined by C++ (unchecked access) -/
  | undefined : Res α
  /-- the recursion or iteration budget given to the model ran out -/
  | exhausted : Res α
deriving DecidableEq, Repr

/-- Sequencing: run `f` on a normal result, hand any other outcome on. -/
def Res.bind {α β : Type} (x : Res α) (f : α → Res β) : Res β :=
  match x with
  | .ok a => f a
  | .abort => .abort
  | .undefined => .undefined
  | .exhausted => .exhausted

instance : Monad Res where
  pure := Res.ok
  bind := Res.bind

/-- A `CCSize`; the reader only stores it and hands it back. -/
structure CCSize where
  width : Int
  height : Int
deriving DecidableEq, Repr

/-- Modelled from the spec: `CCNode` is declared outside `CCBReader.cpp`. A node
has an identity (its address) and an ordered list of children. -/
inductive CCNode where
  | mk (ident : Nat) (children : List CCNode) : CCNode
deriving Repr

/-- Address of a node. -/
def CCNode.ident : CCNode → Nat
  | .mk i _ => i

/-- Ordered children of a node. -/
def CCNode.children : CCNode → List CCNode
  | .mk _ cs => cs

/-- Modelled from the spec: `CCNode::addChild` is declared outside
`CCBReader.cpp`; the child is appended to the node's ordered children. -/
def CCNode.addChild (node child : CCNode) : CCNode :=
  .mk node.ident (node.children ++ [child])

/-- The data members of `CCBReader`. A `CCNodeLoader *` is the address of a
loader object, a `CCNode *` the address of a node (`none` is `NULL`). -/
structure CCBReader where
  mBytes : Option (List Nat)
  mCurrentByte : Nat
  mCurrentBit : Nat
  mStringCache : List (List Nat)
  mCCNodeLoaders : List (List Nat × Nat)
  mRootNode : Option Nat
  mOwner : Option Nat
  mRootContainerSize : CCSize
deriving DecidableEq, Repr

/-- The element of a `std::map` with key `k`, as `std::map::find`. -/
def mapFind (m : List (List Nat × Nat)) (k : List Nat) : Option Nat :=
  m.lookup k

/-- The call `std::map::insert(std::pair(k, v))`: the pair is inserted only
when the map holds no element with key `k`; an existing element is kept. -/
def mapInsert (m : List (List Nat × Nat)) (k : List Nat) (v : Nat) :
    List (List Nat × Nat) :=
  match mapFind m k with
  | some _ => m
  | none => m ++ [(k, v)]

/-- `CCBReader::registerCCNodeLoader` (lines 22-24). -/
def registerCCNodeLoader (pClassName : List Nat) (pCCNodeLoader : Nat)
    (r : CCBReader) : CCBReader :=
  { r with mCCNodeLoaders := mapInsert r.mCCNodeLoaders pClassName pCCNodeLoader }

/-- `CCBReader::getCCNodeLoader` (lines 26-30): the `assert` stops the process
when the class name has no entry. -/
def getCCNodeLoader (pClassName : List Nat) (r : CCBReader) : Res Nat :=
  match mapFind r.mCCNodeLoaders pClassName with
  | some l => .ok l
  | none => .abort

/-- `CCBReader::readByte` (lines 113-117). -/
def readByte (r : CCBReader) : Res (Nat × CCBReader) :=
  match r.mBytes with
  | none => .undefined
  | some b =>
    match b[r.mCurrentByte]? with
    | none => .undefined
    | some byte => .ok (byte, { r with mCurrentByte := r.mCurrentByte + 1 })

/-- `CCBReader::readBool` (lines 119-121). -/
def readBool (r : CCBReader) : Res (Bool × CCBReader) := do
  let (byte, r1) ← readByte r
  pure (decide (byte ≠ 0), r1)

/-- `CCBReader::getBit` (lines 182-199). -/
def getBit (r : CCBReader) : Res (Bool × CCBReader) :=
  match r.mBytes with
  | none => .undefined
  | some b =>
    match b[r.mCurrentByte]? with
    | none => .undefined
    | some byte =>
      let bit := decide (byte &&& (1 <<< r.mCurrentBit) ≠ 0)
      let r1 := { r with mCurrentBit := r.mCurrentBit + 1 }
      if r1.mCurrentBit ≥ 8 then
        .ok (bit, { r1 with mCurrentBit := 0, mCurrentByte := r1.mCurrentByte + 1 })
      else
        .ok (bit, r1)

/-- `CCBReader::alignBits` (lines 201-206). -/
def alignBits (r : CCBReader) : CCBReader :=
  if r.mCurrentBit ≠ 0 then
    { r with mCurrentBit := 0, mCurrentByte := r.mCurrentByte + 1 }
  else r

/-- The value of `1 << a` for the 32-bit `int` constant `1`, as the 64-bit
two's complement pattern it has once converted to `long long`: `2 ^ a` for
`a < 31`, the sign-extended `INT_MIN` for `a = 31`, undefined from 32 on. -/
def shl1 (a : Nat) : Res Nat :=
  if a < 31 then .ok (2 ^ a)
  else if a = 31 then .ok (2 ^ 64 - 2 ^ 31)
  else .undefined

/-- The signed value of a 64-bit two's complement pattern. -/
def toInt64 (p : Nat) : Int :=
  if p % 2 ^ 64 < 2 ^ 63 then (p % 2 ^ 64 : Nat) else (p % 2 ^ 64 : Nat) - 2 ^ 64

/-- Conversion of a `long long` value to `int`: wraps modulo `2 ^ 32`. -/
def toInt32 (x : Int) : Int :=
  (x + 2 ^ 31) % 2 ^ 32 - 2 ^ 31

/-- Number of bits from the current byte to the end of the buffer. -/
def bitsLeft (r : CCBReader) : Nat :=
  match r.mBytes with
  | none => 0
  | some b => 8 * (b.length - r.mCurrentByte)

/-- The loop `while(!this->getBit()) numBits++;` of `readInt` (lines 125-127),
with an iteration budget. -/
def scanZeros : Nat → Nat → CCBReader → Res (Nat × CCBReader)
  | 0, _, _ => .exhausted
  | fuel + 1, numBits, r => do
    let (bit, r1) ← getBit r
    if bit then pure (numBits, r1) else scanZeros fuel (numBits + 1) r1

/-- The loop `for(int a = numBits - 1; a >= 0; a--)` of `readInt`
(lines 130-134); the first argument is `a + 1`, `current` is the 64-bit
pattern of the `long long`. -/
def readBits : Nat → Nat → CCBReader → Res (Nat × CCBReader)
  | 0, current, r => pure (current, r)
  | a + 1, current, r => do
    let (bit, r1) ← getBit r
    if bit then do
      let m ← shl1 a
      readBits a (current ||| m) r1
    else
      readBits a current r1

/-- Lines 137-147 of `readInt`: the returned `int` for the accumulated
`long long current`. `%` and `/` of C++ truncate toward zero. -/
def intOfCurrent (pSign : Bool) (current : Int) : Int :=
  if pSign then
    if toInt32 (current.tmod 2) ≠ 0 then toInt32 (current.tdiv 2)
    else toInt32 ((-current).tdiv 2)
  else toInt32 (current - 1)

/-- `CCBReader::readInt` (lines 123-152). The budget of the first loop is one
more than the number of bits left, which the loop cannot use up. -/
def readInt (pSign : Bool) (r : CCBReader) : Res (Int × CCBReader) := do
  let (numBits, r1) ← scanZeros (bitsLeft r + 1) 0 r
  let (c, r2) ← readBits numBits 0 r1
  let top ← shl1 numBits
  let current : Int := toInt64 (c ||| top)
  pure (intOfCurrent pSign current, alignBits r2)

/-- `CCBReader::readUTF8` (lines 99-111). The `std::string` constructor copies
`numBytes` bytes starting at the cursor; copying past the end of the buffer is
an unchecked access. -/
def readUTF8 (r : CCBReader) : Res (List Nat × CCBReader) := do
  let (b0, r1) ← readByte r
  let (b1, r2) ← readByte r1
  let numBytes := (b0 <<< 8) ||| b1
  match r2.mBytes with
  | none => .undefined
  | some b =>
    if r2.mCurrentByte + numBytes ≤ b.length then
      pure ((b.drop r2.mCurrentByte).take numBytes,
        { r2 with mCurrentByte := r2.mCurrentByte + numBytes })
    else .undefined

/-- The value of the multi-character constant `'ccbi'`. -/
def kMagic : Nat := 0x63636269

/-- The `int` loaded from four bytes of the buffer (little-endian target), as a
32-bit pattern. -/
def loadInt (b0 b1 b2 b3 : Nat) : Nat :=
  b0 + 256 * b1 + 65536 * b2 + 16777216 * b3

/-- `CCBReader::readHeader` (lines 64-86). `kCCBVersion` is defined in
`CCBReader.h` and is a parameter here. -/
def readHeader (kCCBVersion : Int) (r : CCBReader) : Res (Bool × CCBReader) :=
  match r.mBytes with
  | none => .ok (false, r)
  | some b =>
    match b[r.mCurrentByte]?, b[r.mCurrentByte + 1]?, b[r.mCurrentByte + 2]?,
        b[r.mCurrentByte + 3]? with
    | some b0, some b1, some b2, some b3 =>
      let magicBytes := loadInt b0 b1 b2 b3
      let r1 := { r with mCurrentByte := r.mCurrentByte + 4 }
      if magicBytes ≠ kMagic then .ok (false, r1)
      else do
        let (version, r2) ← readInt false r1
        if version ≠ kCCBVersion then pure (false, r2) else pure (true, r2)
    | _, _, _, _ => .undefined

/-- The loop of `readStringCache` (lines 91-94); the argument counts the
iterations still to run. -/
def readStrings : Nat → CCBReader → Res CCBReader
  | 0, r => pure r
  | n + 1, r => do
    let (string, r1) ← readUTF8 r
    readStrings n { r1 with mStringCache := r1.mStringCache ++ [string] }

/-- `CCBReader::readStringCache` (lines 88-97). -/
def readStringCache (r : CCBReader) : Res (Bool × CCBReader) := do
  let (numStrings, r1) ← readInt false r
  let r2 ← readStrings numStrings.toNat r1
  pure (true, r2)

/-- `CCBReader::readCachedString` (lines 208-211). `std::vector::operator[]`
is unchecked. -/
def readCachedString (r : CCBReader) : Res (List Nat × CCBReader) := do
  let (i, r1) ← readInt false r
  if 0 ≤ i then
    match r1.mStringCache[i.toNat]? with
    | some s => pure (s, r1)
    | none => .undefined
  else .undefined

/-- Behaviour of the loader objects: `load l pParent r` is the call
`l->loadCCNode(pParent, reader)` on the loader at address `l`. The loader
classes are declared outside `CCBReader.cpp`. -/
abbrev LoaderTable := Nat → Option CCNode → CCBReader → Res (CCNode × CCBReader)

/-- The loop of `readNodeGraph` (lines 257-260) for a given decoder of one
child; the argument counts the iterations still to run. -/
def readChildren (readChild : Option CCNode → CCBReader → Res (CCNode × CCBReader)) :
    Nat → CCNode → CCBReader → Res (CCNode × CCBReader)
  | 0, node, r => pure (node, r)
  | n + 1, node, r => do
    let (child, r1) ← readChild (some node) r
    readChildren readChild n (node.addChild child) r1

/-- Lines 215-221 of `readNodeGraph`: class name, assignment type and the
optional assignment name. -/
def readNodeHead (r : CCBReader) : Res ((List Nat × Int × List Nat) × CCBReader) := do
  let (className, r1) ← readCachedString r
  let (memberVarAssignmentType, r2) ← readInt false r1
  if memberVarAssignmentType ≠ 0 then do
    let (memberVarAssignmentName, r3) ← readCachedString r2
    pure ((className, memberVarAssignmentType, memberVarAssignmentName), r3)
  else
    pure ((className, memberVarAssignmentType, []), r2)

/-- Lines 226-229 of `readNodeGraph`: the root is recorded when none is. -/
def setRootNode (node : CCNode) (r : CCBReader) : CCBReader :=
  match r.mRootNode with
  | none => { r with mRootNode := some node.ident }
  | some _ => r

/-- `CCBReader::readNodeGraph(CCNode * pParent)` (lines 213-273). The first
argument bounds the depth of the recursion. -/
def readNodeGraph (load : LoaderTable) : Nat → Option CCNode → CCBReader →
    Res (CCNode × CCBReader)
  | 0, _, _ => .exhausted
  | fuel + 1, pParent, r => do
    let ((className, _, _), r1) ← readNodeHead r
    let ccNodeLoader ← getCCNodeLoader className r1
    let (node, r2) ← load ccNodeLoader pParent r1
    let r3 := setRootNode node r2
    let (numChildren, r4) ← readInt false r3
    readChildren (readNodeGraph load fuel) numChildren.toNat node r4

/-- Lines 46-51 of `readNodeGraphFromFile`: the buffer is replaced and the
cursor, the owner and the root container size are set. -/
def beginRead (file : Option (List Nat)) (pOwner : Option Nat) (pParentSize : CCSize)
    (r : CCBReader) : CCBReader :=
  { r with mBytes := file, mCurrentByte := 0, mCurrentBit := 0,
           mOwner := pOwner, mRootContainerSize := pParentSize }

/-- `CCBReader::readNodeGraphFromFile` with three parameters (lines 43-62).
`file` is what `ccLoadFileIntoMemory` stores into `mBytes`: the content of the
file, or `NULL` when it cannot be opened. -/
def readNodeGraphFromFile (load : LoaderTable) (kCCBVersion : Int) (fuel : Nat)
    (file : Option (List Nat)) (pOwner : Option Nat) (pParentSize : CCSize)
    (r : CCBReader) : Res (Option CCNode × CCBReader) :=
  match readHeader kCCBVersion (beginRead file pOwner pParentSize r) with
  | .ok (false, r1) => .ok (none, r1)
  | .ok (true, r1) =>
    match readStringCache r1 with
    | .ok (false, r2) => .ok (none, r2)
    | .ok (true, r2) =>
      match readNodeGraph load fuel none r2 with
      | .ok (node, r3) => .ok (some node, r3)
      | .abort => .abort
      | .undefined => .undefined
      | .exhausted => .exhausted
    | .abort => .abort
    | .undefined => .undefined
    | .exhausted => .exhausted
  | .abort => .abort
  | .undefined => .undefined
  | .exhausted => .exhausted

/-! ## Encoders used to state the round-trip properties

The reader has no encoder; these follow the description of the format. -/

/-- Floor of the base-2 logarithm, by repeated halving; the first argument
bounds the number of halvings. -/
def log2Fuel : Nat → Nat → Nat
  | 0, _ => 0
  | fuel + 1, x => if x < 2 then 0 else log2Fuel fuel (x / 2) + 1

/-- Floor of the base-2 logarithm of `x` (0 for `x = 0`). -/
def ilog2 (x : Nat) : Nat :=
  log2Fuel x x

/-- Bits of the variable-length code of `v`: `n = ilog2 (v + 1)` zero bits, a
one bit, then the low `n` bits of `v + 1`, most significant first. -/
def encodeBits (v : Nat) : List Bool :=
  List.replicate (ilog2 (v + 1)) false ++ true ::
    ((List.range (ilog2 (v + 1))).reverse.map fun a => (v + 1).testBit a)

/-- The byte holding up to eight bits, the first bit least significant. -/
def packByte : List Bool → Nat
  | [] => 0
  | b :: bs => b.toNat + 2 * packByte bs

/-- Bits packed into bytes, least significant bit first, the last byte padded
with zero bits. -/
def packBits (bs : List Bool) : List Nat :=
  (List.range ((bs.length + 7) / 8)).map fun j => packByte ((bs.drop (8 * j)).take 8)

/-- Encoding of one unsigned variable-length integer. -/
def encodeVarUInt (v : Nat) : List Nat :=
  packBits (encodeBits v)

/-- Encoding of a length-prefixed string: two length bytes, high byte first,
then the bytes of the string. -/
def encodeUTF8 (s : List Nat) : List Nat :=
  (s.length / 256) :: (s.length % 256) :: s

/-- Encoding of a string-cache section: the count, then each string. -/
def encodeStringCache (ss : List (List Nat)) : List Nat :=
  encodeVarUInt ss.length ++ (ss.map encodeUTF8).flatten

/-- A concrete reader state for examples, with a given registry: no buffer,
cursor at 0, an empty string cache and no recorded root. It is not the state
the constructor leaves: the constructor (lines 13-20) registers the six
loaders and initialises neither `mBytes` nor `mRootNode`. -/
def freshReader (loaders : List (List Nat × Nat)) : CCBReader :=
  { mBytes := none, mCurrentByte := 0, mCurrentBit := 0, mStringCache := [],
    mCCNodeLoaders := loaders, mRootNode := none, mOwner := none,
    mRootContainerSize := ⟨0, 0⟩ }

/-- `n` successive calls of `readInt(pSign)`, collecting the results. -/
def readInts (pSign : Bool) : Nat → CCBReader → Res (List Int × CCBReader)
  | 0, r => pure ([], r)
  | n + 1, r => do
    let (v, r1) ← readInt pSign r
    let (vs, r2) ← readInts pSign n r1
    pure (v :: vs, r2)

/-! ## Bit-level description of the buffer -/

/-- Bit `i` of the buffer: bit `i % 8` (bit 0 least significant) of byte `i / 8`. -/
def bitAt (b : List Nat) (i : Nat) : Bool :=
  (b.getD (i / 8) 0).testBit (i % 8)

/-- The reader with its cursor on bit `i` of the buffer. -/
def atBit (r : CCBReader) (i : Nat) : CCBReader :=
  { r with mCurrentByte := i / 8, mCurrentBit := i % 8 }

/-- Value of the `m` bits from bit `i` on, the first one most significant. -/
def bitsVal (b : List Nat) : Nat → Nat → Nat
  | _, 0 => 0
  | i, m + 1 => (bitAt b i).toNat * 2 ^ m + bitsVal b (i + 1) m

/-- A reader positioned at the start of a given buffer. -/
def onBuffer (r : CCBReader) (b : List Nat) : CCBReader :=
  { r with mBytes := some b, mCurrentByte := 0, mCurrentBit := 0 }

/-- Bit index of the cursor: eight times the byte offset plus the bit offset. -/
def bitPos (r : CCBReader) : Nat :=
  8 * r.mCurrentByte + r.mCurrentBit

/-- The accumulated value that stands for the signed integer `k`: `2k + 1` for
`k ≥ 0` and `-2k` for `k < 0`. -/
def accOf (k : Int) : Nat :=
  if 0 ≤ k then (2 * k + 1).toNat else (-2 * k).toNat

/-- The four bytes of the `int` `'ccbi'` in memory order (little-endian
target): the characters `i`, `b`, `c`, `c`. -/
def kMagicBytes : List Nat :=
  [0x69, 0x62, 0x63, 0x63]

/-- The two readers differ at most in the cursor. -/
def sameData (r r1 : CCBReader) : Prop :=
  r1.mBytes = r.mBytes ∧ r1.mStringCache = r.mStringCache ∧
  r1.mCCNodeLoaders = r.mCCNodeLoaders ∧ r1.mRootNode = r.mRootNode ∧
  r1.mOwner = r.mOwner ∧ r1.mRootContainerSize = r.mRootContainerSize

/-- The call `readNodeGraph(pParent)` on reader `r` meets a class name without
an entry in the registry: at the node itself, or at a node below it whose
decoding is reached after every earlier step returned normally. -/
inductive ReachesUnknownType (load : LoaderTable) : Nat → Option CCNode → CCBReader → Prop where
  | here (fuel : Nat) (pParent : Option CCNode) (r r1 : CCBReader)
      (className memberVarAssignmentName : List Nat) (memberVarAssignmentType : Int) :
      readNodeHead r = .ok ((className, memberVarAssignmentType, memberVarAssignmentName), r1) →
      mapFind r1.mCCNodeLoaders className = none →
      ReachesUnknownType load (fuel + 1) pParent r
  | child (fuel : Nat) (pParent : Option CCNode) (r r1 r2 r4 rj : CCBReader)
      (className memberVarAssignmentName : List Nat) (memberVarAssignmentType : Int)
      (ccNodeLoader : Nat) (node nodej : CCNode) (numChildren : Int) (j : Nat) :
      readNodeHead r = .ok ((className, memberVarAssignmentType, memberVarAssignmentName), r1) →
      getCCNodeLoader className r1 = .ok ccNodeLoader →
      load ccNodeLoader pParent r1 = .ok (node, r2) →
      readInt false (setRootNode node r2) = .ok (numChildren, r4) →
      j < numChildren.toNat →
      readChildren (readNodeGraph load fuel) j node r4 = .ok (nodej, rj) →
      ReachesUnknownType load fuel (some nodej) rj →
      ReachesUnknownType load (fuel + 1) pParent r

/-- A loader table for examples: every loader reads one property byte and
returns a childless node whose address is that byte. -/
def byteLoader : LoaderTable :=
  fun _ _ r => do
    let (b, r1) ← readByte r
    pure (CCNode.mk b [], r1)

/-- The call ended in a failure that the code detects: a failed `assert`. -/
def Res.isFailure {α : Type} : Res α → Bool
  | .abort => true
  | _ => false

/-- Starting from `node` in state `r`, the children `cs` are decoded one after
the other in stream order, each by `readChild` with the node as it stands (the
children decoded before already added) as parent; the last one leaves the
reader in state `r2`. -/
inductive ChildrenDecoded (readChild : Option CCNode → CCBReader → Res (CCNode × CCBReader)) :
    CCNode → CCBReader → List CCNode → CCBReader → Prop where
  | done (node : CCNode) (r : CCBReader) : ChildrenDecoded readChild node r [] r
  | step (node child : CCNode) (r r1 r2 : CCBReader) (cs : List CCNode) :
      readChild (some node) r = .ok (child, r1) →
      ChildrenDecoded readChild (node.addChild child) r1 cs r2 →
      ChildrenDecoded readChild node r (child :: cs) r2

/-- Lines 223-272 of `readNodeGraph`: everything after the head of the node,
from the lookup of the loader on. -/
def readNodeBody (load : LoaderTable) (fuel : Nat) (pParent : Option CCNode)
    (className : List Nat) (r : CCBReader) : Res (CCNode × CCBReader) := do
  let ccNodeLoader ← getCCNodeLoader className r
  let (node, r2) ← load ccNodeLoader pParent r
  let r3 := setRootNode node r2
  let (numChildren, r4) ← readInt false r3
  readChildren (readNodeGraph load fuel) numChildren.toNat node r4

/-- Modelled from the spec: the tag constants of `readFloat` are defined in
`CCBReader.h`; the tags 0, 1, 2 and 3 stand for the fixed results. -/
def kCCBFloat0 : Nat := 0

/-- Modelled from the spec: tag of the result `1`, defined in `CCBReader.h`. -/
def kCCBFloat1 : Nat := 1

/-- Modelled from the spec: tag of the result `-1`, defined in `CCBReader.h`. -/
def kCCBFloatMinus1 : Nat := 2

/-- Modelled from the spec: tag of the result `0.5`, defined in `CCBReader.h`. -/
def kCCBFloat05 : Nat := 3

/-- Division of `a` by `2 ^ k`, rounded to the nearest integer, a tie going to
the even one: the rounding of the conversion of an `int` to `float`. -/
def roundShift (a k : Nat) : Nat :=
  if 2 * (a % 2 ^ k) > 2 ^ k ∨ (2 * (a % 2 ^ k) = 2 ^ k ∧ (a / 2 ^ k) % 2 = 1) then
    a / 2 ^ k + 1
  else a / 2 ^ k

/-- The binary32 pattern (sign 0) of the natural number `a < 2 ^ 32` converted
to `float`: biased exponent `127 + ilog2 a` above the 23 fraction bits; a
number of more than 24 bits is rounded to 24 bits, and a fraction that rounds
up to `2 ^ 24` carries into the exponent. -/
def natToF32 (a : Nat) : Nat :=
  if a = 0 then 0
  else if ilog2 a ≤ 23 then (127 + ilog2 a) * 2 ^ 23 + (a * 2 ^ (23 - ilog2 a) - 2 ^ 23)
  else (127 + ilog2 a) * 2 ^ 23 + (roundShift a (ilog2 a - 23) - 2 ^ 23)

/-- Conversion of an `int` to `float`, as a binary32 pattern with the sign in
bit 31. An `int` of more than 24 significant bits lies between two `float`
values and C++ leaves the choice to the implementation; the targets of the
library (ARM, x86) round to the nearest one, a tie going to the even
fraction. -/
def intToF32 (i : Int) : Nat :=
  if i < 0 then 2 ^ 31 + natToF32 i.natAbs else natToF32 i.natAbs

/-- The value of a finite binary32 pattern, times `2 ^ 150`: an integer. Bit 31
is the sign, bits 23..30 the biased exponent `e`, bits 0..22 the fraction `m`;
the value is `(2 ^ 23 + m) * 2 ^ (e - 150)` for `e > 0` and `m * 2 ^ (-149)`
for `e = 0`. -/
def f32Scaled (bits : Nat) : Int :=
  (if bits / 2 ^ 31 % 2 = 1 then -1 else 1) *
    (if bits / 2 ^ 23 % 256 = 0 then ((bits % 2 ^ 23 * 2 : Nat) : Int)
     else (((2 ^ 23 + bits % 2 ^ 23) * 2 ^ (bits / 2 ^ 23 % 256) : Nat) : Int))

/-- The value of a finite binary32 pattern (biased exponent below 255). -/
def f32Value (bits : Nat) : Rat :=
  (f32Scaled bits : Rat) / 2 ^ 150

/-- The integer nearest to `a` that has at most 24 significant bits, a tie
going to the even 24-bit number: the value of `a` converted to `float`. -/
def roundToF32 (a : Nat) : Nat :=
  if ilog2 a ≤ 23 then a else roundShift a (ilog2 a - 23) * 2 ^ (ilog2 a - 23)

/-- The binary32 pattern of the literal `0.5f`. -/
def kHalfF32 : Nat := 0x3F000000

/-- `CCBReader::readFloat` (lines 155-179). A `float` is its binary32 pattern;
the results `0`, `1`, `-1` and `readInt(true)` are `int` values converted to
`float`, and the last case copies four bytes of the buffer into the `float`
(little-endian target). `kCCBFloatInteger` is defined in `CCBReader.h` and is a
parameter here; as a `case` label it differs from the four other labels. -/
def readFloat (kCCBFloatInteger : Nat) (r : CCBReader) : Res (Nat × CCBReader) := do
  let (type, r1) ← readByte r
  if type = kCCBFloat0 then pure (intToF32 0, r1)
  else if type = kCCBFloat1 then pure (intToF32 1, r1)
  else if type = kCCBFloatMinus1 then pure (intToF32 (-1), r1)
  else if type = kCCBFloat05 then pure (kHalfF32, r1)
  else if type = kCCBFloatInteger then do
    let (i, r2) ← readInt true r1
    pure (intToF32 i, r2)
  else
    match r1.mBytes with
    | none => .undefined
    | some b =>
      match b[r1.mCurrentByte]?, b[r1.mCurrentByte + 1]?, b[r1.mCurrentByte + 2]?,
          b[r1.mCurrentByte + 3]? with
      | some b0, some b1, some b2, some b3 =>
        pure (loadInt b0 b1 b2 b3, { r1 with mCurrentByte := r1.mCurrentByte + 4 })
      | _, _, _, _ => .undefined

/-- Number of `getBit` calls made by the loop `while(!this->getBit())` of
`readInt` from the state `r`, the call that ends the loop included; the first
argument is the iteration budget. -/
def scanCalls : Nat → CCBReader → Nat
  | 0, _ => 0
  | fuel + 1, r =>
    match getBit r with
    | .ok (false, r1) => 1 + scanCalls fuel r1
    | _ => 1

/-- The loaders leave the recorded root alone: they reach the reader through
its read operations and do not assign `mRootNode`. -/
def LoadersKeepRoot (load : LoaderTable) : Prop :=
  ∀ (l : Nat) (pParent : Option CCNode) (r r1 : CCBReader) (node : CCNode),
    load l pParent r = .ok (node, r1) → r1.mRootNode = r.mRootNode

/-! ## Lemmas on the bit reader -/

@[simp]
theorem Res.ok_bind {α β : Type} (a : α) (f : α → Res β) : (Res.ok a >>= f) = f a := rfl
@[simp]
theorem Res.abort_bind {α β : Type} (f : α → Res β) : (Res.abort >>= f) = Res.abort := rfl
@[simp]
theorem Res.undefined_bind {α β : Type} (f : α → Res β) : (Res.undefined >>= f) = Res.undefined := rfl
@[simp]
theorem Res.exhausted_bind {α β : Type} (f : α → Res β) :
    (Res.exhausted >>= f) = Res.exhausted := rfl
@[simp]
theorem Res.pure_eq {α : Type} (a : α) : (pure a : Res α) = Res.ok a := rfl

theorem and_shift_ne_zero (byte k : Nat) :
    decide (byte &&& (1 <<< k) ≠ 0) = byte.testBit k := by
  rw [Nat.one_shiftLeft, Nat.and_two_pow]
  cases h : byte.testBit k <;> simp [Nat.pos_pow_of_pos]

theorem getBit_atBit (r : CCBReader) (b : List Nat) (i : Nat) (hb : r.mBytes = some b)
    (hi : i < 8 * b.length) :
    getBit (atBit r i) = .ok (bitAt b i, atBit r (i + 1)) := by
  have h8 : i / 8 < b.length := by omega
  unfold getBit
  simp only [atBit, hb, List.getElem?_eq_getElem h8, and_shift_ne_zero]
  by_cases h7 : i % 8 + 1 ≥ 8
  · have h1 : (i + 1) / 8 = i / 8 + 1 := by omega
    have h2 : (i + 1) % 8 = 0 := by omega
    simp [h7, bitAt, List.getElem?_eq_getElem h8, h1, h2]
  · have h1 : (i + 1) / 8 = i / 8 := by omega
    have h2 : (i + 1) % 8 = i % 8 + 1 := by omega
    simp [h7, bitAt, List.getElem?_eq_getElem h8, h1, h2]

theorem scanZeros_spec (r : CCBReader) (b : List Nat) (hb : r.mBytes = some b) :
    ∀ (n i k fuel : Nat), (∀ j, j < n → bitAt b (i + j) = false) → bitAt b (i + n) = true →
      i + n < 8 * b.length → n < fuel →
      scanZeros fuel k (atBit r i) = .ok (k + n, atBit r (i + n + 1)) := by
  intro n
  induction n with
  | zero =>
    intro i k fuel _ h1 hlen hf
    obtain ⟨f, rfl⟩ : ∃ f, fuel = f + 1 := ⟨fuel - 1, by omega⟩
    simp only [scanZeros, getBit_atBit r b i hb (by omega)]
    simp at h1
    simp [h1]
  | succ n ih =>
    intro i k fuel h0 h1 hlen hf
    obtain ⟨f, rfl⟩ : ∃ f, fuel = f + 1 := ⟨fuel - 1, by omega⟩
    have hz : bitAt b i = false := by simpa using h0 0 (by omega)
    simp only [scanZeros, getBit_atBit r b i hb (by omega)]
    simp only [Res.ok_bind, hz]
    have := ih (i + 1) (k + 1) f (fun j hj => by
      have := h0 (j + 1) (by omega)
      rwa [show i + (j + 1) = i + 1 + j by omega] at this)
      (by rwa [show i + 1 + n = i + (n + 1) by omega]) (by omega) (by omega)
    simp only [Bool.false_eq_true, if_false]
    rw [this]
    congr 2
    · omega
    · rw [show i + 1 + n + 1 = i + (n + 1) + 1 by omega]

theorem bitsVal_lt (b : List Nat) : ∀ (m i : Nat), bitsVal b i m < 2 ^ m := by
  intro m
  induction m with
  | zero => intro i; simp [bitsVal]
  | succ m ih =>
    intro i
    have := ih (i + 1)
    have hb : (bitAt b i).toNat ≤ 1 := Bool.toNat_le _
    simp only [bitsVal, pow_succ]
    nlinarith

theorem readBits_spec (r : CCBReader) (b : List Nat) (hb : r.mBytes = some b) :
    ∀ (m i q : Nat), m ≤ 31 → i + m ≤ 8 * b.length →
      readBits m (2 ^ m * q) (atBit r i) = .ok (2 ^ m * q + bitsVal b i m, atBit r (i + m)) := by
  intro m
  induction m with
  | zero => intro i q _ _; simp [readBits, bitsVal]
  | succ m ih =>
    intro i q hm hlen
    simp only [readBits, getBit_atBit r b i hb (by omega), Res.ok_bind]
    have hsh : shl1 m = .ok (2 ^ m) := by simp [shl1]; omega
    cases hbit : bitAt b i
    · simp only [Bool.false_eq_true, if_false]
      have := ih (i + 1) (2 * q) (by omega) (by omega)
      rw [show 2 ^ m * (2 * q) = 2 ^ (m + 1) * q by ring] at this
      rw [this]
      simp [bitsVal, hbit, show i + 1 + m = i + (m + 1) by omega]
    · simp only [if_true, hsh, Res.ok_bind]
      have hor : 2 ^ (m + 1) * q ||| 2 ^ m = 2 ^ m * (2 * q + 1) := by
        rw [← Nat.mul_add_lt_is_or (Nat.pow_lt_pow_right (by omega) (Nat.lt_succ_self m)) q,
          pow_succ]
        ring
      rw [hor, ih (i + 1) (2 * q + 1) (by omega) (by omega)]
      simp only [bitsVal, hbit, show i + 1 + m = i + (m + 1) by omega, Bool.toNat_true]
      congr 2
      ring

theorem atBit_mBytes (r : CCBReader) (i : Nat) : (atBit r i).mBytes = r.mBytes := rfl

theorem bitsLeft_atBit (r : CCBReader) (b : List Nat) (hb : r.mBytes = some b) (i : Nat) :
    bitsLeft (atBit r i) = 8 * (b.length - i / 8) := by
  simp [bitsLeft, atBit, hb]

theorem alignBits_atBit (r : CCBReader) (j : Nat) :
    alignBits (atBit r j) = atBit r (8 * ((j + 7) / 8)) := by
  unfold alignBits atBit
  by_cases h : j % 8 = 0
  · have h1 : 8 * ((j + 7) / 8) / 8 = j / 8 := by omega
    have h2 : 8 * ((j + 7) / 8) % 8 = 0 := by omega
    simp [h, h1, h2]
  · have h1 : 8 * ((j + 7) / 8) / 8 = j / 8 + 1 := by omega
    have h2 : 8 * ((j + 7) / 8) % 8 = 0 := by omega
    simp [h, h1, h2]

theorem toInt64_small (p : Nat) (h : p < 2 ^ 63) : toInt64 p = (p : Int) := by
  have h1 : p % 2 ^ 64 = p := Nat.mod_eq_of_lt (by omega)
  unfold toInt64
  rw [h1, if_pos h]

/-- What `readInt` returns on a unary run of `n ≤ 30` zero bits. -/
theorem readInt_spec (pSign : Bool) (r : CCBReader) (b : List Nat) (hb : r.mBytes = some b)
    (n i : Nat) (hn : n ≤ 30) (h0 : ∀ j, j < n → bitAt b (i + j) = false)
    (h1 : bitAt b (i + n) = true) (hlen : i + 2 * n + 1 ≤ 8 * b.length) :
    readInt pSign (atBit r i) =
      .ok (intOfCurrent pSign ((2 ^ n + bitsVal b (i + n + 1) n : Nat) : Int),
        atBit r (8 * ((i + 2 * n + 1 + 7) / 8))) := by
  unfold readInt
  rw [bitsLeft_atBit r b hb, scanZeros_spec r b hb n i 0 _ h0 h1 (by omega) (by omega)]
  have hrb := readBits_spec r b hb n (i + n + 1) 0 (by omega) (by omega)
  simp only [Nat.mul_zero, Nat.zero_add] at hrb
  have hsh : shl1 n = .ok (2 ^ n) := by simp [shl1]; omega
  simp only [Res.ok_bind, Nat.zero_add, hrb, hsh, Res.pure_eq, alignBits_atBit]
  have hlt := bitsVal_lt b n (i + n + 1)
  have hor : bitsVal b (i + n + 1) n ||| 2 ^ n = 2 ^ n + bitsVal b (i + n + 1) n := by
    rw [Nat.lor_comm]
    have := Nat.mul_add_lt_is_or hlt 1
    simpa using this.symm
  have hp : 2 ^ n ≤ 2 ^ 30 := Nat.pow_le_pow_right (by omega) hn
  rw [hor, toInt64_small _ (by omega)]
  congr 3
  omega

/-- What `readInt` returns on a unary run of 31 zero bits: `1 << 31` is negative. -/
theorem readInt_spec31 (pSign : Bool) (r : CCBReader) (b : List Nat) (hb : r.mBytes = some b)
    (i : Nat) (h0 : ∀ j, j < 31 → bitAt b (i + j) = false)
    (h1 : bitAt b (i + 31) = true) (hlen : i + 63 ≤ 8 * b.length) :
    readInt pSign (atBit r i) =
      .ok (intOfCurrent pSign ((bitsVal b (i + 32) 31 : Nat) - 2 ^ 31 : Int),
        atBit r (8 * ((i + 63 + 7) / 8))) := by
  unfold readInt
  rw [bitsLeft_atBit r b hb, scanZeros_spec r b hb 31 i 0 _ h0 h1 (by omega) (by omega)]
  have hrb := readBits_spec r b hb 31 (i + 31 + 1) 0 (by omega) (by omega)
  simp only [Nat.mul_zero, Nat.zero_add] at hrb
  have hsh : shl1 31 = .ok (2 ^ 64 - 2 ^ 31) := by simp [shl1]
  simp only [Res.ok_bind, Nat.zero_add, hrb, hsh, Res.pure_eq, alignBits_atBit]
  have hlt := bitsVal_lt b 31 (i + 31 + 1)
  have hor : bitsVal b (i + 31 + 1) 31 ||| (2 ^ 64 - 2 ^ 31) =
      2 ^ 64 - 2 ^ 31 + bitsVal b (i + 31 + 1) 31 := by
    rw [Nat.lor_comm]
    have := Nat.mul_add_lt_is_or hlt (2 ^ 33 - 1)
    rw [show 2 ^ 31 * (2 ^ 33 - 1) = 2 ^ 64 - 2 ^ 31 by norm_num] at this
    exact this.symm
  have h64 : toInt64 (2 ^ 64 - 2 ^ 31 + bitsVal b (i + 31 + 1) 31) =
      (bitsVal b (i + 31 + 1) 31 : Int) - 2 ^ 31 := by
    unfold toInt64
    have hm : (2 ^ 64 - 2 ^ 31 + bitsVal b (i + 31 + 1) 31) % 2 ^ 64 =
        2 ^ 64 - 2 ^ 31 + bitsVal b (i + 31 + 1) 31 := Nat.mod_eq_of_lt (by omega)
    rw [hm, if_neg (by omega)]
    push_cast
    omega
  rw [hor, h64]

theorem packByte_testBit : ∀ (l : List Bool) (k : Nat),
    (packByte l).testBit k = l.getD k false := by
  intro l
  induction l with
  | nil => intro k; simp [packByte]
  | cons x xs ih =>
    intro k
    have hx : x.toNat ≤ 1 := Bool.toNat_le _
    cases k with
    | zero =>
      simp only [packByte, Nat.testBit_zero]
      cases x <;> simp
    | succ k =>
      rw [Nat.testBit_succ]
      have : (packByte (x :: xs)) / 2 = packByte xs := by
        simp only [packByte]; omega
      rw [this, ih]
      simp

theorem getD_drop_take (bs : List Bool) (q k : Nat) (hk : k < 8) :
    ((bs.drop (8 * q)).take 8).getD k false = bs.getD (8 * q + k) false := by
  simp [List.getD, List.getElem?_take, hk, List.getElem?_drop]

theorem bitAt_packBits (pre post : List Nat) (bs : List Bool) (j : Nat)
    (hj : j < 8 * ((bs.length + 7) / 8)) :
    bitAt (pre ++ packBits bs ++ post) (8 * pre.length + j) = bs.getD j false := by
  have hq : j / 8 < (packBits bs).length := by simp [packBits]; omega
  have h1 : (8 * pre.length + j) / 8 = pre.length + j / 8 := by omega
  have h2 : (8 * pre.length + j) % 8 = j % 8 := by omega
  unfold bitAt
  rw [h1, h2, List.append_assoc, List.getD_eq_getElem?_getD, List.getElem?_append_right (by omega),
    Nat.add_sub_cancel_left, List.getElem?_append_left hq]
  have : (packBits bs)[j / 8]? = some (packByte ((bs.drop (8 * (j / 8))).take 8)) := by
    simp only [packBits]
    rw [List.getElem?_map, List.getElem?_range (by simpa [packBits] using hq)]
    rfl
  rw [this]
  simp only [Option.getD_some, packByte_testBit]
  rw [getD_drop_take _ _ _ (by omega)]
  congr 1
  omega

theorem bitsVal_eq_mod (b : List Nat) (x : Nat) : ∀ (m i : Nat),
    (∀ j, j < m → bitAt b (i + j) = x.testBit (m - 1 - j)) → bitsVal b i m = x % 2 ^ m := by
  intro m
  induction m with
  | zero => intro i _; simp [bitsVal, Nat.mod_one]
  | succ m ih =>
    intro i h
    have hi := h 0 (by omega)
    simp only [Nat.add_zero, Nat.add_sub_cancel, Nat.sub_zero] at hi
    have hrest := ih (i + 1) (fun j hj => by
      have := h (j + 1) (by omega)
      rw [show i + (j + 1) = i + 1 + j by omega, show m + 1 - 1 - (j + 1) = m - 1 - j by omega]
        at this
      exact this)
    simp only [bitsVal, hi, hrest, Nat.toNat_testBit]
    rw [Nat.mod_pow_succ (x := x) (b := 2) (k := m)]
    ring

theorem log2Fuel_spec : ∀ (fuel x : Nat), x ≠ 0 → x ≤ fuel →
    2 ^ log2Fuel fuel x ≤ x ∧ x < 2 ^ (log2Fuel fuel x + 1) := by
  intro fuel
  induction fuel with
  | zero => intro x h0 h; omega
  | succ fuel ih =>
    intro x h0 h
    by_cases h2 : x < 2
    · have : x = 1 := by omega
      simp [log2Fuel, this]
    · simp only [log2Fuel, h2, if_false]
      have := ih (x / 2) (by omega) (by omega)
      rw [pow_succ, pow_succ]
      omega

theorem ilog2_le (x : Nat) (h : x ≠ 0) : 2 ^ ilog2 x ≤ x :=
  (log2Fuel_spec x x h (Nat.le_refl x)).1

theorem ilog2_lt (x : Nat) (h : x ≠ 0) : x < 2 ^ (ilog2 x + 1) :=
  (log2Fuel_spec x x h (Nat.le_refl x)).2

theorem encodeBits_length (v : Nat) : (encodeBits v).length = 2 * ilog2 (v + 1) + 1 := by
  simp [encodeBits]; omega

theorem encodeBits_zero (v j : Nat) (hj : j < ilog2 (v + 1)) :
    (encodeBits v).getD j false = false := by
  simp [encodeBits, List.getD, List.getElem?_append_left, hj]

theorem encodeBits_one (v : Nat) : (encodeBits v).getD (ilog2 (v + 1)) false = true := by
  rw [List.getD_eq_getElem?_getD]
  simp only [encodeBits]
  rw [List.getElem?_append_right (by simp)]
  simp

theorem encodeBits_low (v j : Nat) (hj : j < ilog2 (v + 1)) :
    (encodeBits v).getD (ilog2 (v + 1) + 1 + j) false =
      (v + 1).testBit (ilog2 (v + 1) - 1 - j) := by
  rw [List.getD_eq_getElem?_getD]
  simp only [encodeBits]
  rw [List.getElem?_append_right (by simp; omega)]
  simp only [List.length_replicate]
  rw [show ilog2 (v + 1) + 1 + j - ilog2 (v + 1) = j + 1 by omega]
  simp [List.getElem?_map, List.getElem?_reverse, hj, List.getElem?_range]

theorem encodeVarUInt_length (v : Nat) :
    (encodeVarUInt v).length = (2 * ilog2 (v + 1) + 8) / 8 := by
  simp only [encodeVarUInt, packBits, encodeBits_length, List.length_map, List.length_range]

theorem toInt32_small (x : Int) (h1 : -2 ^ 31 ≤ x) (h2 : x < 2 ^ 31) : toInt32 x = x := by
  unfold toInt32
  omega

theorem bitAt_encode (pre post : List Nat) (v j : Nat) (hj : j < 2 * ilog2 (v + 1) + 1) :
    bitAt (pre ++ encodeVarUInt v ++ post) (8 * pre.length + j) = (encodeBits v).getD j false := by
  apply bitAt_packBits
  rw [encodeBits_length]
  omega

theorem align63 (p : Nat) : 8 * ((8 * p + 63 + 7) / 8) = 8 * (p + (2 * 31 + 8) / 8) := by
  omega

theorem readInt_encode (r : CCBReader) (pre post : List Nat) (v : Nat) (hv : v < 2 ^ 31)
    (hb : r.mBytes = some (pre ++ encodeVarUInt v ++ post)) :
    readInt false (atBit r (8 * pre.length)) =
      .ok ((v : Int), atBit r (8 * (pre.length + (encodeVarUInt v).length))) := by
  have hle : 2 ^ ilog2 (v + 1) ≤ v + 1 := ilog2_le _ (by omega)
  have hlt : v + 1 < 2 ^ (ilog2 (v + 1) + 1) := ilog2_lt _ (by omega)
  have hn31 : ilog2 (v + 1) < 32 := by
    have h32 : 2 ^ ilog2 (v + 1) < 2 ^ 32 := by omega
    exact (Nat.pow_lt_pow_iff_right (by omega)).1 h32
  have hlenb : (pre ++ encodeVarUInt v ++ post).length =
      pre.length + (2 * ilog2 (v + 1) + 8) / 8 + post.length := by
    simp only [List.length_append, encodeVarUInt_length]
  have hzero : ∀ j, j < ilog2 (v + 1) →
      bitAt (pre ++ encodeVarUInt v ++ post) (8 * pre.length + j) = false := by
    intro j hj
    rw [bitAt_encode pre post v j (by omega), encodeBits_zero v j hj]
  have hone : bitAt (pre ++ encodeVarUInt v ++ post) (8 * pre.length + ilog2 (v + 1)) = true := by
    rw [bitAt_encode pre post v _ (by omega), encodeBits_one]
  have hval : bitsVal (pre ++ encodeVarUInt v ++ post) (8 * pre.length + ilog2 (v + 1) + 1)
      (ilog2 (v + 1)) = (v + 1) % 2 ^ ilog2 (v + 1) := by
    apply bitsVal_eq_mod
    intro j hj
    rw [show 8 * pre.length + ilog2 (v + 1) + 1 + j =
      8 * pre.length + (ilog2 (v + 1) + 1 + j) by omega,
      bitAt_encode pre post v _ (by omega), encodeBits_low v j hj]
  have hmod : (v + 1) % 2 ^ ilog2 (v + 1) = v + 1 - 2 ^ ilog2 (v + 1) := by
    rw [Nat.mod_eq_sub_mod hle, Nat.mod_eq_of_lt]
    rw [pow_succ] at hlt
    omega
  rw [encodeVarUInt_length]
  by_cases hn : ilog2 (v + 1) ≤ 30
  · rw [readInt_spec false r _ hb (ilog2 (v + 1)) (8 * pre.length) hn hzero hone
      (by rw [hlenb]; omega), hval, hmod]
    congr 2
    · simp only [intOfCurrent, Bool.false_eq_true, if_false]
      rw [toInt32_small] <;> omega
    · congr 1; omega
  · have h31 : ilog2 (v + 1) = 31 := by omega
    rw [h31] at hzero hone hval hmod hle hlenb ⊢
    rw [readInt_spec31 false r _ hb (8 * pre.length) hzero hone (by rw [hlenb]; omega), hval, hmod]
    have hv1 : v + 1 = 2 ^ 31 := by omega
    have hres : intOfCurrent false (((v + 1 - 2 ^ 31 : Nat) : Int) - 2 ^ 31) = (v : Int) := by
      have h0 : v + 1 - 2 ^ 31 = 0 := by omega
      rw [h0]
      simp only [intOfCurrent, Bool.false_eq_true, if_false]
      unfold toInt32
      omega
    rw [hres, align63]

theorem atBit_mul8 (r : CCBReader) (p : Nat) :
    atBit r (8 * p) = { r with mCurrentByte := p, mCurrentBit := 0 } := by
  simp [atBit]

theorem readInts_encode (r : CCBReader) : ∀ (vs : List Nat) (pre post : List Nat),
    (∀ v, v ∈ vs → v < 2 ^ 31) →
    r.mBytes = some (pre ++ (vs.map encodeVarUInt).flatten ++ post) →
    readInts false vs.length (atBit r (8 * pre.length)) =
      .ok (vs.map Int.ofNat,
        atBit r (8 * (pre.length + ((vs.map encodeVarUInt).flatten).length))) := by
  intro vs
  induction vs with
  | nil => intro pre post _ _; simp [readInts]
  | cons v vs ih =>
    intro pre post hv hb
    have hb1 : r.mBytes = some (pre ++ encodeVarUInt v ++
        ((vs.map encodeVarUInt).flatten ++ post)) := by
      rw [hb]; simp [List.append_assoc]
    have hb2 : r.mBytes = some ((pre ++ encodeVarUInt v) ++
        (vs.map encodeVarUInt).flatten ++ post) := by
      rw [hb]; simp [List.append_assoc]
    have h1 := readInt_encode r pre _ v (hv v (by simp)) hb1
    have h2 := ih (pre ++ encodeVarUInt v) post (fun w hw => hv w (by simp [hw])) hb2
    simp only [List.length_append] at h2
    simp only [readInts, List.length_cons, h1, Res.ok_bind, h2, Res.pure_eq, List.map_cons,
      List.flatten_cons, List.length_append, Nat.add_assoc]
    rfl

theorem mapFind_append_self (m : List (List Nat × Nat)) (k : List Nat) (v : Nat)
    (h : mapFind m k = none) : mapFind (m ++ [(k, v)]) k = some v := by
  induction m with
  | nil => simp [mapFind, List.lookup]
  | cons x xs ih =>
    obtain ⟨k1, v1⟩ := x
    simp only [mapFind, List.cons_append, List.lookup] at h ⊢
    cases hk : (k == k1)
    · simp only [hk] at h
      exact ih h
    · simp [hk] at h

theorem mapFind_mapInsert_self (m : List (List Nat × Nat)) (k : List Nat) (v : Nat) :
    mapFind (mapInsert m k v) k = some ((mapFind m k).getD v) := by
  unfold mapInsert
  cases h : mapFind m k with
  | none => simp [mapFind_append_self m k v h]
  | some w => simp [h]

theorem atBit_bitPos (r : CCBReader) (h : r.mCurrentBit < 8) : atBit r (bitPos r) = r := by
  have h1 : (8 * r.mCurrentByte + r.mCurrentBit) / 8 = r.mCurrentByte := by omega
  have h2 : (8 * r.mCurrentByte + r.mCurrentBit) % 8 = r.mCurrentBit := by omega
  simp [atBit, bitPos, h1, h2]

theorem intOfCurrent_signed (v : Nat) (h1 : 1 ≤ v) (h2 : v < 2 ^ 31) :
    intOfCurrent true (v : Int) = if v % 2 = 1 then ((v / 2 : Nat) : Int) else -((v / 2 : Nat) : Int) := by
  have hm : (v : Int).tmod 2 = ((v % 2 : Nat) : Int) := by
    rw [Int.tmod_eq_emod (by omega) (by omega)]; omega
  have hd : (v : Int).tdiv 2 = ((v / 2 : Nat) : Int) := by
    rw [Int.tdiv_eq_ediv (by omega) (by omega)]; omega
  simp only [intOfCurrent, if_true, hm, hd]
  by_cases hodd : v % 2 = 1
  · rw [hodd, if_pos (by decide), if_pos rfl, toInt32_small] <;> omega
  · have he : v % 2 = 0 := by omega
    have hneg : (-(v : Int)).tdiv 2 = -((v / 2 : Nat) : Int) := by
      rw [Int.neg_tdiv, hd]
    rw [he, if_neg (by decide), if_neg (by omega), hneg, toInt32_small] <;> omega

theorem readInt_encode_any (pSign : Bool) (r : CCBReader) (pre post : List Nat) (v : Nat)
    (hv : v + 1 < 2 ^ 31) (hb : r.mBytes = some (pre ++ encodeVarUInt v ++ post)) :
    readInt pSign (atBit r (8 * pre.length)) =
      .ok (intOfCurrent pSign ((v + 1 : Nat) : Int),
        atBit r (8 * (pre.length + (encodeVarUInt v).length))) := by
  have hle : 2 ^ ilog2 (v + 1) ≤ v + 1 := ilog2_le _ (by omega)
  have hlt : v + 1 < 2 ^ (ilog2 (v + 1) + 1) := ilog2_lt _ (by omega)
  have hn : ilog2 (v + 1) ≤ 30 := by
    have h31 : 2 ^ ilog2 (v + 1) < 2 ^ 31 := by omega
    have := (Nat.pow_lt_pow_iff_right (by omega)).1 h31
    omega
  have hlenb : (pre ++ encodeVarUInt v ++ post).length =
      pre.length + (2 * ilog2 (v + 1) + 8) / 8 + post.length := by
    simp only [List.length_append, encodeVarUInt_length]
  have hzero : ∀ j, j < ilog2 (v + 1) →
      bitAt (pre ++ encodeVarUInt v ++ post) (8 * pre.length + j) = false := by
    intro j hj
    rw [bitAt_encode pre post v j (by omega), encodeBits_zero v j hj]
  have hone : bitAt (pre ++ encodeVarUInt v ++ post) (8 * pre.length + ilog2 (v + 1)) = true := by
    rw [bitAt_encode pre post v _ (by omega), encodeBits_one]
  have hval : bitsVal (pre ++ encodeVarUInt v ++ post) (8 * pre.length + ilog2 (v + 1) + 1)
      (ilog2 (v + 1)) = (v + 1) % 2 ^ ilog2 (v + 1) := by
    apply bitsVal_eq_mod
    intro j hj
    rw [show 8 * pre.length + ilog2 (v + 1) + 1 + j =
      8 * pre.length + (ilog2 (v + 1) + 1 + j) by omega,
      bitAt_encode pre post v _ (by omega), encodeBits_low v j hj]
  have hmod : (v + 1) % 2 ^ ilog2 (v + 1) = v + 1 - 2 ^ ilog2 (v + 1) := by
    rw [Nat.mod_eq_sub_mod hle, Nat.mod_eq_of_lt]
    rw [pow_succ] at hlt
    omega
  rw [encodeVarUInt_length, readInt_spec pSign r _ hb (ilog2 (v + 1)) (8 * pre.length) hn hzero hone
      (by rw [hlenb]; omega), hval, hmod]
  congr 3
  · omega
  · congr 1; omega

theorem loadInt_eq_magic (b0 b1 b2 b3 : Nat) (h0 : b0 < 256) (h1 : b1 < 256) (h2 : b2 < 256) :
    loadInt b0 b1 b2 b3 = kMagic ↔ [b0, b1, b2, b3] = kMagicBytes := by
  simp only [loadInt, kMagic, kMagicBytes, List.cons.injEq, and_true]
  omega

theorem readHeader_cons4 (kCCBVersion : Int) (r : CCBReader) (b0 b1 b2 b3 : Nat)
    (rest : List Nat) (hb : r.mBytes = some (b0 :: b1 :: b2 :: b3 :: rest))
    (h0 : r.mCurrentByte = 0) :
    readHeader kCCBVersion r =
      if loadInt b0 b1 b2 b3 ≠ kMagic then .ok (false, { r with mCurrentByte := 4 })
      else (readInt false { r with mCurrentByte := 4 }).bind fun (version, r2) =>
        if version ≠ kCCBVersion then .ok (false, r2) else .ok (true, r2) := by
  obtain ⟨mb, cb, cbit, sc, ld, rn, ow, sz⟩ := r
  simp only at hb h0
  subst hb h0
  simp [readHeader, Bind.bind, Res.bind]

theorem sameData_refl (r : CCBReader) : sameData r r :=
  ⟨rfl, rfl, rfl, rfl, rfl, rfl⟩

theorem sameData_trans {r r1 r2 : CCBReader} (h1 : sameData r r1) (h2 : sameData r1 r2) :
    sameData r r2 :=
  ⟨h2.1.trans h1.1, h2.2.1.trans h1.2.1, h2.2.2.1.trans h1.2.2.1,
    h2.2.2.2.1.trans h1.2.2.2.1, h2.2.2.2.2.1.trans h1.2.2.2.2.1,
    h2.2.2.2.2.2.trans h1.2.2.2.2.2⟩

theorem getBit_sameData (r r1 : CCBReader) (bit : Bool) (h : getBit r = .ok (bit, r1)) :
    sameData r r1 := by
  unfold getBit at h
  split at h
  · simp at h
  · split at h
    · simp at h
    · simp only at h
      split at h <;>
      · injection h with h
        injection h with _ h
        subst h
        exact ⟨rfl, rfl, rfl, rfl, rfl, rfl⟩

theorem scanZeros_sameData : ∀ (fuel n : Nat) (r r1 : CCBReader) (m : Nat),
    scanZeros fuel n r = .ok (m, r1) → sameData r r1 := by
  intro fuel
  induction fuel with
  | zero => intro n r r1 m h; simp [scanZeros] at h
  | succ fuel ih =>
    intro n r r1 m h
    simp only [scanZeros] at h
    cases hg : getBit r with
    | ok a =>
      obtain ⟨bit, r2⟩ := a
      rw [hg] at h
      simp only [Res.ok_bind] at h
      have h2 := getBit_sameData r r2 bit hg
      cases bit
      · simp only [Bool.false_eq_true, if_false] at h
        exact sameData_trans h2 (ih _ _ _ _ h)
      · simp only [if_true, Res.pure_eq] at h
        injection h with h
        injection h with _ h
        subst h
        exact h2
    | abort => rw [hg] at h; simp at h
    | undefined => rw [hg] at h; simp at h
    | exhausted => rw [hg] at h; simp at h

theorem readBits_sameData : ∀ (a c : Nat) (r r1 : CCBReader) (m : Nat),
    readBits a c r = .ok (m, r1) → sameData r r1 := by
  intro a
  induction a with
  | zero =>
    intro c r r1 m h
    simp only [readBits, Res.pure_eq] at h
    injection h with h
    injection h with _ h
    subst h
    exact sameData_refl r
  | succ a ih =>
    intro c r r1 m h
    simp only [readBits] at h
    cases hg : getBit r with
    | ok x =>
      obtain ⟨bit, r2⟩ := x
      rw [hg] at h
      simp only [Res.ok_bind] at h
      have h2 := getBit_sameData r r2 bit hg
      cases bit
      · simp only [Bool.false_eq_true, if_false] at h
        exact sameData_trans h2 (ih _ _ _ _ h)
      · simp only [if_true] at h
        cases hs : shl1 a with
        | ok s =>
          rw [hs] at h
          simp only [Res.ok_bind] at h
          exact sameData_trans h2 (ih _ _ _ _ h)
        | abort => rw [hs] at h; simp at h
        | undefined => rw [hs] at h; simp at h
        | exhausted => rw [hs] at h; simp at h
    | abort => rw [hg] at h; simp at h
    | undefined => rw [hg] at h; simp at h
    | exhausted => rw [hg] at h; simp at h

theorem alignBits_sameData (r : CCBReader) : sameData r (alignBits r) := by
  unfold alignBits
  split <;> exact ⟨rfl, rfl, rfl, rfl, rfl, rfl⟩

theorem readInt_sameData (pSign : Bool) (r r1 : CCBReader) (v : Int)
    (h : readInt pSign r = .ok (v, r1)) : sameData r r1 := by
  unfold readInt at h
  cases hs : scanZeros (bitsLeft r + 1) 0 r with
  | ok x =>
    obtain ⟨n, r2⟩ := x
    rw [hs] at h
    simp only [Res.ok_bind] at h
    cases hr : readBits n 0 r2 with
    | ok y =>
      obtain ⟨c, r3⟩ := y
      rw [hr] at h
      simp only [Res.ok_bind] at h
      cases ht : shl1 n with
      | ok t =>
        rw [ht] at h
        simp only [Res.ok_bind, Res.pure_eq] at h
        injection h with h
        injection h with _ h
        subst h
        exact sameData_trans (scanZeros_sameData _ _ _ _ _ hs)
          (sameData_trans (readBits_sameData _ _ _ _ _ hr) (alignBits_sameData r3))
      | abort => rw [ht] at h; simp at h
      | undefined => rw [ht] at h; simp at h
      | exhausted => rw [ht] at h; simp at h
    | abort => rw [hr] at h; simp at h
    | undefined => rw [hr] at h; simp at h
    | exhausted => rw [hr] at h; simp at h
  | abort => rw [hs] at h; simp at h
  | undefined => rw [hs] at h; simp at h
  | exhausted => rw [hs] at h; simp at h

theorem Res.bind_eq_ok {α β : Type} (x : Res α) (f : α → Res β) (b : β) :
    (x >>= f) = .ok b ↔ ∃ a, x = .ok a ∧ f a = .ok b := by
  cases x <;> simp

theorem readHeader_false_cases (kCCBVersion : Int) (r r1 : CCBReader)
    (h : readHeader kCCBVersion r = .ok (false, r1)) :
    (r.mBytes = none ∧ r1 = r) ∨
    r1 = { r with mCurrentByte := r.mCurrentByte + 4 } ∨
    ∃ version, version ≠ kCCBVersion ∧
      readInt false { r with mCurrentByte := r.mCurrentByte + 4 } = .ok (version, r1) := by
  unfold readHeader at h
  split at h
  · left
    rename_i hb
    injection h with h
    injection h with _ h
    exact ⟨hb, h.symm⟩
  · right
    split at h
    · simp only at h
      split at h
      · left
        injection h with h
        injection h with _ h
        exact h.symm
      · right
        rw [Res.bind_eq_ok] at h
        obtain ⟨⟨version, r2⟩, hri, hres⟩ := h
        simp only at hres
        split at hres
        · rename_i hv
          simp only [Res.pure_eq] at hres
          injection hres with hres
          injection hres with _ hres
          subst hres
          exact ⟨version, hv, hri⟩
        · simp at hres
    · simp at h

theorem readChildren_abort (readChild : Option CCNode → CCBReader → Res (CCNode × CCBReader)) :
    ∀ (j n : Nat) (node nodej : CCNode) (r rj : CCBReader), j < n →
      readChildren readChild j node r = .ok (nodej, rj) →
      readChild (some nodej) rj = .abort →
      readChildren readChild n node r = .abort := by
  intro j
  induction j with
  | zero =>
    intro n node nodej r rj hn hj hab
    obtain ⟨m, rfl⟩ : ∃ m, n = m + 1 := ⟨n - 1, by omega⟩
    simp only [readChildren, Res.pure_eq] at hj
    injection hj with hj
    injection hj with h1 h2
    subst h1 h2
    simp [readChildren, hab]
  | succ j ih =>
    intro n node nodej r rj hn hj hab
    obtain ⟨m, rfl⟩ : ∃ m, n = m + 1 := ⟨n - 1, by omega⟩
    simp only [readChildren] at hj ⊢
    rw [Res.bind_eq_ok] at hj
    obtain ⟨⟨child, r1⟩, hc, hrest⟩ := hj
    rw [hc]
    simp only [Res.ok_bind]
    exact ih m _ _ _ _ (by omega) hrest hab

theorem readNodeGraph_abort_of_reaches (load : LoaderTable) (fuel : Nat)
    (pParent : Option CCNode) (r : CCBReader) (h : ReachesUnknownType load fuel pParent r) :
    readNodeGraph load fuel pParent r = .abort := by
  induction h with
  | here fuel pParent r r1 className name ty hhead hfind =>
    simp [readNodeGraph, hhead, getCCNodeLoader, hfind]
  | child fuel pParent r r1 r2 r4 rj className name ty l node nodej numChildren j hhead hget
      hload hnum hj hchildren _ ih =>
    simp only [readNodeGraph, hhead, Res.ok_bind, hget, hload, hnum]
    exact readChildren_abort _ j _ node nodej r4 rj hj hchildren ih

theorem atBit_of_cursor (r : CCBReader) (p : Nat) (hp : r.mCurrentByte = p)
    (hbit : r.mCurrentBit = 0) : atBit r (8 * p) = r := by
  obtain ⟨mb, cb, cbit, sc, ld, rn, ow, sz⟩ := r
  simp only at hp hbit
  subst hp hbit
  simp [atBit]

theorem readByte_at (r : CCBReader) (b : List Nat) (hb : r.mBytes = some b)
    (h : r.mCurrentByte < b.length) :
    readByte r = .ok (b[r.mCurrentByte], { r with mCurrentByte := r.mCurrentByte + 1 }) := by
  unfold readByte
  rw [hb]
  simp only [List.getElem?_eq_getElem h]

theorem shift_or_byte (a c : Nat) (hc : c < 256) : (a <<< 8) ||| c = 256 * a + c := by
  rw [Nat.shiftLeft_eq, Nat.mul_comm]
  exact (Nat.mul_add_lt_is_or (i := 8) (by simpa using hc) a).symm

theorem readUTF8_encode (r : CCBReader) (pre post s : List Nat)
    (hb : r.mBytes = some (pre ++ encodeUTF8 s ++ post)) (hp : r.mCurrentByte = pre.length) :
    readUTF8 r = .ok (s, { r with mCurrentByte := pre.length + (encodeUTF8 s).length }) := by
  obtain ⟨mb, cb, cbit, sc, ld, rn, ow, sz⟩ := r
  simp only at hb hp
  subst hb hp
  have hlen : (pre ++ encodeUTF8 s ++ post).length = pre.length + (s.length + 2) + post.length := by
    simp [encodeUTF8]
    omega
  have h0 : (pre ++ encodeUTF8 s ++ post)[pre.length]? = some (s.length / 256) := by
    rw [List.append_assoc, List.getElem?_append_right (Nat.le_refl _)]
    simp [encodeUTF8]
  have h1 : (pre ++ encodeUTF8 s ++ post)[pre.length + 1]? = some (s.length % 256) := by
    rw [List.append_assoc, List.getElem?_append_right (by omega)]
    simp [encodeUTF8]
  have hnum : (s.length / 256) <<< 8 ||| s.length % 256 = s.length := by
    rw [shift_or_byte _ _ (Nat.mod_lt _ (by omega))]
    omega
  have hdrop : List.take s.length (List.drop (pre.length + 1 + 1) (pre ++ encodeUTF8 s ++ post)) = s := by
    have : pre ++ encodeUTF8 s ++ post =
        (pre ++ [s.length / 256, s.length % 256]) ++ (s ++ post) := by
      simp [encodeUTF8]
    rw [this, List.drop_append_of_le_length (by simp), List.drop_of_length_le (by simp)]
    simp
  simp only [readUTF8, readByte, h0, h1, Res.ok_bind, hnum, hlen, Res.pure_eq, hdrop]
  rw [if_pos (by omega)]
  simp [encodeUTF8]
  omega

theorem readStrings_encode : ∀ (ss : List (List Nat)) (r : CCBReader) (pre post : List Nat),
    r.mBytes = some (pre ++ (ss.map encodeUTF8).flatten ++ post) →
    r.mCurrentByte = pre.length →
    readStrings ss.length r =
      .ok { r with mCurrentByte := pre.length + ((ss.map encodeUTF8).flatten).length,
                   mStringCache := r.mStringCache ++ ss } := by
  intro ss
  induction ss with
  | nil =>
    intro r pre post _ hp
    obtain ⟨mb, cb, cbit, sc, ld, rn, ow, sz⟩ := r
    simp only at hp
    subst hp
    simp [readStrings]
  | cons s ss ih =>
    intro r pre post hb hp
    have hb1 : r.mBytes = some (pre ++ encodeUTF8 s ++ ((ss.map encodeUTF8).flatten ++ post)) := by
      rw [hb]; simp [List.append_assoc]
    have h1 := readUTF8_encode r pre _ s hb1 hp
    have h2 := ih { r with mCurrentByte := pre.length + (encodeUTF8 s).length,
                           mStringCache := r.mStringCache ++ [s] }
      (pre ++ encodeUTF8 s) post (by rw [hb]; simp [List.append_assoc]) (by simp)
    simp only [readStrings, List.length_cons, h1, Res.ok_bind, h2]
    simp [List.append_assoc, Nat.add_assoc]

theorem readStringCache_encode (ss : List (List Nat)) (r : CCBReader) (pre post : List Nat)
    (hn : ss.length < 2 ^ 31)
    (hb : r.mBytes = some (pre ++ encodeStringCache ss ++ post))
    (hp : r.mCurrentByte = pre.length) (hbit : r.mCurrentBit = 0) :
    readStringCache r =
      .ok (true, { r with mCurrentByte := pre.length + (encodeStringCache ss).length,
                          mStringCache := r.mStringCache ++ ss }) := by
  have hb1 : r.mBytes = some (pre ++ encodeVarUInt ss.length ++
      ((ss.map encodeUTF8).flatten ++ post)) := by
    rw [hb]; simp [encodeStringCache, List.append_assoc]
  have h1 := readInt_encode r pre _ ss.length hn hb1
  rw [atBit_of_cursor r _ hp hbit, atBit_mul8] at h1
  have h2 := readStrings_encode ss
    { r with mCurrentByte := pre.length + (encodeVarUInt ss.length).length, mCurrentBit := 0 }
    (pre ++ encodeVarUInt ss.length) post
    (by rw [hb]; simp [encodeStringCache, List.append_assoc]) (by simp)
  simp only [readStringCache, h1, Res.ok_bind, Int.toNat_ofNat, h2, Res.pure_eq]
  obtain ⟨mb, cb, cbit, sc, ld, rn, ow, sz⟩ := r
  simp only at hbit
  subst hbit
  simp [encodeStringCache, Nat.add_assoc]

theorem readCachedString_encode (r : CCBReader) (pre post : List Nat) (i : Nat) (s : List Nat)
    (hi : r.mStringCache[i]? = some s) (h31 : i < 2 ^ 31)
    (hb : r.mBytes = some (pre ++ encodeVarUInt i ++ post))
    (hp : r.mCurrentByte = pre.length) (hbit : r.mCurrentBit = 0) :
    readCachedString r =
      .ok (s, { r with mCurrentByte := pre.length + (encodeVarUInt i).length }) := by
  have h1 := readInt_encode r pre post i h31 hb
  rw [atBit_of_cursor r _ hp hbit, atBit_mul8] at h1
  simp only [readCachedString, h1, Res.ok_bind, Int.toNat_ofNat, hi, Res.pure_eq]
  obtain ⟨mb, cb, cbit, sc, ld, rn, ow, sz⟩ := r
  simp only at hbit
  subst hbit
  simp

theorem CCNode.mk_ident_children (node : CCNode) : CCNode.mk node.ident node.children = node := by
  cases node
  rfl

theorem readChildren_iff (readChild : Option CCNode → CCBReader → Res (CCNode × CCBReader)) :
    ∀ (k : Nat) (node node1 : CCNode) (r r1 : CCBReader),
      readChildren readChild k node r = .ok (node1, r1) ↔
        ∃ cs : List CCNode, cs.length = k ∧ ChildrenDecoded readChild node r cs r1 ∧
          node1 = CCNode.mk node.ident (node.children ++ cs) := by
  intro k
  induction k with
  | zero =>
    intro node node1 r r1
    simp only [readChildren, Res.pure_eq]
    constructor
    · intro h
      injection h with h
      injection h with h1 h2
      subst h1 h2
      exact ⟨[], rfl, .done _ _, by simp [CCNode.mk_ident_children]⟩
    · rintro ⟨cs, hlen, hdec, hnode⟩
      have hcs : cs = [] := List.length_eq_zero.1 hlen
      subst hcs
      cases hdec
      simp [hnode, CCNode.mk_ident_children]
  | succ k ih =>
    intro node node1 r r1
    simp only [readChildren]
    rw [Res.bind_eq_ok]
    constructor
    · rintro ⟨⟨child, r2⟩, hc, hrest⟩
      obtain ⟨cs, hlen, hdec, hnode⟩ := (ih _ _ _ _).1 hrest
      refine ⟨child :: cs, by simp [hlen], .step _ _ _ _ _ _ hc hdec, ?_⟩
      simp [hnode, CCNode.addChild, CCNode.ident, CCNode.children]
    · rintro ⟨cs, hlen, hdec, hnode⟩
      cases hdec with
      | done => simp at hlen
      | step _ child _ r2 _ cs1 hc hdec1 =>
        refine ⟨(child, r2), hc, ?_⟩
        refine (ih _ _ _ _).2 ⟨cs1, by simpa using hlen, hdec1, ?_⟩
        simp [hnode, CCNode.addChild, CCNode.ident, CCNode.children]

theorem scanZeros_ne_exhausted : ∀ (fuel n : Nat) (r : CCBReader), 0 < fuel →
    (∀ b, r.mBytes = some b →
      8 * (b.length - r.mCurrentByte) + 1 ≤ fuel + min r.mCurrentBit 7) →
    scanZeros fuel n r ≠ .exhausted := by
  intro fuel
  induction fuel with
  | zero => intro n r h; omega
  | succ fuel ih =>
    intro n r _ hrem
    obtain ⟨mb, cb, cbit, sc, ld, rn, ow, sz⟩ := r
    simp only at hrem
    simp only [scanZeros, getBit]
    cases mb with
    | none => simp
    | some b =>
      have hrem := hrem b rfl
      simp only
      by_cases hlt : cb < b.length
      · simp only [List.getElem?_eq_getElem hlt]
        by_cases h8 : cbit + 1 ≥ 8
        · simp only [h8, if_true, Res.ok_bind]
          split
          · simp
          · apply ih
            · omega
            · intro b2 hb2
              simp only [Option.some.injEq] at hb2
              subst hb2
              simp only
              omega
        · simp only [h8, if_false, Res.ok_bind]
          split
          · simp
          · apply ih
            · omega
            · intro b2 hb2
              simp only [Option.some.injEq] at hb2
              subst hb2
              simp only
              omega
      · simp [List.getElem?_eq_none (Nat.le_of_not_lt hlt)]

theorem readBits_ne_exhausted : ∀ (a c : Nat) (r : CCBReader), readBits a c r ≠ .exhausted := by
  intro a
  induction a with
  | zero => intro c r; simp [readBits]
  | succ a ih =>
    intro c r h
    simp only [readBits] at h
    cases hg : getBit r with
    | ok x =>
      obtain ⟨bit, r1⟩ := x
      rw [hg] at h
      simp only [Res.ok_bind] at h
      cases bit
      · exact ih _ _ h
      · simp only [if_true] at h
        unfold shl1 at h
        split at h
        · exact ih _ _ h
        · split at h
          · exact ih _ _ h
          · simp at h
    | abort => rw [hg] at h; simp at h
    | undefined => rw [hg] at h; simp at h
    | exhausted =>
      unfold getBit at hg
      split at hg
      · simp at hg
      · split at hg
        · simp at hg
        · simp only at hg
          split at hg <;> simp at hg

/-- The iteration budget that `readInt` gives to its first loop never runs
out: `readInt` returns or ends in an unchecked access. -/
theorem readInt_ne_exhausted (pSign : Bool) (r : CCBReader) : readInt pSign r ≠ .exhausted := by
  intro h
  unfold readInt at h
  have hs := scanZeros_ne_exhausted (bitsLeft r + 1) 0 r (by omega) (by
    intro b hb
    simp only [bitsLeft, hb]
    omega)
  cases hsc : scanZeros (bitsLeft r + 1) 0 r with
  | ok x =>
    obtain ⟨n, r1⟩ := x
    rw [hsc] at h
    simp only [Res.ok_bind] at h
    cases hrb : readBits n 0 r1 with
    | ok y =>
      obtain ⟨c, r2⟩ := y
      rw [hrb] at h
      simp only [Res.ok_bind] at h
      unfold shl1 at h
      split at h
      · simp at h
      · split at h <;> simp at h
    | abort => rw [hrb] at h; simp at h
    | undefined => rw [hrb] at h; simp at h
    | exhausted => exact readBits_ne_exhausted _ _ _ hrb
  | abort => rw [hsc] at h; simp at h
  | undefined => rw [hsc] at h; simp at h
  | exhausted => exact hs hsc

/-- The signed result of `readInt` on a unary run of at most 30 zero bits. -/
theorem readInt_signed_spec (r : CCBReader) (b : List Nat) (numBits : Nat)
    (hb : r.mBytes = some b) (hk : r.mCurrentBit < 8) (hn : numBits ≤ 30)
    (hzero : ∀ j, j < numBits → bitAt b (bitPos r + j) = false)
    (hone : bitAt b (bitPos r + numBits) = true)
    (hlen : bitPos r + 2 * numBits + 1 ≤ 8 * b.length) :
    readInt true r =
      .ok (if (2 ^ numBits + bitsVal b (bitPos r + numBits + 1) numBits) % 2 = 1
          then (((2 ^ numBits + bitsVal b (bitPos r + numBits + 1) numBits) / 2 : Nat) : Int)
          else -(((2 ^ numBits + bitsVal b (bitPos r + numBits + 1) numBits) / 2 : Nat) : Int),
        { r with mCurrentByte := (bitPos r + 2 * numBits + 1 + 7) / 8, mCurrentBit := 0 }) := by
  have h := readInt_spec true r b hb numBits (bitPos r) hn hzero hone hlen
  rw [atBit_bitPos r hk, atBit_mul8] at h
  have hlt := bitsVal_lt b numBits (bitPos r + numBits + 1)
  have hp : 2 ^ numBits ≤ 2 ^ 30 := Nat.pow_le_pow_right (by omega) hn
  have hpos : 0 < 2 ^ numBits := Nat.pos_pow_of_pos _ (by omega)
  rw [h, intOfCurrent_signed _ (by omega) (by omega)]

theorem readByte_bit (r : CCBReader) (x : Nat) (r1 : CCBReader)
    (h : readByte r = .ok (x, r1)) : r1.mCurrentBit = r.mCurrentBit := by
  unfold readByte at h
  split at h
  · simp at h
  · split at h
    · simp at h
    · injection h with h
      injection h with _ h
      subst h
      rfl

theorem readBits_cursor (r : CCBReader) (b : List Nat) (hb : r.mBytes = some b) :
    ∀ (m i c c1 : Nat) (r1 : CCBReader),
      readBits m c (atBit r i) = .ok (c1, r1) → r1 = atBit r (i + m) := by
  intro m
  induction m with
  | zero =>
    intro i c c1 r1 h
    simp only [readBits, Res.pure_eq] at h
    injection h with h
    injection h with _ h
    exact h.symm
  | succ m ih =>
    intro i c c1 r1 h
    simp only [readBits] at h
    rw [Res.bind_eq_ok] at h
    obtain ⟨⟨bit, r2⟩, hg, h⟩ := h
    have hin : i < 8 * b.length := by
      by_contra hcon
      have hnone : b[i / 8]? = none := List.getElem?_eq_none (by omega)
      simp [getBit, atBit, hb, hnone] at hg
    rw [getBit_atBit r b i hb hin] at hg
    injection hg with hg
    injection hg with _ hg
    subst hg
    simp only at h
    rw [show i + (m + 1) = i + 1 + m by omega]
    split at h
    · rw [Res.bind_eq_ok] at h
      obtain ⟨s, _, h⟩ := h
      exact ih _ _ _ _ h
    · exact ih _ _ _ _ h
theorem alignBits_bit (r : CCBReader) : (alignBits r).mCurrentBit = 0 := by
  unfold alignBits
  split
  · rfl
  · rename_i h
    simpa using h

theorem readInt_bit (pSign : Bool) (r r1 : CCBReader) (v : Int)
    (h : readInt pSign r = .ok (v, r1)) : r1.mCurrentBit = 0 := by
  unfold readInt at h
  rw [Res.bind_eq_ok] at h
  obtain ⟨⟨n, r2⟩, _, h⟩ := h
  simp only at h
  rw [Res.bind_eq_ok] at h
  obtain ⟨⟨c, r3⟩, _, h⟩ := h
  simp only at h
  rw [Res.bind_eq_ok] at h
  obtain ⟨top, _, h⟩ := h
  simp only [Res.pure_eq] at h
  injection h with h
  injection h with _ h
  subst h
  exact alignBits_bit r3

theorem readInt_cursor_of_run (pSign : Bool) (r : CCBReader) (b : List Nat)
    (hb : r.mBytes = some b) (n i : Nat)
    (h0 : ∀ j, j < n → bitAt b (i + j) = false) (h1 : bitAt b (i + n) = true)
    (hlen : i + n < 8 * b.length) (v : Int) (r1 : CCBReader)
    (h : readInt pSign (atBit r i) = .ok (v, r1)) :
    r1 = atBit r (8 * ((i + 2 * n + 1 + 7) / 8)) := by
  unfold readInt at h
  rw [bitsLeft_atBit r b hb, scanZeros_spec r b hb n i 0 _ h0 h1 hlen (by omega)] at h
  simp only [Res.ok_bind, Nat.zero_add] at h
  rw [Res.bind_eq_ok] at h
  obtain ⟨⟨c, r3⟩, hrb, h⟩ := h
  simp only at h
  rw [Res.bind_eq_ok] at h
  obtain ⟨top, _, h⟩ := h
  simp only [Res.pure_eq] at h
  injection h with h
  injection h with _ h
  subst h
  have hpos := readBits_cursor r b hb n (i + n + 1) 0 c r3 hrb
  rw [hpos, alignBits_atBit]
  congr 3
  omega

theorem getBit_ok_inv (r r1 : CCBReader) (b : List Nat) (x : Bool) (hb : r.mBytes = some b)
    (h : getBit r = .ok (x, r1)) :
    r.mCurrentByte < b.length ∧ r1.mBytes = some b ∧ r1.mCurrentByte ≤ b.length ∧
    (r1.mCurrentBit ≠ 0 → r1.mCurrentByte < b.length) := by
  obtain ⟨mb, cb, cbit, sc, ld, rn, ow, sz⟩ := r
  simp only at hb
  subst hb
  by_cases hlt : cb < b.length
  · simp only [getBit, List.getElem?_eq_getElem hlt] at h
    split at h
    · injection h with h
      injection h with _ h
      subst h
      exact ⟨hlt, rfl, by simp only; omega, by simp⟩
    · injection h with h
      injection h with _ h
      subst h
      exact ⟨hlt, rfl, by simp only; omega, fun _ => hlt⟩
  · simp [getBit, List.getElem?_eq_none (Nat.le_of_not_lt hlt)] at h

theorem scanZeros_ok_inv : ∀ (fuel n m : Nat) (r r1 : CCBReader) (b : List Nat),
    r.mBytes = some b → scanZeros fuel n r = .ok (m, r1) →
    r1.mBytes = some b ∧ r1.mCurrentByte ≤ b.length ∧
    (r1.mCurrentBit ≠ 0 → r1.mCurrentByte < b.length) := by
  intro fuel
  induction fuel with
  | zero => intro n m r r1 b _ h; simp [scanZeros] at h
  | succ fuel ih =>
    intro n m r r1 b hb h
    simp only [scanZeros] at h
    rw [Res.bind_eq_ok] at h
    obtain ⟨⟨bit, r2⟩, hg, h⟩ := h
    have hinv := getBit_ok_inv r r2 b bit hb hg
    cases bit
    · simp only [Bool.false_eq_true, if_false] at h
      exact ih _ _ _ _ _ hinv.2.1 h
    · simp only [if_true, Res.pure_eq] at h
      injection h with h
      injection h with _ h
      subst h
      exact ⟨hinv.2.1, hinv.2.2.1, hinv.2.2.2⟩

theorem readBits_ok_inv : ∀ (a c c1 : Nat) (r r1 : CCBReader) (b : List Nat),
    r.mBytes = some b → r.mCurrentByte ≤ b.length →
    (r.mCurrentBit ≠ 0 → r.mCurrentByte < b.length) →
    readBits a c r = .ok (c1, r1) →
    r1.mCurrentByte ≤ b.length ∧ (r1.mCurrentBit ≠ 0 → r1.mCurrentByte < b.length) := by
  intro a
  induction a with
  | zero =>
    intro c c1 r r1 b _ h1 h2 h
    simp only [readBits, Res.pure_eq] at h
    injection h with h
    injection h with _ h
    subst h
    exact ⟨h1, h2⟩
  | succ a ih =>
    intro c c1 r r1 b hb _ _ h
    simp only [readBits] at h
    rw [Res.bind_eq_ok] at h
    obtain ⟨⟨bit, r2⟩, hg, h⟩ := h
    have hinv := getBit_ok_inv r r2 b bit hb hg
    simp only at h
    split at h
    · rw [Res.bind_eq_ok] at h
      obtain ⟨s, _, h⟩ := h
      exact ih _ _ _ _ _ hinv.2.1 hinv.2.2.1 hinv.2.2.2 h
    · exact ih _ _ _ _ _ hinv.2.1 hinv.2.2.1 hinv.2.2.2 h

theorem readInt_ok_inside (pSign : Bool) (r r1 : CCBReader) (b : List Nat) (v : Int)
    (hb : r.mBytes = some b) (h : readInt pSign r = .ok (v, r1)) :
    r1.mCurrentByte ≤ b.length := by
  unfold readInt at h
  rw [Res.bind_eq_ok] at h
  obtain ⟨⟨n, r2⟩, hs, h⟩ := h
  simp only at h
  rw [Res.bind_eq_ok] at h
  obtain ⟨⟨c, r3⟩, hr, h⟩ := h
  simp only at h
  rw [Res.bind_eq_ok] at h
  obtain ⟨top, _, h⟩ := h
  simp only [Res.pure_eq] at h
  injection h with h
  injection h with _ h
  subst h
  have h2 := scanZeros_ok_inv _ _ _ _ _ b hb hs
  have h3 := readBits_ok_inv _ _ _ _ _ b h2.1 h2.2.1 h2.2.2 hr
  unfold alignBits
  split
  · rename_i hne
    have := h3.2 hne
    simp only
    omega
  · exact h3.1

theorem scanCalls_le : ∀ (fuel : Nat) (r : CCBReader) (b : List Nat), r.mBytes = some b →
    scanCalls fuel r ≤ 8 * (b.length - r.mCurrentByte) - min r.mCurrentBit 7 + 1 := by
  intro fuel
  induction fuel with
  | zero => intro r b _; simp only [scanCalls]; omega
  | succ fuel ih =>
    intro r b hb
    simp only [scanCalls]
    cases hg : getBit r with
    | ok x =>
      obtain ⟨bit, r1⟩ := x
      have hinv := getBit_ok_inv r r1 b bit hb hg
      cases bit
      · simp only
        have := ih r1 b hinv.2.1
        obtain ⟨mb, cb, cbit, sc, ld, rn, ow, sz⟩ := r
        simp only at hb hinv this ⊢
        subst hb
        simp only [getBit, List.getElem?_eq_getElem hinv.1] at hg
        split at hg
        · injection hg with hg
          injection hg with _ hg
          subst hg
          simp only at this hinv
          omega
        · injection hg with hg
          injection hg with _ hg
          subst hg
          simp only at this hinv
          omega
      · simp only
        omega
    | abort => simp only; omega
    | undefined => simp only; omega
    | exhausted => simp only; omega

theorem scanZeros_fuel_add : ∀ (fuel n : Nat) (r : CCBReader),
    scanZeros fuel n r ≠ .exhausted → ∀ k, scanZeros (fuel + k) n r = scanZeros fuel n r := by
  intro fuel
  induction fuel with
  | zero => intro n r h; simp [scanZeros] at h
  | succ fuel ih =>
    intro n r h k
    rw [show fuel + 1 + k = (fuel + k) + 1 by omega]
    simp only [scanZeros] at h ⊢
    cases hg : getBit r with
    | ok x =>
      obtain ⟨bit, r1⟩ := x
      rw [hg] at h
      simp only [Res.ok_bind] at h ⊢
      cases bit
      · simp only [Bool.false_eq_true, if_false] at h ⊢
        exact ih _ _ h k
      · rfl
    | abort => rfl
    | undefined => rfl
    | exhausted => rfl

theorem scanZeros_zero_tail (r : CCBReader) (b : List Nat) (hb : r.mBytes = some b) :
    ∀ (m i k fuel : Nat), i + m = 8 * b.length → (∀ j, j < m → bitAt b (i + j) = false) →
      m < fuel → scanZeros fuel k (atBit r i) = .undefined := by
  intro m
  induction m with
  | zero =>
    intro i k fuel hi _ hf
    obtain ⟨f, rfl⟩ : ∃ f, fuel = f + 1 := ⟨fuel - 1, by omega⟩
    have hnone : b[i / 8]? = none := List.getElem?_eq_none (by omega)
    simp [scanZeros, getBit, atBit, hb, hnone]
  | succ m ih =>
    intro i k fuel hi h0 hf
    obtain ⟨f, rfl⟩ : ∃ f, fuel = f + 1 := ⟨fuel - 1, by omega⟩
    have hz : bitAt b i = false := by simpa using h0 0 (by omega)
    simp only [scanZeros, getBit_atBit r b i hb (by omega), Res.ok_bind, hz, Bool.false_eq_true,
      if_false]
    exact ih (i + 1) (k + 1) f (by omega) (fun j hj => by
      have := h0 (j + 1) (by omega)
      rwa [show i + (j + 1) = i + 1 + j by omega] at this) (by omega)

theorem getBit_ne_abort (r : CCBReader) : getBit r ≠ .abort := by
  unfold getBit
  split
  · simp
  · split
    · simp
    · simp only
      split <;> simp

theorem scanZeros_ne_abort : ∀ (fuel n : Nat) (r : CCBReader), scanZeros fuel n r ≠ .abort := by
  intro fuel
  induction fuel with
  | zero => intro n r; simp [scanZeros]
  | succ fuel ih =>
    intro n r h
    simp only [scanZeros] at h
    cases hg : getBit r with
    | ok x =>
      obtain ⟨bit, r1⟩ := x
      rw [hg] at h
      simp only [Res.ok_bind] at h
      cases bit
      · exact ih _ _ h
      · simp at h
    | abort => exact getBit_ne_abort r hg
    | undefined => rw [hg] at h; simp at h
    | exhausted => rw [hg] at h; simp at h

theorem readBits_ne_abort : ∀ (a c : Nat) (r : CCBReader), readBits a c r ≠ .abort := by
  intro a
  induction a with
  | zero => intro c r; simp [readBits]
  | succ a ih =>
    intro c r h
    simp only [readBits] at h
    cases hg : getBit r with
    | ok x =>
      obtain ⟨bit, r1⟩ := x
      rw [hg] at h
      simp only [Res.ok_bind] at h
      cases bit
      · exact ih _ _ h
      · simp only [if_true] at h
        unfold shl1 at h
        split at h
        · exact ih _ _ h
        · split at h
          · exact ih _ _ h
          · simp at h
    | abort => exact getBit_ne_abort r hg
    | undefined => rw [hg] at h; simp at h
    | exhausted => rw [hg] at h; simp at h

theorem readInt_ne_abort (pSign : Bool) (r : CCBReader) : readInt pSign r ≠ .abort := by
  intro h
  unfold readInt at h
  cases hsc : scanZeros (bitsLeft r + 1) 0 r with
  | ok x =>
    obtain ⟨n, r1⟩ := x
    rw [hsc] at h
    simp only [Res.ok_bind] at h
    cases hrb : readBits n 0 r1 with
    | ok y =>
      obtain ⟨c, r2⟩ := y
      rw [hrb] at h
      simp only [Res.ok_bind] at h
      unfold shl1 at h
      split at h
      · simp at h
      · split at h <;> simp at h
    | abort => exact readBits_ne_abort _ _ _ hrb
    | undefined => rw [hrb] at h; simp at h
    | exhausted => rw [hrb] at h; simp at h
  | abort => exact scanZeros_ne_abort _ _ _ hsc
  | undefined => rw [hsc] at h; simp at h
  | exhausted => rw [hsc] at h; simp at h

theorem readInt_zero_tail (pSign : Bool) (r : CCBReader) (b : List Nat) (hb : r.mBytes = some b)
    (hk : r.mCurrentBit < 8)
    (hzero : ∀ i, bitPos r ≤ i → i < 8 * b.length → bitAt b i = false) :
    readInt pSign r = .undefined := by
  have hr : atBit r (bitPos r) = r := atBit_bitPos r hk
  have hscan : scanZeros (bitsLeft r + 1) 0 r = .undefined := by
    by_cases hin : bitPos r ≤ 8 * b.length
    · rw [← hr, bitsLeft_atBit r b hb]
      apply scanZeros_zero_tail r b hb (8 * b.length - bitPos r) (bitPos r) 0 _ (by omega)
      · intro j hj
        exact hzero _ (by omega) (by omega)
      · simp only [bitPos] at hin ⊢
        omega
    · have hnone : b[r.mCurrentByte]? = none :=
        List.getElem?_eq_none (by simp only [bitPos] at hin; omega)
      simp [scanZeros, getBit, hb, hnone]
  simp [readInt, hscan]

theorem readHeader_encode (r : CCBReader) (post : List Nat) (v : Nat) (hv : v < 2 ^ 31)
    (hb : r.mBytes = some (kMagicBytes ++ encodeVarUInt v ++ post))
    (hp : r.mCurrentByte = 0) (hbit : r.mCurrentBit = 0) :
    readHeader (v : Int) r =
      .ok (true, { r with mCurrentByte := 4 + (encodeVarUInt v).length }) := by
  have hb4 : r.mBytes = some (105 :: 98 :: 99 :: 99 :: (encodeVarUInt v ++ post)) := by
    rw [hb]; rfl
  rw [readHeader_cons4 (v : Int) r 105 98 99 99 _ hb4 hp]
  have hmag : loadInt 105 98 99 99 = kMagic := by decide
  rw [if_neg (by simp [hmag])]
  have hri := readInt_encode { r with mCurrentByte := 4 } kMagicBytes post v hv hb
  have h4 : kMagicBytes.length = 4 := rfl
  rw [h4, atBit_of_cursor { r with mCurrentByte := 4 } 4 rfl hbit, atBit_mul8] at hri
  rw [hri]
  simp only [Res.bind, ne_eq, not_true_eq_false, if_false]
  obtain ⟨mb, cb, cbit, sc, ld, rn, ow, sz⟩ := r
  simp only at hbit
  subst hbit
  rfl

theorem flatten_encodeUTF8_length (ss : List (List Nat)) :
    2 * ss.length ≤ ((ss.map encodeUTF8).flatten).length := by
  induction ss with
  | nil => simp
  | cons s ss ih =>
    simp only [List.map_cons, List.flatten_cons, List.length_append, List.length_cons,
      encodeUTF8]
    omega

theorem readCachedString_root (r r1 : CCBReader) (s : List Nat)
    (h : readCachedString r = .ok (s, r1)) : r1.mRootNode = r.mRootNode := by
  simp only [readCachedString] at h
  rw [Res.bind_eq_ok] at h
  obtain ⟨⟨i, r2⟩, hri, h⟩ := h
  have hs := readInt_sameData _ _ _ _ hri
  simp only at h
  split at h
  · split at h
    · simp only [Res.pure_eq] at h
      injection h with h
      injection h with _ h
      subst h
      exact hs.2.2.2.1
    · simp at h
  · simp at h

theorem readNodeHead_root (r r1 : CCBReader) (x : List Nat × Int × List Nat)
    (h : readNodeHead r = .ok (x, r1)) : r1.mRootNode = r.mRootNode := by
  simp only [readNodeHead] at h
  rw [Res.bind_eq_ok] at h
  obtain ⟨⟨cn, r2⟩, h1, h⟩ := h
  simp only at h
  rw [Res.bind_eq_ok] at h
  obtain ⟨⟨ty, r3⟩, h2, h⟩ := h
  have e1 := readCachedString_root _ _ _ h1
  have e2 := (readInt_sameData _ _ _ _ h2).2.2.2.1
  simp only at h
  split at h
  · rw [Res.bind_eq_ok] at h
    obtain ⟨⟨nm, r4⟩, h3, h⟩ := h
    have e3 := readCachedString_root _ _ _ h3
    simp only [Res.pure_eq] at h
    injection h with h
    injection h with _ h
    subst h
    rw [e3, e2, e1]
  · simp only [Res.pure_eq] at h
    injection h with h
    injection h with _ h
    subst h
    rw [e2, e1]

theorem readChildren_root (readChild : Option CCNode → CCBReader → Res (CCNode × CCBReader))
    (x : Nat)
    (hchild : ∀ (p : Option CCNode) (ra rb : CCBReader) (n : CCNode), ra.mRootNode = some x →
      readChild p ra = .ok (n, rb) → rb.mRootNode = some x) :
    ∀ (k : Nat) (node node1 : CCNode) (r r1 : CCBReader), r.mRootNode = some x →
      readChildren readChild k node r = .ok (node1, r1) →
      r1.mRootNode = some x ∧ node1.ident = node.ident := by
  intro k
  induction k with
  | zero =>
    intro node node1 r r1 hr h
    simp only [readChildren, Res.pure_eq] at h
    injection h with h
    injection h with h1 h2
    subst h1 h2
    exact ⟨hr, rfl⟩
  | succ k ih =>
    intro node node1 r r1 hr h
    simp only [readChildren] at h
    rw [Res.bind_eq_ok] at h
    obtain ⟨⟨child, r2⟩, hc, h⟩ := h
    have := ih _ _ _ _ (hchild _ _ _ _ hr hc) h
    exact ⟨this.1, this.2⟩

theorem setRootNode_some (node : CCNode) (r : CCBReader) (x : Nat) (h : r.mRootNode = some x) :
    (setRootNode node r).mRootNode = some x := by
  simp [setRootNode, h]

theorem setRootNode_none (node : CCNode) (r : CCBReader) (h : r.mRootNode = none) :
    (setRootNode node r).mRootNode = some node.ident := by
  simp [setRootNode, h]

theorem readNodeGraph_keeps_root (load : LoaderTable) (hload : LoadersKeepRoot load) (x : Nat) :
    ∀ (fuel : Nat) (p : Option CCNode) (r r1 : CCBReader) (node : CCNode),
      r.mRootNode = some x → readNodeGraph load fuel p r = .ok (node, r1) →
      r1.mRootNode = some x := by
  intro fuel
  induction fuel with
  | zero => intro p r r1 node _ h; simp [readNodeGraph] at h
  | succ fuel ih =>
    intro p r r1 node hr h
    simp only [readNodeGraph] at h
    rw [Res.bind_eq_ok] at h
    obtain ⟨⟨⟨cn, ty, nm⟩, rH⟩, hhead, h⟩ := h
    simp only at h
    rw [Res.bind_eq_ok] at h
    obtain ⟨l, _, h⟩ := h
    rw [Res.bind_eq_ok] at h
    obtain ⟨⟨node0, r2⟩, hl, h⟩ := h
    simp only at h
    rw [Res.bind_eq_ok] at h
    obtain ⟨⟨n, r4⟩, hn, h⟩ := h
    simp only at h
    have e1 : rH.mRootNode = some x := by rw [readNodeHead_root _ _ _ hhead, hr]
    have e2 : r2.mRootNode = some x := by rw [hload _ _ _ _ _ hl, e1]
    have e3 : r4.mRootNode = some x := by
      rw [(readInt_sameData _ _ _ _ hn).2.2.2.1]
      exact setRootNode_some _ _ _ e2
    exact (readChildren_root _ x (fun p ra rb n hra hrb => ih p ra rb n hra hrb) _ _ _ _ _ e3 h).1

theorem readNodeGraph_records_root (load : LoaderTable) (hload : LoadersKeepRoot load)
    (fuel : Nat) (p : Option CCNode) (r r1 : CCBReader) (node : CCNode)
    (hr : r.mRootNode = none) (h : readNodeGraph load fuel p r = .ok (node, r1)) :
    r1.mRootNode = some node.ident ∧
    ∃ (rH r2 : CCBReader) (x : List Nat × Int × List Nat) (l : Nat) (node0 : CCNode),
      readNodeHead r = .ok (x, rH) ∧ getCCNodeLoader x.1 rH = .ok l ∧
      load l p rH = .ok (node0, r2) ∧ node0.ident = node.ident := by
  cases fuel with
  | zero => simp [readNodeGraph] at h
  | succ fuel =>
    simp only [readNodeGraph] at h
    rw [Res.bind_eq_ok] at h
    obtain ⟨⟨⟨cn, ty, nm⟩, rH⟩, hhead, h⟩ := h
    simp only at h
    rw [Res.bind_eq_ok] at h
    obtain ⟨l, hget, h⟩ := h
    rw [Res.bind_eq_ok] at h
    obtain ⟨⟨node0, r2⟩, hl, h⟩ := h
    simp only at h
    rw [Res.bind_eq_ok] at h
    obtain ⟨⟨n, r4⟩, hn, h⟩ := h
    simp only at h
    have e1 : rH.mRootNode = none := by rw [readNodeHead_root _ _ _ hhead, hr]
    have e2 : r2.mRootNode = none := by rw [hload _ _ _ _ _ hl, e1]
    have e3 : r4.mRootNode = some node0.ident := by
      rw [(readInt_sameData _ _ _ _ hn).2.2.2.1]
      exact setRootNode_none _ _ e2
    have hc := readChildren_root _ node0.ident
      (fun p ra rb n hra hrb => readNodeGraph_keeps_root load hload _ fuel p ra rb n hra hrb)
      _ _ _ _ _ e3 h
    exact ⟨by rw [hc.1, hc.2], rH, r2, (cn, ty, nm), l, node0, hhead, hget, hl, hc.2.symm⟩

theorem readStrings_root : ∀ (n : Nat) (r r1 : CCBReader), readStrings n r = .ok r1 →
    r1.mRootNode = r.mRootNode := by
  intro n
  induction n with
  | zero =>
    intro r r1 h
    simp only [readStrings, Res.pure_eq] at h
    injection h with h
    rw [h]
  | succ n ih =>
    intro r r1 h
    simp only [readStrings] at h
    rw [Res.bind_eq_ok] at h
    obtain ⟨⟨s, r2⟩, hu, h⟩ := h
    have e := ih _ _ h
    simp only at e
    rw [e]
    simp only [readUTF8] at hu
    rw [Res.bind_eq_ok] at hu
    obtain ⟨⟨b0, r3⟩, hb0, hu⟩ := hu
    simp only at hu
    rw [Res.bind_eq_ok] at hu
    obtain ⟨⟨b1, r4⟩, hb1, hu⟩ := hu
    simp only at hu
    have e3 : r3.mRootNode = r.mRootNode := by
      unfold readByte at hb0
      split at hb0
      · simp at hb0
      · split at hb0
        · simp at hb0
        · injection hb0 with hb0
          injection hb0 with _ hb0
          subst hb0
          rfl
    have e4 : r4.mRootNode = r3.mRootNode := by
      unfold readByte at hb1
      split at hb1
      · simp at hb1
      · split at hb1
        · simp at hb1
        · injection hb1 with hb1
          injection hb1 with _ hb1
          subst hb1
          rfl
    split at hu
    · simp at hu
    · split at hu
      · simp only [Res.pure_eq] at hu
        injection hu with hu
        injection hu with _ hu
        subst hu
        simp only
        rw [e4, e3]
      · simp at hu

theorem readStringCache_root (r r1 : CCBReader) (x : Bool)
    (h : readStringCache r = .ok (x, r1)) : r1.mRootNode = r.mRootNode := by
  simp only [readStringCache] at h
  rw [Res.bind_eq_ok] at h
  obtain ⟨⟨n, r2⟩, hri, h⟩ := h
  simp only at h
  rw [Res.bind_eq_ok] at h
  obtain ⟨r3, hs, h⟩ := h
  simp only [Res.pure_eq] at h
  injection h with h
  injection h with _ h
  subst h
  rw [readStrings_root _ _ _ hs, (readInt_sameData _ _ _ _ hri).2.2.2.1]

theorem readHeader_root (kCCBVersion : Int) (r r1 : CCBReader) (x : Bool)
    (h : readHeader kCCBVersion r = .ok (x, r1)) : r1.mRootNode = r.mRootNode := by
  unfold readHeader at h
  split at h
  · injection h with h
    injection h with _ h
    rw [← h]
  · split at h
    · simp only at h
      split at h
      · injection h with h
        injection h with _ h
        rw [← h]
      · rw [Res.bind_eq_ok] at h
        obtain ⟨⟨version, r2⟩, hri, h⟩ := h
        have e := (readInt_sameData _ _ _ _ hri).2.2.2.1
        simp only at h
        split at h <;>
        · simp only [Res.pure_eq] at h
          injection h with h
          injection h with _ h
          subst h
          exact e
    · simp at h

theorem readNodeGraphFromFile_ok (load : LoaderTable) (kCCBVersion : Int) (fuel : Nat)
    (file : Option (List Nat)) (pOwner : Option Nat) (pParentSize : CCSize)
    (r r1 : CCBReader) (node : CCNode)
    (h : readNodeGraphFromFile load kCCBVersion fuel file pOwner pParentSize r =
      .ok (some node, r1)) :
    ∃ rA rB : CCBReader,
      readHeader kCCBVersion (beginRead file pOwner pParentSize r) = .ok (true, rA) ∧
      readStringCache rA = .ok (true, rB) ∧
      readNodeGraph load fuel none rB = .ok (node, r1) := by
  unfold readNodeGraphFromFile at h
  split at h
  · simp at h
  · rename_i rA hA
    split at h
    · simp at h
    · rename_i rB hB
      split at h
      · rename_i n r3 hG
        injection h with h
        injection h with h1 h2
        injection h1 with h1
        subst h1 h2
        exact ⟨rA, rB, hA, hB, hG⟩
      · simp at h
      · simp at h
      · simp at h
    · simp at h
    · simp at h
    · simp at h
  · simp at h
  · simp at h
  · simp at h

theorem byteLoader_keeps_root : LoadersKeepRoot byteLoader := by
  intro l p r r1 node h
  simp only [byteLoader] at h
  rw [Res.bind_eq_ok] at h
  obtain ⟨⟨b, r2⟩, hb, h⟩ := h
  simp only [Res.pure_eq] at h
  injection h with h
  injection h with _ h
  subst h
  unfold readByte at hb
  split at hb
  · simp at hb
  · split at hb
    · simp at hb
    · injection hb with hb
      injection hb with _ hb
      subst hb
      rfl
theorem roundShift_near (a k : Nat) :
    2 * (roundShift a k * 2 ^ k) ≤ 2 * a + 2 ^ k ∧ 2 * a ≤ 2 * (roundShift a k * 2 ^ k) + 2 ^ k ∧
    a / 2 ^ k ≤ roundShift a k ∧ roundShift a k ≤ a / 2 ^ k + 1 ∧
    (a % 2 ^ k = 0 → roundShift a k = a / 2 ^ k) := by
  have hpos : 0 < 2 ^ k := Nat.pos_pow_of_pos _ (by omega)
  have hdm := Nat.div_add_mod a (2 ^ k)
  have hlt := Nat.mod_lt a hpos
  have hmul : (a / 2 ^ k + 1) * 2 ^ k = 2 ^ k * (a / 2 ^ k) + 2 ^ k := by ring
  have hmul2 : a / 2 ^ k * 2 ^ k = 2 ^ k * (a / 2 ^ k) := by ring
  unfold roundShift
  split
  · rename_i h
    rw [hmul]
    refine ⟨by omega, by omega, by omega, by omega, fun h0 => ?_⟩
    rw [h0] at h
    omega
  · rename_i h
    rw [hmul2]
    refine ⟨by omega, by omega, by omega, by omega, fun _ => rfl⟩

theorem f32Scaled_fields (s ef m : Nat) (hs : s ≤ 1) (he : 1 ≤ ef) (he2 : ef < 256)
    (hm : m < 2 ^ 23) :
    f32Scaled (s * 2 ^ 31 + ef * 2 ^ 23 + m) =
      (if s = 1 then -1 else 1) * (((2 ^ 23 + m) * 2 ^ ef : Nat) : Int) := by
  have h1 : (s * 2 ^ 31 + ef * 2 ^ 23 + m) / 2 ^ 31 % 2 = s := by omega
  have h2 : (s * 2 ^ 31 + ef * 2 ^ 23 + m) / 2 ^ 23 % 256 = ef := by omega
  have h3 : (s * 2 ^ 31 + ef * 2 ^ 23 + m) % 2 ^ 23 = m := by omega
  unfold f32Scaled
  rw [h1, h2, h3, if_neg (show ¬ ef = 0 by omega)]

theorem natToF32_fields (a : Nat) (h0 : a ≠ 0) (h32 : a < 2 ^ 32) :
    ∃ ef m : Nat, 1 ≤ ef ∧ ef < 256 ∧ m < 2 ^ 23 ∧ natToF32 a = 0 * 2 ^ 31 + ef * 2 ^ 23 + m ∧
      (2 ^ 23 + m) * 2 ^ ef = roundToF32 a * 2 ^ 150 := by
  have hle : 2 ^ ilog2 a ≤ a := ilog2_le a h0
  have hlt : a < 2 ^ (ilog2 a + 1) := ilog2_lt a h0
  have he31 : ilog2 a ≤ 31 := by
    have h : 2 ^ ilog2 a < 2 ^ 32 := by omega
    have := (Nat.pow_lt_pow_iff_right (by omega)).1 h
    omega
  by_cases h23 : ilog2 a ≤ 23
  · have hX1 : 2 ^ 23 ≤ a * 2 ^ (23 - ilog2 a) := by
      calc 2 ^ 23 = 2 ^ ilog2 a * 2 ^ (23 - ilog2 a) := by
            rw [← pow_add]; congr 1; omega
        _ ≤ a * 2 ^ (23 - ilog2 a) := Nat.mul_le_mul_right _ hle
    have hX2 : a * 2 ^ (23 - ilog2 a) < 2 ^ 24 := by
      calc a * 2 ^ (23 - ilog2 a) < 2 ^ (ilog2 a + 1) * 2 ^ (23 - ilog2 a) :=
            Nat.mul_lt_mul_of_pos_right hlt (Nat.pos_pow_of_pos _ (by omega))
        _ = 2 ^ 24 := by rw [← pow_add]; congr 1; omega
    refine ⟨127 + ilog2 a, a * 2 ^ (23 - ilog2 a) - 2 ^ 23, by omega, by omega, by omega, ?_, ?_⟩
    · simp only [natToF32, h0, if_false, h23, if_true]
      omega
    · rw [show 2 ^ 23 + (a * 2 ^ (23 - ilog2 a) - 2 ^ 23) = a * 2 ^ (23 - ilog2 a) by omega]
      simp only [roundToF32, h23, if_true]
      rw [Nat.mul_assoc, ← pow_add]
      congr 2
      omega
  · have hk : 0 < 2 ^ (ilog2 a - 23) := Nat.pos_pow_of_pos _ (by omega)
    have hq1 : 2 ^ 23 ≤ a / 2 ^ (ilog2 a - 23) := by
      rw [Nat.le_div_iff_mul_le hk, ← pow_add]
      rw [show 23 + (ilog2 a - 23) = ilog2 a by omega]
      exact hle
    have hq2 : a / 2 ^ (ilog2 a - 23) < 2 ^ 24 := by
      rw [Nat.div_lt_iff_lt_mul hk, ← pow_add]
      rw [show 24 + (ilog2 a - 23) = ilog2 a + 1 by omega]
      exact hlt
    have hr := roundShift_near a (ilog2 a - 23)
    have hround : roundToF32 a = roundShift a (ilog2 a - 23) * 2 ^ (ilog2 a - 23) := by
      simp only [roundToF32, h23, if_false]
    have hbits : natToF32 a =
        (127 + ilog2 a) * 2 ^ 23 + (roundShift a (ilog2 a - 23) - 2 ^ 23) := by
      simp only [natToF32, h0, if_false, h23]
    by_cases hfull : roundShift a (ilog2 a - 23) = 2 ^ 24
    · refine ⟨128 + ilog2 a, 0, by omega, by omega, by omega, ?_, ?_⟩
      · rw [hbits, hfull]
        omega
      · rw [hround, hfull, Nat.add_zero, Nat.mul_assoc, ← pow_add, ← pow_add, ← pow_add]
        congr 1
        omega
    · refine ⟨127 + ilog2 a, roundShift a (ilog2 a - 23) - 2 ^ 23, by omega, by omega, by omega,
        ?_, ?_⟩
      · rw [hbits]
        omega
      · rw [show 2 ^ 23 + (roundShift a (ilog2 a - 23) - 2 ^ 23) =
          roundShift a (ilog2 a - 23) by omega, hround, Nat.mul_assoc, ← pow_add]
        congr 2
        omega

theorem ilog2_zero : ilog2 0 = 0 := by decide

theorem f32Scaled_natToF32 (a : Nat) (h32 : a < 2 ^ 32) :
    f32Scaled (natToF32 a) = (roundToF32 a : Int) * 2 ^ 150 := by
  by_cases h0 : a = 0
  · subst h0
    simp [natToF32, roundToF32, ilog2_zero, f32Scaled]
  · obtain ⟨ef, m, he, he2, hm, hbits, hval⟩ := natToF32_fields a h0 h32
    rw [hbits, f32Scaled_fields 0 ef m (by omega) he he2 hm, hval]
    simp

theorem f32Scaled_neg_natToF32 (a : Nat) (h0 : a ≠ 0) (h32 : a < 2 ^ 32) :
    f32Scaled (2 ^ 31 + natToF32 a) = -((roundToF32 a : Int) * 2 ^ 150) := by
  obtain ⟨ef, m, he, he2, hm, hbits, hval⟩ := natToF32_fields a h0 h32
  rw [hbits, show 2 ^ 31 + (0 * 2 ^ 31 + ef * 2 ^ 23 + m) = 1 * 2 ^ 31 + ef * 2 ^ 23 + m by omega,
    f32Scaled_fields 1 ef m (by omega) he he2 hm, hval]
  simp

theorem roundToF32_exact (a : Nat) (h : a ≤ 2 ^ 24) : roundToF32 a = a := by
  unfold roundToF32
  split
  · rfl
  · rename_i h23
    have h0 : a ≠ 0 := by
      intro h0
      subst h0
      rw [ilog2_zero] at h23
      omega
    have hle : 2 ^ ilog2 a ≤ a := ilog2_le a h0
    have h24 : (2 : Nat) ^ 24 ≤ 2 ^ ilog2 a := Nat.pow_le_pow_right (by omega) (by omega)
    have ha : a = 2 ^ 24 := by omega
    have he : ilog2 a = 24 := by
      have h1 : (2 : Nat) ^ ilog2 a ≤ 2 ^ 24 := by omega
      have := (Nat.pow_le_pow_iff_right (by omega : 1 < 2)).1 h1
      omega
    rw [he, ha]
    decide

theorem roundToF32_near (a : Nat) :
    roundToF32 a * 2 ^ 24 ≤ a * 2 ^ 24 + a ∧ a * 2 ^ 24 ≤ roundToF32 a * 2 ^ 24 + a := by
  unfold roundToF32
  split
  · omega
  · rename_i h23
    have h0 : a ≠ 0 := by
      intro h0
      subst h0
      rw [ilog2_zero] at h23
      omega
    have hle : 2 ^ ilog2 a ≤ a := ilog2_le a h0
    have hr := roundShift_near a (ilog2 a - 23)
    have hk : 2 ^ (ilog2 a - 23) * 2 ^ 23 = 2 ^ ilog2 a := by
      rw [← pow_add]
      congr 1
      omega
    generalize roundShift a (ilog2 a - 23) * 2 ^ (ilog2 a - 23) = R at hr ⊢
    generalize 2 ^ (ilog2 a - 23) = P at hr hk
    omega

theorem f32Value_intToF32 (i : Int) (h1 : -2 ^ 31 ≤ i) (h2 : i < 2 ^ 31) :
    f32Value (intToF32 i) = ((Int.sign i * (roundToF32 i.natAbs : Int) : Int) : Rat) := by
  have h32 : i.natAbs < 2 ^ 32 := by omega
  have h150 : ((2 : Rat) ^ 150) ≠ 0 := by positivity
  unfold f32Value intToF32
  split
  · rename_i hneg
    rw [f32Scaled_neg_natToF32 _ (by omega) h32, Int.sign_eq_neg_one_of_neg hneg]
    simp only [Int.cast_neg, Int.cast_mul, Int.cast_pow, Int.cast_ofNat, Int.cast_natCast,
      Int.cast_one]
    rw [neg_div, mul_div_assoc, div_self h150]
    ring
  · rename_i hpos
    rw [f32Scaled_natToF32 _ h32]
    simp only [Int.cast_mul, Int.cast_pow, Int.cast_ofNat, Int.cast_natCast]
    rw [mul_div_assoc, div_self h150, mul_one]
    rcases lt_or_eq_of_le (not_lt.1 hpos) with hp | hz
    · rw [Int.sign_eq_one_of_pos hp]
      simp
    · subst hz
      simp [roundToF32, ilog2_zero]

theorem f32Value_intToF32_exact (i : Int) (h : i.natAbs ≤ 2 ^ 24) :
    f32Value (intToF32 i) = (i : Rat) := by
  rw [f32Value_intToF32 i (by omega) (by omega), roundToF32_exact _ h]
  congr 1
  exact Int.sign_mul_natAbs i

theorem f32Value_intToF32_near (i : Int) (h1 : -2 ^ 31 ≤ i) (h2 : i < 2 ^ 31) :
    |f32Value (intToF32 i) - (i : Rat)| * 2 ^ 24 ≤ |(i : Rat)| := by
  rw [f32Value_intToF32 i h1 h2]
  have hn := roundToF32_near i.natAbs
  have key : |Int.sign i * (roundToF32 i.natAbs : Int) - i| * 2 ^ 24 ≤ |i| := by
    have habs : |i| = (i.natAbs : Int) := (Int.natCast_natAbs i).symm
    have hsplit : Int.sign i * (roundToF32 i.natAbs : Int) - i =
        Int.sign i * ((roundToF32 i.natAbs : Int) - (i.natAbs : Int)) := by
      rw [Int.mul_sub, Int.sign_mul_natAbs]
    rcases Int.lt_trichotomy i 0 with hneg | hz | hp
    · rw [hsplit, Int.sign_eq_neg_one_of_neg hneg, habs, abs_mul]
      simp only [abs_neg, abs_one, one_mul]
      rcases abs_cases ((roundToF32 i.natAbs : Int) - (i.natAbs : Int)) with ⟨he, _⟩ | ⟨he, _⟩ <;>
        rw [he] <;> omega
    · subst hz
      simp [roundToF32, ilog2_zero]
    · rw [hsplit, Int.sign_eq_one_of_pos hp, habs, one_mul]
      rcases abs_cases ((roundToF32 i.natAbs : Int) - (i.natAbs : Int)) with ⟨he, _⟩ | ⟨he, _⟩ <;>
        rw [he] <;> omega
  exact_mod_cast key

theorem toInt32_range (x : Int) : -2 ^ 31 ≤ toInt32 x ∧ toInt32 x < 2 ^ 31 := by
  unfold toInt32
  omega

theorem intOfCurrent_range (pSign : Bool) (c : Int) :
    -2 ^ 31 ≤ intOfCurrent pSign c ∧ intOfCurrent pSign c < 2 ^ 31 := by
  unfold intOfCurrent
  split
  · split <;> exact toInt32_range _
  · exact toInt32_range _

theorem readInt_range (pSign : Bool) (r r1 : CCBReader) (i : Int)
    (h : readInt pSign r = .ok (i, r1)) : -2 ^ 31 ≤ i ∧ i < 2 ^ 31 := by
  unfold readInt at h
  obtain ⟨x, _, h⟩ := (Res.bind_eq_ok _ _ _).1 h
  obtain ⟨y, _, h⟩ := (Res.bind_eq_ok _ _ _).1 h
  obtain ⟨t, _, h⟩ := (Res.bind_eq_ok _ _ _).1 h
  simp only [Res.pure_eq, Res.ok.injEq, Prod.mk.injEq] at h
  rw [← h.1]
  exact intOfCurrent_range _ _

/-- A decode that starts without a recorded root (`mRootNode` is `NULL` at the
call, which neither the constructor nor `readNodeGraphFromFile` establishes)
and succeeds records the node that its first loader call returned, which is
the node the call returns. -/
theorem readNodeGraphFromFile_root_of_null (load : LoaderTable) (hload : LoadersKeepRoot load)
    (kCCBVersion : Int) (fuel : Nat) (file : Option (List Nat)) (pOwner : Option Nat)
    (pParentSize : CCSize) (r r1 : CCBReader) (node : CCNode) (hnone : r.mRootNode = none)
    (hok : readNodeGraphFromFile load kCCBVersion fuel file pOwner pParentSize r =
      .ok (some node, r1)) :
    r1.mRootNode = some node.ident ∧
    ∃ (rA rB rH r2 : CCBReader) (x : List Nat × Int × List Nat) (l : Nat) (node0 : CCNode),
      readHeader kCCBVersion (beginRead file pOwner pParentSize r) = .ok (true, rA) ∧
      readStringCache rA = .ok (true, rB) ∧
      readNodeHead rB = .ok (x, rH) ∧ getCCNodeLoader x.1 rH = .ok l ∧
      load l none rH = .ok (node0, r2) ∧ node0.ident = node.ident ∧
      r1.mRootNode = some node0.ident := by
  obtain ⟨rA, rB, hA, hB, hG⟩ := readNodeGraphFromFile_ok _ _ _ _ _ _ _ _ _ hok
  have eB : rB.mRootNode = none := by
    rw [readStringCache_root _ _ _ hB, readHeader_root _ _ _ _ hA]
    exact hnone
  obtain ⟨hroot, rH, r2, x, l, node0, hhead, hget, hl, hid⟩ :=
    readNodeGraph_records_root load hload fuel none rB r1 node eB hG
  exact ⟨hroot, rA, rB, rH, r2, x, l, node0, hA, hB, hhead, hget, hl, hid, by rw [hroot, hid]⟩

/-- A decode that starts with a recorded root (`mRootNode` is not `NULL` at the
call) and succeeds leaves that root recorded, whatever node it returns. -/
theorem readNodeGraphFromFile_keeps_root (load : LoaderTable) (hload : LoadersKeepRoot load)
    (kCCBVersion : Int) (fuel : Nat) (file : Option (List Nat)) (pOwner : Option Nat)
    (pParentSize : CCSize) (r r1 : CCBReader) (node : CCNode) (x : Nat)
    (hsome : r.mRootNode = some x)
    (hok : readNodeGraphFromFile load kCCBVersion fuel file pOwner pParentSize r =
      .ok (some node, r1)) :
    r1.mRootNode = some x := by
  obtain ⟨rA, rB, hA, hB, hG⟩ := readNodeGraphFromFile_ok _ _ _ _ _ _ _ _ _ hok
  have eB : rB.mRootNode = some x := by
    rw [readStringCache_root _ _ _ hB, readHeader_root _ _ _ _ hA]
    exact hsome
  exact readNodeGraph_keeps_root load hload x fuel none rB r1 node eB hG

/-! ## C1: round trip of the unsigned variable-length integer -/

/-- C1 (as stated, refuted): the list `[2 ^ 31]` does not survive the round
trip. Its code is 31 zero bits, a one bit and the 31 low bits of `2 ^ 31 + 1`;
`readInt(false)` returns the `int` `-2147483648`. -/
theorem readInt_roundtrip_fails_above_int :
    readInts false [2147483648].length
        (onBuffer (freshReader []) (([2147483648].map encodeVarUInt).flatten)) =
      .ok ([-2147483648],
        { onBuffer (freshReader []) [0, 0, 0, 128, 0, 0, 0, 64] with mCurrentByte := 8 }) ∧
    ([-2147483648] : List Int) ≠ [2147483648].map Int.ofNat := by
  constructor
  · decide
  · decide

/-- C1 (amended): for every list `vs` of integers with `0 ≤ v < 2 ^ 31` (the
non-negative values of the `int` that `readInt` returns), `|vs|` calls of
`readInt(false)` on the concatenation of the codes of `vs`, from byte 0 and
bit 0, return exactly `vs` in order and leave the cursor at the end. -/
theorem readInt_unsigned_roundtrip (r : CCBReader) (vs : List Nat)
    (hvs : ∀ v, v ∈ vs → v < 2 ^ 31) :
    readInts false vs.length (onBuffer r ((vs.map encodeVarUInt).flatten)) =
      .ok (vs.map Int.ofNat,
        { onBuffer r ((vs.map encodeVarUInt).flatten) with
          mCurrentByte := ((vs.map encodeVarUInt).flatten).length }) := by
  have h := readInts_encode (onBuffer r ((vs.map encodeVarUInt).flatten)) vs [] [] hvs
    (by simp [onBuffer])
  simp only [List.length_nil, Nat.mul_zero, Nat.zero_add, atBit_mul8] at h
  have h0 : atBit (onBuffer r ((vs.map encodeVarUInt).flatten)) 0 =
      onBuffer r ((vs.map encodeVarUInt).flatten) := by
    simp [atBit, onBuffer]
  rw [h0] at h
  rw [h]
  simp [onBuffer]

/-- Witness of C1 (amended) on the list `[300, 0, 7]`. -/
theorem readInt_unsigned_roundtrip_witness :
    (∀ v, v ∈ [300, 0, 7] → v < 2 ^ 31) ∧
    readInts false [300, 0, 7].length
        (onBuffer (freshReader []) (([300, 0, 7].map encodeVarUInt).flatten)) =
      .ok ([300, 0, 7].map Int.ofNat,
        { onBuffer (freshReader []) (([300, 0, 7].map encodeVarUInt).flatten) with
          mCurrentByte := (([300, 0, 7].map encodeVarUInt).flatten).length }) :=
  ⟨by decide, readInt_unsigned_roundtrip (freshReader []) [300, 0, 7] (by decide)⟩

/-! ## C2: registering a loader twice -/

/-- C2 (as stated, refuted): on an empty registry, registering loader 1 and
then loader 2 under the same class name leaves loader 1 in place. -/
theorem register_twice_keeps_first :
    getCCNodeLoader [67] (registerCCNodeLoader [67] 2
      (registerCCNodeLoader [67] 1 (freshReader []))) = .ok 1 ∧ (1 : Nat) ≠ 2 := by
  decide

/-- C2 (amended): after `registerCCNodeLoader(t, b1)` followed by
`registerCCNodeLoader(t, b2)`, `getCCNodeLoader(t)` returns the loader that was
registered for `t` before the two calls when there was one, and `b1`
otherwise: the first registration for a name wins, for every prior registry
content. -/
theorem register_first_wins (r : CCBReader) (t : List Nat) (b1 b2 : Nat) :
    getCCNodeLoader t (registerCCNodeLoader t b2 (registerCCNodeLoader t b1 r)) =
      .ok ((mapFind r.mCCNodeLoaders t).getD b1) := by
  simp only [getCCNodeLoader, registerCCNodeLoader, mapFind_mapInsert_self, Option.getD_some]

/-! ## C3: the parity rule of the signed integer -/

/-- C3 (as stated, refuted): on the stream of 31 zero bits, a one bit and the
explicit bits `0...01`, the accumulated value is `v = 2 ^ 31 + 1`, odd, with
`v div 2 = 1073741824`; `readInt(true)` returns `-1073741823`. -/
theorem readInt_signed_parity_fails_at_31_bits :
    (∀ j, j < 31 → bitAt [0, 0, 0, 128, 0, 0, 0, 64] j = false) ∧
    bitAt [0, 0, 0, 128, 0, 0, 0, 64] 31 = true ∧
    2 ^ 31 + bitsVal [0, 0, 0, 128, 0, 0, 0, 64] 32 31 = 2147483649 ∧
    2147483649 % 2 = 1 ∧
    readInt true (onBuffer (freshReader []) [0, 0, 0, 128, 0, 0, 0, 64]) =
      .ok (-1073741823,
        { onBuffer (freshReader []) [0, 0, 0, 128, 0, 0, 0, 64] with mCurrentByte := 8 }) ∧
    (-1073741823 : Int) ≠ ((2147483649 / 2 : Nat) : Int) := by
  refine ⟨by decide, by decide, by decide, by decide, by decide, by decide⟩

/-- C3 (amended): for every stream read by `readInt(true)` whose run of
leading zero bits has length `numBits ≤ 30` (so that the accumulated value fits
the 32-bit `int`), with `v` the accumulated value (bit `numBits` set, then the
`numBits` explicit bits, most significant first), the result is `v div 2` when
`v` is odd and `-(v div 2)` when `v` is even, and the cursor is left on the
next whole byte. -/
theorem readInt_signed_parity (r : CCBReader) (b : List Nat) (numBits : Nat)
    (hb : r.mBytes = some b) (hk : r.mCurrentBit < 8) (hn : numBits ≤ 30)
    (hzero : ∀ j, j < numBits → bitAt b (bitPos r + j) = false)
    (hone : bitAt b (bitPos r + numBits) = true)
    (hlen : bitPos r + 2 * numBits + 1 ≤ 8 * b.length) :
    readInt true r =
      .ok (if (2 ^ numBits + bitsVal b (bitPos r + numBits + 1) numBits) % 2 = 1
          then (((2 ^ numBits + bitsVal b (bitPos r + numBits + 1) numBits) / 2 : Nat) : Int)
          else -(((2 ^ numBits + bitsVal b (bitPos r + numBits + 1) numBits) / 2 : Nat) : Int),
        { r with mCurrentByte := (bitPos r + 2 * numBits + 1 + 7) / 8, mCurrentBit := 0 }) :=
  readInt_signed_spec r b numBits hb hk hn hzero hone hlen

/-- Witness of C3 (amended): the byte `6` holds the bits `0 1 1`, accumulated
value 3, decoded as `1`. -/
theorem readInt_signed_parity_witness :
    readInt true (onBuffer (freshReader []) [6]) =
      .ok (if (2 ^ 1 + bitsVal [6] (bitPos (onBuffer (freshReader []) [6]) + 1 + 1) 1) % 2 = 1
          then (((2 ^ 1 + bitsVal [6] (bitPos (onBuffer (freshReader []) [6]) + 1 + 1) 1) / 2 : Nat) : Int)
          else -(((2 ^ 1 + bitsVal [6] (bitPos (onBuffer (freshReader []) [6]) + 1 + 1) 1) / 2 : Nat) : Int),
        { onBuffer (freshReader []) [6] with
          mCurrentByte := (bitPos (onBuffer (freshReader []) [6]) + 2 * 1 + 1 + 7) / 8,
          mCurrentBit := 0 }) :=
  readInt_signed_parity (onBuffer (freshReader []) [6]) [6] 1 rfl (by decide) (by decide)
    (by decide) (by decide) (by decide)

/-! ## C4: the signed mapping on a bounded range -/

/-- C4 (as stated, refuted): the accumulated values `1` (stream `1`) and
`2 ^ 32 - 1` (31 zero bits, a one bit, 31 one bits) are different and both at
least 1, and `readInt(true)` decodes both to `0`. -/
theorem signed_mapping_not_injective :
    readInt true (onBuffer (freshReader []) [1]) =
      .ok (0, { onBuffer (freshReader []) [1] with mCurrentByte := 1 }) ∧
    bitAt [1] 0 = true ∧ 2 ^ 0 + bitsVal [1] 1 0 = 1 ∧
    readInt true (onBuffer (freshReader []) [0, 0, 0, 128, 255, 255, 255, 127]) =
      .ok (0, { onBuffer (freshReader []) [0, 0, 0, 128, 255, 255, 255, 127] with
        mCurrentByte := 8 }) ∧
    (∀ j, j < 31 → bitAt [0, 0, 0, 128, 255, 255, 255, 127] j = false) ∧
    bitAt [0, 0, 0, 128, 255, 255, 255, 127] 31 = true ∧
    2 ^ 31 + bitsVal [0, 0, 0, 128, 255, 255, 255, 127] 32 31 = 4294967295 := by
  refine ⟨by decide, by decide, by decide, by decide, by decide, by decide, by decide⟩

/-- C4 (amended): for every integer `k` with `-1000 ≤ k ≤ 1000`, the code with
accumulated value `v = accOf k` (`2k + 1` for `k ≥ 0`, `-2k` for `k < 0`) is
decoded by `readInt(true)` to `k`, and every stream with at most 30 leading
zero bits (accumulated value `1 ≤ v < 2 ^ 31`) that `readInt(true)` decodes to
`k` has accumulated value `accOf k`: among the accumulated values below
`2 ^ 31` exactly one is mapped to `k`. -/
theorem signed_mapping_bijective (k : Int) (hlo : -1000 ≤ k) (hhi : k ≤ 1000) :
    (∀ r : CCBReader, readInt true (onBuffer r (encodeVarUInt (accOf k - 1))) =
      .ok (k, { onBuffer r (encodeVarUInt (accOf k - 1)) with
        mCurrentByte := (encodeVarUInt (accOf k - 1)).length })) ∧
    (∀ (r r1 : CCBReader) (b : List Nat) (numBits : Nat), r.mBytes = some b →
      r.mCurrentBit < 8 → numBits ≤ 30 →
      (∀ j, j < numBits → bitAt b (bitPos r + j) = false) →
      bitAt b (bitPos r + numBits) = true →
      bitPos r + 2 * numBits + 1 ≤ 8 * b.length →
      readInt true r = .ok (k, r1) →
      2 ^ numBits + bitsVal b (bitPos r + numBits + 1) numBits = accOf k) := by
  constructor
  · intro r
    have hacc1 : 1 ≤ accOf k := by unfold accOf; split <;> omega
    have hacc2 : accOf k ≤ 2001 := by unfold accOf; split <;> omega
    have h := readInt_encode_any true (onBuffer r (encodeVarUInt (accOf k - 1))) [] []
      (accOf k - 1) (by omega) (by simp [onBuffer])
    simp only [List.length_nil, Nat.mul_zero, Nat.zero_add, atBit_mul8] at h
    have h0 : atBit (onBuffer r (encodeVarUInt (accOf k - 1))) 0 =
        onBuffer r (encodeVarUInt (accOf k - 1)) := by
      simp [atBit, onBuffer]
    rw [h0, show accOf k - 1 + 1 = accOf k by omega,
      intOfCurrent_signed _ hacc1 (by omega)] at h
    rw [h]
    have hk : (if accOf k % 2 = 1 then ((accOf k / 2 : Nat) : Int)
        else -((accOf k / 2 : Nat) : Int)) = k := by
      unfold accOf
      split <;> split <;> omega
    rw [hk]
    simp [onBuffer]
  · intro r r1 b numBits hb hk hn hzero hone hlen hres
    rw [readInt_signed_spec r b numBits hb hk hn hzero hone hlen] at hres
    have hlt := bitsVal_lt b numBits (bitPos r + numBits + 1)
    have hpos : 0 < 2 ^ numBits := Nat.pos_pow_of_pos _ (by omega)
    injection hres with hres
    injection hres with hval _
    have hv1 : 1 ≤ 2 ^ numBits + bitsVal b (bitPos r + numBits + 1) numBits := by omega
    generalize 2 ^ numBits + bitsVal b (bitPos r + numBits + 1) numBits = v at hval hv1
    unfold accOf
    split at hval <;> split <;> omega

/-- Witness of C4 (amended) at `k = -1`: the accumulated value is 2, its code
is the byte `2`. -/
theorem signed_mapping_bijective_witness :
    ((-1000 : Int) ≤ -1 ∧ (-1 : Int) ≤ 1000) ∧
    readInt true (onBuffer (freshReader []) (encodeVarUInt (accOf (-1) - 1))) =
      .ok (-1, { onBuffer (freshReader []) (encodeVarUInt (accOf (-1) - 1)) with
        mCurrentByte := (encodeVarUInt (accOf (-1) - 1)).length }) ∧
    2 ^ 1 + bitsVal [2] (bitPos (onBuffer (freshReader []) [2]) + 1 + 1) 1 = accOf (-1) :=
  ⟨by decide,
   (signed_mapping_bijective (-1) (by decide) (by decide)).1 (freshReader []),
   (signed_mapping_bijective (-1) (by decide) (by decide)).2 (onBuffer (freshReader []) [2])
     { onBuffer (freshReader []) [2] with mCurrentByte := 1 } [2] 1 rfl (by decide) (by decide)
     (by decide) (by decide) (by decide) (by decide)⟩

/-! ## C5: acceptance of the header -/

/-- C5: `readHeader`, called with the byte cursor at 0, returns `true` exactly
when a buffer is loaded, its first four bytes are the magic bytes and
`readInt(false)` on what follows returns `kCCBVersion`; a buffer of at least
four bytes whose first four bytes are not the magic bytes is rejected
(`false`) with the cursor after those four bytes, whatever follows. -/
theorem readHeader_accepts_iff (kCCBVersion : Int) (r : CCBReader) (h0 : r.mCurrentByte = 0)
    (hwf : ∀ b, r.mBytes = some b → ∀ x, x ∈ b → x < 256) :
    (∀ r1, readHeader kCCBVersion r = .ok (true, r1) ↔
      ∃ b, r.mBytes = some b ∧ b.take 4 = kMagicBytes ∧
        readInt false { r with mCurrentByte := 4 } = .ok (kCCBVersion, r1)) ∧
    (∀ b, r.mBytes = some b → 4 ≤ b.length → b.take 4 ≠ kMagicBytes →
      readHeader kCCBVersion r = .ok (false, { r with mCurrentByte := 4 })) := by
  obtain ⟨mb, cb, cbit, sc, ld, rn, ow, sz⟩ := r
  simp only at h0 hwf ⊢
  subst h0
  match mb, hwf with
  | none, _ =>
    exact ⟨fun r1 => by simp [readHeader], fun b hb2 => by simp at hb2⟩
  | some [], _ =>
    refine ⟨fun r1 => by simp [readHeader, kMagicBytes], fun b hb2 hlen => ?_⟩
    simp only [Option.some.injEq] at hb2; subst hb2; simp at hlen
  | some [_], _ =>
    refine ⟨fun r1 => by simp [readHeader, kMagicBytes], fun b hb2 hlen => ?_⟩
    simp only [Option.some.injEq] at hb2; subst hb2; simp at hlen
  | some [_, _], _ =>
    refine ⟨fun r1 => by simp [readHeader, kMagicBytes], fun b hb2 hlen => ?_⟩
    simp only [Option.some.injEq] at hb2; subst hb2; simp at hlen
  | some [_, _, _], _ =>
    refine ⟨fun r1 => by simp [readHeader, kMagicBytes], fun b hb2 hlen => ?_⟩
    simp only [Option.some.injEq] at hb2; subst hb2; simp at hlen
  | some (b0 :: b1 :: b2 :: b3 :: rest), hwf =>
    have hwfb := hwf _ rfl
    have hm := loadInt_eq_magic b0 b1 b2 b3 (hwfb b0 (by simp)) (hwfb b1 (by simp))
      (hwfb b2 (by simp))
    have hrh := readHeader_cons4 kCCBVersion
      ⟨some (b0 :: b1 :: b2 :: b3 :: rest), 0, cbit, sc, ld, rn, ow, sz⟩ b0 b1 b2 b3 rest rfl rfl
    simp only at hrh
    refine ⟨fun r1 => ?_, fun b hb2 hlen hne => ?_⟩
    · rw [hrh]
      by_cases hmag : loadInt b0 b1 b2 b3 = kMagic
      · have htake : [b0, b1, b2, b3] = kMagicBytes := hm.1 hmag
        simp only [hmag, ne_eq, not_true_eq_false, if_false, Option.some.injEq, exists_eq_left',
          List.take, htake, true_and]
        cases hri : readInt false ⟨some (b0 :: b1 :: b2 :: b3 :: rest), 4, cbit, sc, ld, rn, ow, sz⟩ with
        | ok a =>
          obtain ⟨version, r2⟩ := a
          simp only [Res.bind]
          by_cases hv : version = kCCBVersion
          · simp [hv]
          · simp [hv]
        | abort => simp [Res.bind]
        | undefined => simp [Res.bind]
        | exhausted => simp [Res.bind]
      · have htake : ¬ [b0, b1, b2, b3] = kMagicBytes := fun h => hmag (hm.2 h)
        simp [hmag, List.take, htake]
    · simp only [Option.some.injEq] at hb2
      subst hb2
      have hmag : loadInt b0 b1 b2 b3 ≠ kMagic := fun h => hne (by simpa [List.take] using hm.1 h)
      rw [hrh, if_pos hmag]

/-- Witness of C5: with `kCCBVersion = 2`, the header `i b c c` followed by the
code of 2 is accepted, and a header whose fourth byte differs is rejected. -/
theorem readHeader_accepts_iff_witness :
    (onBuffer (freshReader []) [105, 98, 99, 99, 6]).mCurrentByte = 0 ∧
    readHeader 2 (onBuffer (freshReader []) [105, 98, 99, 99, 6]) =
      .ok (true, { onBuffer (freshReader []) [105, 98, 99, 99, 6] with mCurrentByte := 5 }) ∧
    readHeader 2 (onBuffer (freshReader []) [105, 98, 99, 100, 6]) =
      .ok (false, { onBuffer (freshReader []) [105, 98, 99, 100, 6] with mCurrentByte := 4 }) :=
  ⟨rfl,
   ((readHeader_accepts_iff 2 (onBuffer (freshReader []) [105, 98, 99, 99, 6]) rfl
      (by intro b hb; injection hb with hb; subst hb; decide)).1 _).2
      ⟨_, rfl, by decide, by decide⟩,
   (readHeader_accepts_iff 2 (onBuffer (freshReader []) [105, 98, 99, 100, 6]) rfl
      (by intro b hb; injection hb with hb; subst hb; decide)).2 _ rfl (by decide) (by decide)⟩

/-! ## C6: nothing is read after a rejected header -/

/-- C6: when `readHeader` rejects the header of the loaded file (no buffer,
other magic bytes, or another version), `readNodeGraphFromFile` returns `NULL`
in the state `readHeader` left, for every loader table and recursion budget
(no loader runs); the string cache and the recorded root are as before the
call, and the cursor is at 0 (no buffer), at byte 4 (after the magic bytes) or
where `readInt(false)` on the version field left it. -/
theorem rejected_header_stops (kCCBVersion : Int) (file : Option (List Nat))
    (pOwner : Option Nat) (pParentSize : CCSize) (r r1 : CCBReader)
    (hrej : readHeader kCCBVersion (beginRead file pOwner pParentSize r) = .ok (false, r1)) :
    (∀ (load : LoaderTable) (fuel : Nat),
      readNodeGraphFromFile load kCCBVersion fuel file pOwner pParentSize r = .ok (none, r1)) ∧
    r1.mStringCache = r.mStringCache ∧ r1.mRootNode = r.mRootNode ∧
    r1.mCCNodeLoaders = r.mCCNodeLoaders ∧
    ((file = none ∧ r1.mCurrentByte = 0 ∧ r1.mCurrentBit = 0) ∨
     (r1.mCurrentByte = 4 ∧ r1.mCurrentBit = 0) ∨
     ∃ version, version ≠ kCCBVersion ∧
       readInt false { beginRead file pOwner pParentSize r with mCurrentByte := 4 } =
         .ok (version, r1)) := by
  refine ⟨fun load fuel => by simp only [readNodeGraphFromFile, hrej], ?_⟩
  rcases readHeader_false_cases _ _ _ hrej with ⟨hb, h1⟩ | h1 | ⟨version, hv, hri⟩
  · subst h1
    exact ⟨rfl, rfl, rfl, Or.inl ⟨hb, rfl, rfl⟩⟩
  · subst h1
    exact ⟨rfl, rfl, rfl, Or.inr (Or.inl ⟨rfl, rfl⟩)⟩
  · have hs := readInt_sameData _ _ _ _ hri
    exact ⟨hs.2.1, hs.2.2.2.1, hs.2.2.1, Or.inr (Or.inr ⟨version, hv, hri⟩)⟩

/-- Witness of C6: a file with the right magic bytes and version 3, read by a
reader for version 2 whose cache already holds one string. -/
theorem rejected_header_stops_witness :
    readHeader 2 (beginRead (some [105, 98, 99, 99, 4, 1, 0, 1, 97, 1, 1, 1]) none ⟨0, 0⟩
        { freshReader [] with mStringCache := [[120]] }) =
      .ok (false, { freshReader [] with
        mBytes := some [105, 98, 99, 99, 4, 1, 0, 1, 97, 1, 1, 1], mCurrentByte := 5,
        mStringCache := [[120]] }) ∧
    ∀ (load : LoaderTable) (fuel : Nat),
      readNodeGraphFromFile load 2 fuel (some [105, 98, 99, 99, 4, 1, 0, 1, 97, 1, 1, 1]) none
          ⟨0, 0⟩ { freshReader [] with mStringCache := [[120]] } =
        .ok (none, { freshReader [] with
          mBytes := some [105, 98, 99, 99, 4, 1, 0, 1, 97, 1, 1, 1], mCurrentByte := 5,
          mStringCache := [[120]] }) :=
  ⟨by decide,
   (rejected_header_stops 2 (some [105, 98, 99, 99, 4, 1, 0, 1, 97, 1, 1, 1]) none ⟨0, 0⟩
     { freshReader [] with mStringCache := [[120]] } _ (by decide)).1⟩

/-! ## C7: a class name without a loader -/

/-- C7: when a class name has no entry in the registry, `getCCNodeLoader`
stops at its `assert`; and when the decoding of a node graph reaches, at the
node itself or at any node below it, a class name without an entry, then
`readNodeGraph` stops at that `assert` and returns no node, and so does
`readNodeGraphFromFile` on a file whose header and string cache were read
before. -/
theorem unknown_type_aborts (load : LoaderTable) (fuel : Nat) (pParent : Option CCNode)
    (r : CCBReader) (h : ReachesUnknownType load fuel pParent r) :
    (∀ (className : List Nat) (r1 : CCBReader), mapFind r1.mCCNodeLoaders className = none →
      getCCNodeLoader className r1 = .abort) ∧
    readNodeGraph load fuel pParent r = .abort ∧
    (∀ (kCCBVersion : Int) (file : Option (List Nat)) (pOwner : Option Nat)
        (pParentSize : CCSize) (r0 rA : CCBReader),
      pParent = none →
      readHeader kCCBVersion (beginRead file pOwner pParentSize r0) = .ok (true, rA) →
      readStringCache rA = .ok (true, r) →
      readNodeGraphFromFile load kCCBVersion fuel file pOwner pParentSize r0 = .abort) := by
  refine ⟨fun className r1 hfind => by simp [getCCNodeLoader, hfind],
    readNodeGraph_abort_of_reaches load fuel pParent r h, ?_⟩
  intro kCCBVersion file pOwner pParentSize r0 rA hp hhead hcache
  subst hp
  simp only [readNodeGraphFromFile, hhead, hcache,
    readNodeGraph_abort_of_reaches load fuel none r h]

/-- Witness of C7: the registry knows the class `A` only; the file holds the
strings `A` and `B` and a root of class `A` with one child of class `B`. -/
theorem unknown_type_aborts_witness :
    ReachesUnknownType byteLoader 2 none
      { freshReader [([65], 1)] with
        mBytes := some [105, 98, 99, 99, 6, 6, 0, 1, 65, 0, 1, 66, 1, 1, 7, 2, 2, 1],
        mCurrentByte := 12, mStringCache := [[65], [66]] } ∧
    readNodeGraphFromFile byteLoader 2 2
        (some [105, 98, 99, 99, 6, 6, 0, 1, 65, 0, 1, 66, 1, 1, 7, 2, 2, 1]) none ⟨0, 0⟩
        (freshReader [([65], 1)]) = .abort :=
  have hreach : ReachesUnknownType byteLoader 2 none
      { freshReader [([65], 1)] with
        mBytes := some [105, 98, 99, 99, 6, 6, 0, 1, 65, 0, 1, 66, 1, 1, 7, 2, 2, 1],
        mCurrentByte := 12, mStringCache := [[65], [66]] } :=
    .child 1 none _ _ _ _ _ [65] [] 0 1 (CCNode.mk 7 []) (CCNode.mk 7 []) 1 0
      (by rfl) (by rfl) (by rfl) (by rfl) (by decide) (by rfl)
      (.here 0 _ _ _ [66] [] 0 (by rfl) (by rfl))
  ⟨hreach,
   (unknown_type_aborts byteLoader 2 none _ hreach).2.2 2 _ none ⟨0, 0⟩ (freshReader [([65], 1)])
     _ rfl (by rfl) (by rfl)⟩

/-! ## C8: resolution of cached strings -/

/-- C8 (as stated, refuted): on a reader whose cache already holds the string
`x`, after `readStringCache` on the section encoding the one string `a`, the
cache is `x`, `a` and `readCachedString` on the encoded index 0 returns `x`. -/
theorem stringCache_index_shifted_on_reuse :
    readStringCache { onBuffer (freshReader []) (encodeStringCache [[97]] ++ encodeVarUInt 0) with
        mStringCache := [[120]] } =
      .ok (true, { freshReader [] with
        mBytes := some [2, 0, 1, 97, 1], mCurrentByte := 4, mStringCache := [[120], [97]] }) ∧
    readCachedString { freshReader [] with
        mBytes := some [2, 0, 1, 97, 1], mCurrentByte := 4, mStringCache := [[120], [97]] } =
      .ok ([120], { freshReader [] with
        mBytes := some [2, 0, 1, 97, 1], mCurrentByte := 5, mStringCache := [[120], [97]] }) ∧
    ([120] : List Nat) ≠ [97] := by
  refine ⟨by decide, by decide, by decide⟩

/-- C8 (amended): on a reader whose string cache is empty before the call, for
every stream section encoding a count `n < 2 ^ 31` followed by `n`
length-prefixed strings `ss`, `readStringCache` returns `true` and leaves the
cache equal to `ss` (the string at index `i` is `s_i`), with the cursor after
the section; and on every reader holding that cache, `readCachedString` on an
encoded index `i < n` returns `s_i`. -/
theorem stringCache_resolution (r : CCBReader) (pre post : List Nat) (ss : List (List Nat))
    (i : Nat) (s : List Nat) (hc : r.mStringCache = []) (hn : ss.length < 2 ^ 31)
    (hi : ss[i]? = some s)
    (hb : r.mBytes = some (pre ++ encodeStringCache ss ++ post))
    (hp : r.mCurrentByte = pre.length) (hbit : r.mCurrentBit = 0) :
    readStringCache r =
      .ok (true, { r with mCurrentByte := pre.length + (encodeStringCache ss).length,
                          mStringCache := ss }) ∧
    ∀ (r2 : CCBReader) (pre2 post2 : List Nat), r2.mStringCache = ss →
      r2.mBytes = some (pre2 ++ encodeVarUInt i ++ post2) →
      r2.mCurrentByte = pre2.length → r2.mCurrentBit = 0 →
      readCachedString r2 =
        .ok (s, { r2 with mCurrentByte := pre2.length + (encodeVarUInt i).length }) := by
  constructor
  · rw [readStringCache_encode ss r pre post hn hb hp hbit, hc, List.nil_append]
  · intro r2 pre2 post2 hc2 hb2 hp2 hbit2
    have hlt : i < ss.length := by
      rcases Nat.lt_or_ge i ss.length with h | h
      · exact h
      · rw [List.getElem?_eq_none h] at hi; simp at hi
    exact readCachedString_encode r2 pre2 post2 i s (by rw [hc2]; exact hi) (by omega) hb2 hp2 hbit2

/-- Witness of C8 (amended): the strings `a`, `bb`, `ccc`; index 2 gives
`ccc`. -/
theorem stringCache_resolution_witness :
    readStringCache (onBuffer (freshReader [])
        ([] ++ encodeStringCache [[97], [98, 98], [99, 99, 99]] ++ encodeVarUInt 2)) =
      .ok (true, { onBuffer (freshReader [])
          ([] ++ encodeStringCache [[97], [98, 98], [99, 99, 99]] ++ encodeVarUInt 2) with
        mCurrentByte := ([] : List Nat).length +
          (encodeStringCache [[97], [98, 98], [99, 99, 99]]).length,
        mStringCache := [[97], [98, 98], [99, 99, 99]] }) ∧
    readCachedString { freshReader [] with
        mBytes := some ([4, 0, 1, 97, 0, 2, 98, 98, 0, 3, 99, 99, 99] ++ encodeVarUInt 2 ++ []),
        mCurrentByte := 13, mStringCache := [[97], [98, 98], [99, 99, 99]] } =
      .ok ([99, 99, 99], { freshReader [] with
        mBytes := some ([4, 0, 1, 97, 0, 2, 98, 98, 0, 3, 99, 99, 99] ++ encodeVarUInt 2 ++ []),
        mCurrentByte := 13 + (encodeVarUInt 2).length,
        mStringCache := [[97], [98, 98], [99, 99, 99]] }) :=
  ⟨(stringCache_resolution (onBuffer (freshReader [])
      ([] ++ encodeStringCache [[97], [98, 98], [99, 99, 99]] ++ encodeVarUInt 2))
      [] (encodeVarUInt 2) [[97], [98, 98], [99, 99, 99]] 2 [99, 99, 99] rfl (by decide) rfl rfl
      rfl rfl).1,
   (stringCache_resolution (onBuffer (freshReader [])
      ([] ++ encodeStringCache [[97], [98, 98], [99, 99, 99]] ++ encodeVarUInt 2))
      [] (encodeVarUInt 2) [[97], [98, 98], [99, 99, 99]] 2 [99, 99, 99] rfl (by decide) rfl rfl
      rfl rfl).2 _ [4, 0, 1, 97, 0, 2, 98, 98, 0, 3, 99, 99, 99] [] rfl rfl rfl rfl⟩

/-! ## C9: a cached-string index outside the cache -/

/-- C9 (as stated, refuted): on a cache of 3 strings, `readCachedString` on the
encoded index 3 is an unchecked access past the end of the vector; the call
does not end in a detected failure. -/
theorem readCachedString_index_3_unchecked :
    encodeVarUInt 3 = [4] ∧
    readCachedString { onBuffer (freshReader []) [4] with
        mStringCache := [[97], [98, 98], [99, 99, 99]] } = .undefined ∧
    (readCachedString { onBuffer (freshReader []) [4] with
        mStringCache := [[97], [98, 98], [99, 99, 99]] }).isFailure = false := by
  refine ⟨by decide, by decide, by decide⟩

/-- C9 (amended): for every cache of `n` strings, when the index `i` decoded
by `readInt(false)` is at least `n` (or negative), `readCachedString`
evaluates `mStringCache[i]` outside the vector without any check: the
behaviour is undefined and no failure is raised; when `0 ≤ i < n` it returns
the string at index `i`. -/
theorem readCachedString_index_check (r r1 : CCBReader) (i : Int)
    (hread : readInt false r = .ok (i, r1)) :
    ((r.mStringCache.length : Int) ≤ i ∨ i < 0 → readCachedString r = .undefined) ∧
    (∀ s, 0 ≤ i → r.mStringCache[i.toNat]? = some s → readCachedString r = .ok (s, r1)) := by
  have hsame := (readInt_sameData _ _ _ _ hread).2.1
  constructor
  · intro h
    simp only [readCachedString, hread, Res.ok_bind]
    by_cases h0 : 0 ≤ i
    · have hnone : r1.mStringCache[i.toNat]? = none := by
        rw [hsame]
        apply List.getElem?_eq_none
        omega
      simp [h0, hnone]
    · simp [h0]
  · intro s h0 hs
    rw [← hsame] at hs
    simp [readCachedString, hread, h0, hs]

/-- Witness of C9 (amended): index 3 on a cache of 3 strings. -/
theorem readCachedString_index_check_witness :
    readCachedString { onBuffer (freshReader []) [4] with
        mStringCache := [[97], [98, 98], [99, 99, 99]] } = .undefined :=
  (readCachedString_index_check
    { onBuffer (freshReader []) [4] with mStringCache := [[97], [98, 98], [99, 99, 99]] }
    { onBuffer (freshReader []) [4] with
      mCurrentByte := 1, mStringCache := [[97], [98, 98], [99, 99, 99]] } 3 (by decide)).1
    (by decide)

/-! ## C10: number and order of the children -/

/-- C10: for a node whose head is decoded, whose loader returns `node0` and
whose child count decodes to `numChildren`, `readNodeGraph` returns `node1`
exactly when `numChildren` children are decoded by the recursive calls, one
after the other in stream order and each with the node as parent, and `node1`
is `node0` with exactly these children appended in that order. -/
theorem readNodeGraph_children (load : LoaderTable) (fuel : Nat) (pParent : Option CCNode)
    (r r1 r2 r4 : CCBReader) (className memberVarAssignmentName : List Nat)
    (memberVarAssignmentType numChildren : Int) (ccNodeLoader : Nat) (node0 : CCNode)
    (hhead : readNodeHead r =
      .ok ((className, memberVarAssignmentType, memberVarAssignmentName), r1))
    (hget : getCCNodeLoader className r1 = .ok ccNodeLoader)
    (hload : load ccNodeLoader pParent r1 = .ok (node0, r2))
    (hnum : readInt false (setRootNode node0 r2) = .ok (numChildren, r4))
    (node1 : CCNode) (r5 : CCBReader) :
    readNodeGraph load (fuel + 1) pParent r = .ok (node1, r5) ↔
      ∃ cs : List CCNode, cs.length = numChildren.toNat ∧
        ChildrenDecoded (readNodeGraph load fuel) node0 r4 cs r5 ∧
        node1 = CCNode.mk node0.ident (node0.children ++ cs) := by
  simp only [readNodeGraph, hhead, Res.ok_bind, hget, hload, hnum]
  exact readChildren_iff _ _ _ _ _ _

/-- Witness of C10: a root (address 7) followed by two children (addresses 8
and 9, no children of their own) decodes to the root with the children 8, 9 in
this order. -/
theorem readNodeGraph_children_witness :
    readNodeGraph byteLoader (1 + 1) none
        { freshReader [([65], 1)] with
          mBytes := some [1, 1, 7, 6, 1, 1, 8, 1, 1, 1, 9, 1], mStringCache := [[65]] } =
      .ok (CCNode.mk 7 [CCNode.mk 8 [], CCNode.mk 9 []],
        { freshReader [([65], 1)] with
          mBytes := some [1, 1, 7, 6, 1, 1, 8, 1, 1, 1, 9, 1], mCurrentByte := 12,
          mStringCache := [[65]], mRootNode := some 7 }) :=
  (readNodeGraph_children byteLoader 1 none
    { freshReader [([65], 1)] with
      mBytes := some [1, 1, 7, 6, 1, 1, 8, 1, 1, 1, 9, 1], mStringCache := [[65]] }
    { freshReader [([65], 1)] with
      mBytes := some [1, 1, 7, 6, 1, 1, 8, 1, 1, 1, 9, 1], mCurrentByte := 2,
      mStringCache := [[65]] }
    { freshReader [([65], 1)] with
      mBytes := some [1, 1, 7, 6, 1, 1, 8, 1, 1, 1, 9, 1], mCurrentByte := 3,
      mStringCache := [[65]] }
    { freshReader [([65], 1)] with
      mBytes := some [1, 1, 7, 6, 1, 1, 8, 1, 1, 1, 9, 1], mCurrentByte := 4,
      mStringCache := [[65]], mRootNode := some 7 }
    [65] [] 0 2 1 (CCNode.mk 7 []) (by rfl) (by rfl) (by rfl) (by rfl) _ _).2
    ⟨[CCNode.mk 8 [], CCNode.mk 9 []], rfl,
      .step _ _ _
        { freshReader [([65], 1)] with
          mBytes := some [1, 1, 7, 6, 1, 1, 8, 1, 1, 1, 9, 1], mCurrentByte := 8,
          mStringCache := [[65]], mRootNode := some 7 } _ _ (by rfl)
        (.step _ _ _
          { freshReader [([65], 1)] with
            mBytes := some [1, 1, 7, 6, 1, 1, 8, 1, 1, 1, 9, 1], mCurrentByte := 12,
            mStringCache := [[65]], mRootNode := some 7 } _ _ (by rfl) (.done _ _)),
      rfl⟩

/-! ## C11: the recorded root -/

/-- C11 (the code departs from the documented rule): `readNodeGraph` assigns
`mRootNode` only when it is `NULL`, and neither the constructor nor
`readNodeGraphFromFile` sets it to `NULL`. First, a reader whose `mRootNode`
holds the address 43690 before the call decodes a file whose only node is 5:
the call succeeds and returns the node 5, and the recorded root is still
43690. Second, a reader that starts with `NULL` decodes that file, which
records the root 5, and then a file whose only node is 7: the second call
returns the node 7, the first node it constructs, and the recorded root is
still the node 5 of the first call. -/
theorem decode_keeps_stale_root :
    readNodeGraphFromFile byteLoader 2 1
        (some [105, 98, 99, 99, 6, 2, 0, 1, 65, 1, 1, 5, 1]) none ⟨0, 0⟩
        { freshReader [([65], 1)] with mRootNode := some 43690 } =
      .ok (some (CCNode.mk 5 []),
        { freshReader [([65], 1)] with
          mBytes := some [105, 98, 99, 99, 6, 2, 0, 1, 65, 1, 1, 5, 1], mCurrentByte := 13,
          mStringCache := [[65]], mRootNode := some 43690 }) ∧
    (some 43690 : Option Nat) ≠ some (CCNode.mk 5 []).ident ∧
    readNodeGraphFromFile byteLoader 2 1
        (some [105, 98, 99, 99, 6, 2, 0, 1, 65, 1, 1, 5, 1]) none ⟨0, 0⟩
        (freshReader [([65], 1)]) =
      .ok (some (CCNode.mk 5 []),
        { freshReader [([65], 1)] with
          mBytes := some [105, 98, 99, 99, 6, 2, 0, 1, 65, 1, 1, 5, 1], mCurrentByte := 13,
          mStringCache := [[65]], mRootNode := some 5 }) ∧
    readNodeGraphFromFile byteLoader 2 1
        (some [105, 98, 99, 99, 6, 2, 0, 1, 65, 1, 1, 7, 1]) none ⟨0, 0⟩
        { freshReader [([65], 1)] with
          mBytes := some [105, 98, 99, 99, 6, 2, 0, 1, 65, 1, 1, 5, 1], mCurrentByte := 13,
          mStringCache := [[65]], mRootNode := some 5 } =
      .ok (some (CCNode.mk 7 []),
        { freshReader [([65], 1)] with
          mBytes := some [105, 98, 99, 99, 6, 2, 0, 1, 65, 1, 1, 7, 1], mCurrentByte := 13,
          mStringCache := [[65], [65]], mRootNode := some 5 }) ∧
    (some 5 : Option Nat) ≠ some (CCNode.mk 7 []).ident := by
  refine ⟨by rfl, by decide, by rfl, by rfl, by decide⟩

/-! ## C12: the cursor after a variable-length integer -/

/-- C12: for every `readInt` call, signed or unsigned, that starts with bit
offset 0 at byte offset `p` on a code of `numBits` zero bits and a one bit
(`2 * numBits + 1` bits in all), a call that returns leaves the bit offset 0
and the byte offset `p + ceil((2 * numBits + 1) / 8)`; and the call does
return when `numBits ≤ 31`. -/
theorem readInt_aligns (pSign : Bool) (r : CCBReader) (b : List Nat) (numBits : Nat)
    (hb : r.mBytes = some b) (hbit : r.mCurrentBit = 0)
    (hzero : ∀ j, j < numBits → bitAt b (8 * r.mCurrentByte + j) = false)
    (hone : bitAt b (8 * r.mCurrentByte + numBits) = true)
    (hlen : 8 * r.mCurrentByte + 2 * numBits + 1 ≤ 8 * b.length) :
    (∀ (v : Int) (r1 : CCBReader), readInt pSign r = .ok (v, r1) →
      r1.mCurrentBit = 0 ∧ r1.mCurrentByte = r.mCurrentByte + (2 * numBits + 1 + 7) / 8) ∧
    (numBits ≤ 31 → ∃ v : Int, readInt pSign r =
      .ok (v, { r with mCurrentByte := r.mCurrentByte + (2 * numBits + 1 + 7) / 8,
                       mCurrentBit := 0 })) := by
  have hr : atBit r (8 * r.mCurrentByte) = r := atBit_of_cursor r _ rfl hbit
  have hpos : 8 * ((8 * r.mCurrentByte + 2 * numBits + 1 + 7) / 8) =
      8 * (r.mCurrentByte + (2 * numBits + 1 + 7) / 8) := by omega
  constructor
  · intro v r1 h
    rw [← hr] at h
    have := readInt_cursor_of_run pSign r b hb numBits _ hzero hone (by omega) v r1 h
    rw [hpos, atBit_mul8] at this
    subst this
    exact ⟨rfl, rfl⟩
  · intro hn
    by_cases h30 : numBits ≤ 30
    · have h := readInt_spec pSign r b hb numBits _ h30 hzero hone hlen
      rw [hr, hpos, atBit_mul8] at h
      exact ⟨_, h⟩
    · have h31 : numBits = 31 := by omega
      subst h31
      have h := readInt_spec31 pSign r b hb _ hzero hone (by omega)
      rw [hr, show 8 * r.mCurrentByte + 63 = 8 * r.mCurrentByte + 2 * 31 + 1 by omega, hpos,
        atBit_mul8] at h
      exact ⟨_, h⟩

/-- Witness of C12: the byte `4` holds the five code bits `0 0 1 0 0` of the
value 3; `readInt` advances the byte offset from 1 to 2. -/
theorem readInt_aligns_witness :
    ∃ v : Int, readInt false { onBuffer (freshReader []) [9, 4, 9] with mCurrentByte := 1 } =
      .ok (v, { onBuffer (freshReader []) [9, 4, 9] with
        mCurrentByte := 1 + (2 * 2 + 1 + 7) / 8, mCurrentBit := 0 }) :=
  (readInt_aligns false { onBuffer (freshReader []) [9, 4, 9] with mCurrentByte := 1 }
    [9, 4, 9] 2 rfl rfl (by decide) (by decide) (by decide)).2 (by decide)

/-! ## C13: the length-prefixed string -/

/-- C13: for every buffer `b` of bytes and byte offset `p` with the two bytes
`b0`, `b1` at `p` and `p + 1` and at least `L = (b0 << 8) | b1` further bytes,
`L` is `256 * b0 + b1 ≤ 65535`, and `readUTF8` returns exactly the `L` bytes at
the offsets `p + 2 .. p + 2 + L - 1` and advances the byte offset by exactly
`2 + L`. -/
theorem readUTF8_length_prefixed (r : CCBReader) (b : List Nat) (hb : r.mBytes = some b)
    (hwf : ∀ x, x ∈ b → x < 256) (h1 : r.mCurrentByte + 1 < b.length)
    (hL : r.mCurrentByte + 2 + ((b[r.mCurrentByte] <<< 8) ||| b[r.mCurrentByte + 1]) ≤ b.length) :
    (b[r.mCurrentByte] <<< 8) ||| b[r.mCurrentByte + 1] =
      256 * b[r.mCurrentByte] + b[r.mCurrentByte + 1] ∧
    (b[r.mCurrentByte] <<< 8) ||| b[r.mCurrentByte + 1] ≤ 65535 ∧
    readUTF8 r =
      .ok ((b.drop (r.mCurrentByte + 2)).take ((b[r.mCurrentByte] <<< 8) ||| b[r.mCurrentByte + 1]),
        { r with mCurrentByte :=
          r.mCurrentByte + (2 + ((b[r.mCurrentByte] <<< 8) ||| b[r.mCurrentByte + 1])) }) ∧
    ((b.drop (r.mCurrentByte + 2)).take
      ((b[r.mCurrentByte] <<< 8) ||| b[r.mCurrentByte + 1])).length =
        (b[r.mCurrentByte] <<< 8) ||| b[r.mCurrentByte + 1] ∧
    ∀ j, j < (b[r.mCurrentByte] <<< 8) ||| b[r.mCurrentByte + 1] →
      ((b.drop (r.mCurrentByte + 2)).take
        ((b[r.mCurrentByte] <<< 8) ||| b[r.mCurrentByte + 1]))[j]? = b[r.mCurrentByte + 2 + j]? := by
  have hb0 : b[r.mCurrentByte] < 256 := hwf _ (List.getElem_mem _)
  have hb1 : b[r.mCurrentByte + 1] < 256 := hwf _ (List.getElem_mem _)
  have hor := shift_or_byte b[r.mCurrentByte] b[r.mCurrentByte + 1] hb1
  refine ⟨hor, by omega, ?_, ?_, ?_⟩
  · obtain ⟨mb, cb, cbit, sc, ld, rn, ow, sz⟩ := r
    simp only at hb h1 hL hor ⊢
    subst hb
    simp only [readUTF8, readByte, List.getElem?_eq_getElem (show cb < b.length by omega),
      List.getElem?_eq_getElem h1, Res.ok_bind, Res.pure_eq]
    generalize (b[cb] <<< 8 ||| b[cb + 1]) = L at hL ⊢
    rw [if_pos (by omega), show cb + 1 + 1 + L = cb + (2 + L) by omega]
  · rw [List.length_take, List.length_drop]
    omega
  · intro j hj
    rw [List.getElem?_take, if_pos hj, List.getElem?_drop]

/-- Witness of C13: the length bytes `0, 2` followed by the bytes `98, 98`. -/
theorem readUTF8_length_prefixed_witness :
    readUTF8 { onBuffer (freshReader []) [7, 0, 2, 98, 98, 9] with mCurrentByte := 1 } =
      .ok ([98, 98],
        { onBuffer (freshReader []) [7, 0, 2, 98, 98, 9] with mCurrentByte := 1 + (2 + 2) }) := by
  have h := (readUTF8_length_prefixed
    { onBuffer (freshReader []) [7, 0, 2, 98, 98, 9] with mCurrentByte := 1 }
    [7, 0, 2, 98, 98, 9] rfl (by decide) (by decide) (by decide)).2.2.1
  simpa using h

/-! ## C14: the tags of `readFloat` -/

/-- C14 (as stated, refuted): with the integer tag 4, the bytes after the tag
in `[4, 0, 0, 0, 2, 0, 0, 6]` make `readInt(true)` return 16777217, and
`readFloat` on that buffer returns the `float` of pattern `0x4B800000`, whose
value is 16777216: the conversion of the `int` to `float` rounds. -/
theorem readFloat_int_tag_rounds :
    readInt true { onBuffer (freshReader []) [4, 0, 0, 0, 2, 0, 0, 6] with mCurrentByte := 1 } =
      .ok (16777217,
        { onBuffer (freshReader []) [4, 0, 0, 0, 2, 0, 0, 6] with mCurrentByte := 8 }) ∧
    readFloat 4 (onBuffer (freshReader []) [4, 0, 0, 0, 2, 0, 0, 6]) =
      .ok (0x4B800000,
        { onBuffer (freshReader []) [4, 0, 0, 0, 2, 0, 0, 6] with mCurrentByte := 8 }) ∧
    f32Value 0x4B800000 = 16777216 ∧ f32Value 0x4B800000 ≠ 16777217 := by
  have hv : f32Value 0x4B800000 = 16777216 := by norm_num [f32Value, f32Scaled]
  refine ⟨by decide, by decide, hv, ?_⟩
  rw [hv]
  norm_num

/-- C14 (amended): for every buffer with the tag byte at the byte offset `p`,
and the integer tag `kCCBFloatInteger` different from 0, 1, 2 and 3: on the tag
0 `readFloat` returns the `float` of value exactly 0, on 1 exactly 1, on 2
exactly -1, on 3 exactly 1/2, each time with the byte offset advanced by 1
only. On the integer tag it runs `readInt(true)` on the bytes after the tag
and, when that returns `i`, returns `i` converted to `float`: the value is `i`
rounded to 24 significant bits, which is `i` itself when `|i| ≤ 2 ^ 24` and
otherwise differs from `i` by at most `|i| / 2 ^ 24`. On any other tag, with
four more bytes in the buffer, it returns the `float` whose pattern is made of
these four bytes and the byte offset is advanced by 5 in all. -/
theorem readFloat_tags (kCCBFloatInteger : Nat) (r : CCBReader) (b : List Nat)
    (hb : r.mBytes = some b) (hp : r.mCurrentByte < b.length)
    (hI : kCCBFloatInteger ≠ 0 ∧ kCCBFloatInteger ≠ 1 ∧ kCCBFloatInteger ≠ 2 ∧
      kCCBFloatInteger ≠ 3) :
    (b[r.mCurrentByte] = 0 → readFloat kCCBFloatInteger r =
      .ok (0, { r with mCurrentByte := r.mCurrentByte + 1 })) ∧
    (b[r.mCurrentByte] = 1 → readFloat kCCBFloatInteger r =
      .ok (0x3F800000, { r with mCurrentByte := r.mCurrentByte + 1 })) ∧
    (b[r.mCurrentByte] = 2 → readFloat kCCBFloatInteger r =
      .ok (0xBF800000, { r with mCurrentByte := r.mCurrentByte + 1 })) ∧
    (b[r.mCurrentByte] = 3 → readFloat kCCBFloatInteger r =
      .ok (0x3F000000, { r with mCurrentByte := r.mCurrentByte + 1 })) ∧
    (f32Value 0 = 0 ∧ f32Value 0x3F800000 = 1 ∧ f32Value 0xBF800000 = -1 ∧
      f32Value 0x3F000000 = 1 / 2) ∧
    (b[r.mCurrentByte] = kCCBFloatInteger →
      readFloat kCCBFloatInteger r =
        (readInt true { r with mCurrentByte := r.mCurrentByte + 1 }).bind
          (fun x => .ok (intToF32 x.1, x.2)) ∧
      ∀ (i : Int) (r2 : CCBReader),
        readInt true { r with mCurrentByte := r.mCurrentByte + 1 } = .ok (i, r2) →
        readFloat kCCBFloatInteger r = .ok (intToF32 i, r2) ∧
        f32Value (intToF32 i) = ((Int.sign i * (roundToF32 i.natAbs : Int) : Int) : Rat) ∧
        (i.natAbs ≤ 2 ^ 24 → f32Value (intToF32 i) = (i : Rat)) ∧
        |f32Value (intToF32 i) - (i : Rat)| * 2 ^ 24 ≤ |(i : Rat)|) ∧
    (∀ h4 : r.mCurrentByte + 4 < b.length,
      b[r.mCurrentByte] ≠ 0 → b[r.mCurrentByte] ≠ 1 → b[r.mCurrentByte] ≠ 2 →
      b[r.mCurrentByte] ≠ 3 → b[r.mCurrentByte] ≠ kCCBFloatInteger →
      readFloat kCCBFloatInteger r =
        .ok (loadInt b[r.mCurrentByte + 1] b[r.mCurrentByte + 2] b[r.mCurrentByte + 3]
            b[r.mCurrentByte + 4],
          { r with mCurrentByte := r.mCurrentByte + 5 })) := by
  obtain ⟨mb, cb, cbit, sc, ld, rn, ow, sz⟩ := r
  simp only at hb hp ⊢
  subst hb
  obtain ⟨hI0, hI1, hI2, hI3⟩ := hI
  have hrb : readByte ⟨some b, cb, cbit, sc, ld, rn, ow, sz⟩ =
      .ok (b[cb], ⟨some b, cb + 1, cbit, sc, ld, rn, ow, sz⟩) := by
    simp [readByte, List.getElem?_eq_getElem hp]
  have e0 : intToF32 0 = 0 := by decide
  have e1 : intToF32 1 = 0x3F800000 := by decide
  have e2 : intToF32 (-1) = 0xBF800000 := by decide
  have hbind : b[cb] = kCCBFloatInteger →
      readFloat kCCBFloatInteger ⟨some b, cb, cbit, sc, ld, rn, ow, sz⟩ =
        (readInt true ⟨some b, cb + 1, cbit, sc, ld, rn, ow, sz⟩).bind
          (fun x => .ok (intToF32 x.1, x.2)) := by
    intro h
    simp only [readFloat, hrb, Res.ok_bind, h, kCCBFloat0, kCCBFloat1, kCCBFloatMinus1,
      kCCBFloat05, if_neg hI0, if_neg hI1, if_neg hI2, if_neg hI3, if_true]
    rfl
  refine ⟨fun h => ?_, fun h => ?_, fun h => ?_, fun h => ?_, ⟨?_, ?_, ?_, ?_⟩, fun h => ⟨hbind h,
    fun i r2 hi => ⟨?_, ?_, ?_, ?_⟩⟩, fun h4 n0 n1 n2 n3 nI => ?_⟩
  · simp [readFloat, hrb, h, kCCBFloat0, e0]
  · simp [readFloat, hrb, h, kCCBFloat0, kCCBFloat1, e1]
  · simp [readFloat, hrb, h, kCCBFloat0, kCCBFloat1, kCCBFloatMinus1, e2]
  · simp [readFloat, hrb, h, kCCBFloat0, kCCBFloat1, kCCBFloatMinus1, kCCBFloat05, kHalfF32]
  · norm_num [f32Value, f32Scaled]
  · norm_num [f32Value, f32Scaled]
  · norm_num [f32Value, f32Scaled]
  · norm_num [f32Value, f32Scaled]
  · rw [hbind h, hi]
    rfl
  · exact f32Value_intToF32 i (readInt_range _ _ _ _ hi).1 (readInt_range _ _ _ _ hi).2
  · exact fun h24 => f32Value_intToF32_exact i h24
  · exact f32Value_intToF32_near i (readInt_range _ _ _ _ hi).1 (readInt_range _ _ _ _ hi).2
  · simp only [readFloat, hrb, Res.ok_bind, kCCBFloat0, kCCBFloat1, kCCBFloatMinus1,
      kCCBFloat05, if_neg n0, if_neg n1, if_neg n2, if_neg n3, if_neg nI,
      List.getElem?_eq_getElem (show cb + 1 < b.length by omega),
      List.getElem?_eq_getElem (show cb + 1 + 1 < b.length by omega),
      List.getElem?_eq_getElem (show cb + 1 + 2 < b.length by omega),
      List.getElem?_eq_getElem (show cb + 1 + 3 < b.length by omega), Res.pure_eq]

/-- Witness of C14 (amended): the tag 3 gives the pattern of 1/2 and moves the
byte offset by 1; with the integer tag 4, the bytes `0x60, 9` after the tag give
the `int` -26 and the result has the value -26; the tag 5 takes the four bytes that
follow. -/
theorem readFloat_tags_witness :
    readFloat 4 (onBuffer (freshReader []) [3, 9]) =
      .ok (0x3F000000, { onBuffer (freshReader []) [3, 9] with mCurrentByte := 1 }) ∧
    (readFloat 4 (onBuffer (freshReader []) [4, 0x60, 9]) =
      .ok (intToF32 (-26), { onBuffer (freshReader []) [4, 0x60, 9] with mCurrentByte := 3 }) ∧
     f32Value (intToF32 (-26)) = ((-26 : Int) : Rat)) ∧
    readFloat 4 (onBuffer (freshReader []) [5, 0, 0, 128, 63, 9]) =
      .ok (loadInt 0 0 128 63,
        { onBuffer (freshReader []) [5, 0, 0, 128, 63, 9] with mCurrentByte := 5 }) :=
  ⟨(readFloat_tags 4 (onBuffer (freshReader []) [3, 9]) [3, 9] rfl (by decide)
      (by decide)).2.2.2.1 rfl,
   ⟨((readFloat_tags 4 (onBuffer (freshReader []) [4, 0x60, 9]) [4, 0x60, 9] rfl (by decide)
      (by decide)).2.2.2.2.2.1 rfl).2 (-26)
      { onBuffer (freshReader []) [4, 0x60, 9] with mCurrentByte := 3 } (by decide) |>.1,
    ((readFloat_tags 4 (onBuffer (freshReader []) [4, 0x60, 9]) [4, 0x60, 9] rfl (by decide)
      (by decide)).2.2.2.2.2.1 rfl).2 (-26)
      { onBuffer (freshReader []) [4, 0x60, 9] with mCurrentByte := 3 } (by decide) |>.2.2.1
      (by decide)⟩,
   (readFloat_tags 4 (onBuffer (freshReader []) [5, 0, 0, 128, 63, 9]) [5, 0, 0, 128, 63, 9] rfl
      (by decide) (by decide)).2.2.2.2.2.2 (by decide) (by decide) (by decide) (by decide)
      (by decide) (by decide)⟩

/-! ## C15: `readByte` at and past the end of the buffer -/

/-- C15 (as stated, refuted): on a buffer of length 1 with the byte cursor at
1, `readByte` is an unchecked read past the end; the call does not end in a
detected failure. -/
theorem readByte_past_end_unchecked :
    readByte { onBuffer (freshReader []) [1] with mCurrentByte := 1 } = .undefined ∧
    (readByte { onBuffer (freshReader []) [1] with mCurrentByte := 1 }).isFailure = false := by
  refine ⟨by decide, by decide⟩

/-- C15 (amended): for every buffer `b` of length `n` and byte offset `p`,
`readByte` returns the byte at `p` and advances the byte offset by exactly 1
when `p < n`; when `p ≥ n` it reads `mBytes[p]` outside the buffer without any
check: the behaviour is undefined and no failure is raised. -/
theorem readByte_bounds (r : CCBReader) (b : List Nat) (hb : r.mBytes = some b) :
    (∀ h : r.mCurrentByte < b.length,
      readByte r = .ok (b[r.mCurrentByte], { r with mCurrentByte := r.mCurrentByte + 1 })) ∧
    (b.length ≤ r.mCurrentByte → readByte r = .undefined) := by
  constructor
  · intro h
    exact readByte_at r b hb h
  · intro h
    simp [readByte, hb, List.getElem?_eq_none h]

/-- Witness of C15 (amended): the buffer `[1]` read at offsets 0 and 1. -/
theorem readByte_bounds_witness :
    readByte (onBuffer (freshReader []) [1]) =
      .ok (1, { onBuffer (freshReader []) [1] with mCurrentByte := 1 }) ∧
    readByte { onBuffer (freshReader []) [1] with mCurrentByte := 1 } = .undefined :=
  ⟨(readByte_bounds (onBuffer (freshReader []) [1]) [1] rfl).1 (by decide),
   (readByte_bounds { onBuffer (freshReader []) [1] with mCurrentByte := 1 } [1] rfl).2
     (by decide)⟩

/-! ## C16: the bit offset across byte-aligned reads -/

/-- C16 (as stated, refuted): from the cursor state `(0, 3)`, `readByte`
returns with the bit offset still 3. -/
theorem readByte_keeps_bit_offset_3 :
    readByte { onBuffer (freshReader []) [5, 6] with mCurrentBit := 3 } =
      .ok (5, { onBuffer (freshReader []) [5, 6] with mCurrentByte := 1, mCurrentBit := 3 }) ∧
    (3 : Nat) ≠ 0 := by
  refine ⟨by decide, by decide⟩

/-- C16 (amended): `readByte`, and hence `readBool` and `readUTF8`, leave the
bit offset as it was; after such a read the bit offset is 0 exactly when it was
0 before the read. -/
theorem byte_reads_keep_bit_offset (r : CCBReader) :
    (∀ (x : Nat) (r1 : CCBReader), readByte r = .ok (x, r1) → r1.mCurrentBit = r.mCurrentBit) ∧
    (∀ (x : Bool) (r1 : CCBReader), readBool r = .ok (x, r1) → r1.mCurrentBit = r.mCurrentBit) ∧
    (∀ (s : List Nat) (r1 : CCBReader), readUTF8 r = .ok (s, r1) →
      r1.mCurrentBit = r.mCurrentBit) := by
  refine ⟨fun x r1 h => readByte_bit r x r1 h, fun x r1 h => ?_, fun s r1 h => ?_⟩
  · simp only [readBool] at h
    rw [Res.bind_eq_ok] at h
    obtain ⟨⟨byte, r2⟩, hrb, hres⟩ := h
    simp only [Res.pure_eq] at hres
    injection hres with hres
    injection hres with _ hres
    subst hres
    exact readByte_bit r byte r2 hrb
  · simp only [readUTF8] at h
    rw [Res.bind_eq_ok] at h
    obtain ⟨⟨b0, r2⟩, hrb0, h⟩ := h
    simp only at h
    rw [Res.bind_eq_ok] at h
    obtain ⟨⟨b1, r3⟩, hrb1, h⟩ := h
    simp only at h
    have h2 := readByte_bit r b0 r2 hrb0
    have h3 := readByte_bit r2 b1 r3 hrb1
    split at h
    · simp at h
    · split at h
      · simp only [Res.pure_eq] at h
        injection h with h
        injection h with _ h
        subst h
        simp only
        rw [h3, h2]
      · simp at h

/-- Witness of C16 (amended): the bit offset 3 survives `readByte` and
`readUTF8`. -/
theorem byte_reads_keep_bit_offset_witness :
    readByte { onBuffer (freshReader []) [0, 1, 6] with mCurrentBit := 3 } =
      .ok (0, { onBuffer (freshReader []) [0, 1, 6] with mCurrentByte := 1, mCurrentBit := 3 }) ∧
    ({ onBuffer (freshReader []) [0, 1, 6] with mCurrentByte := 1, mCurrentBit := 3 } :
      CCBReader).mCurrentBit =
      ({ onBuffer (freshReader []) [0, 1, 6] with mCurrentBit := 3 } : CCBReader).mCurrentBit ∧
    readUTF8 { onBuffer (freshReader []) [0, 1, 6] with mCurrentBit := 3 } =
      .ok ([6], { onBuffer (freshReader []) [0, 1, 6] with mCurrentByte := 3, mCurrentBit := 3 }) ∧
    ({ onBuffer (freshReader []) [0, 1, 6] with mCurrentByte := 3, mCurrentBit := 3 } :
      CCBReader).mCurrentBit =
      ({ onBuffer (freshReader []) [0, 1, 6] with mCurrentBit := 3 } : CCBReader).mCurrentBit :=
  ⟨by decide,
   (byte_reads_keep_bit_offset
      { onBuffer (freshReader []) [0, 1, 6] with mCurrentBit := 3 }).1 0
      { onBuffer (freshReader []) [0, 1, 6] with mCurrentByte := 1, mCurrentBit := 3 }
      (by decide),
   by decide,
   (byte_reads_keep_bit_offset
      { onBuffer (freshReader []) [0, 1, 6] with mCurrentBit := 3 }).2.2 [6]
      { onBuffer (freshReader []) [0, 1, 6] with mCurrentByte := 3, mCurrentBit := 3 }
      (by decide)⟩

/-! ## C17: one step of `getBit` -/

/-- C17: for every cursor state `(p, k)` with `k ≤ 7` and `p` inside the
buffer, `getBit` returns `true` exactly when bit `k` (bit 0 least significant)
of the byte at `p` is set, and the new cursor is `(p, k + 1)` when `k < 7` and
`(p + 1, 0)` when `k = 7`; so the new bit offset is at most 7, and the byte
offset advances only when the bit offset wraps to 0. -/
theorem getBit_step (r : CCBReader) (b : List Nat) (hb : r.mBytes = some b)
    (hp : r.mCurrentByte < b.length) (hk : r.mCurrentBit ≤ 7) :
    getBit r =
      .ok (decide (b[r.mCurrentByte] / 2 ^ r.mCurrentBit % 2 = 1),
        if r.mCurrentBit < 7 then { r with mCurrentBit := r.mCurrentBit + 1 }
        else { r with mCurrentByte := r.mCurrentByte + 1, mCurrentBit := 0 }) ∧
    (∀ (x : Bool) (r1 : CCBReader), getBit r = .ok (x, r1) →
      r1.mCurrentBit ≤ 7 ∧
      (r1.mCurrentByte = r.mCurrentByte ∨
        (r1.mCurrentByte = r.mCurrentByte + 1 ∧ r1.mCurrentBit = 0))) := by
  have hstep : getBit r =
      .ok (decide (b[r.mCurrentByte] / 2 ^ r.mCurrentBit % 2 = 1),
        if r.mCurrentBit < 7 then { r with mCurrentBit := r.mCurrentBit + 1 }
        else { r with mCurrentByte := r.mCurrentByte + 1, mCurrentBit := 0 }) := by
    obtain ⟨mb, cb, cbit, sc, ld, rn, ow, sz⟩ := r
    simp only at hb hp hk ⊢
    subst hb
    simp only [getBit, List.getElem?_eq_getElem hp, and_shift_ne_zero, Nat.testBit_to_div_mod]
    by_cases h7 : cbit < 7
    · rw [if_neg (by omega), if_pos h7]
    · rw [if_pos (by omega), if_neg h7]
  refine ⟨hstep, fun x r1 h => ?_⟩
  rw [hstep] at h
  injection h with h
  injection h with _ h
  subst h
  by_cases h7 : r.mCurrentBit < 7
  · rw [if_pos h7]
    exact ⟨by simp only; omega, Or.inl rfl⟩
  · rw [if_neg h7]
    exact ⟨by simp only; omega, Or.inr ⟨rfl, rfl⟩⟩

/-- Witness of C17: bit 7 of the byte `128` is set, and the cursor moves from
`(0, 7)` to `(1, 0)`. -/
theorem getBit_step_witness :
    getBit { onBuffer (freshReader []) [128, 0] with mCurrentBit := 7 } =
      .ok (true, { onBuffer (freshReader []) [128, 0] with mCurrentByte := 1 }) := by
  have h := (getBit_step { onBuffer (freshReader []) [128, 0] with mCurrentBit := 7 } [128, 0] rfl
    (by decide) (by decide)).1
  simpa using h

/-! ## C18: the optional assignment name -/

/-- C18: `readNodeGraph` first reads one cached-string index (the class name),
then one variable-length unsigned integer (the assignment type). When this is
0, nothing more is read before the loader is looked up and invoked: it starts
in the state `r2` left by that `readInt`, whose bit offset is 0. When it is not
0, exactly one more cached-string index is read, and the loader starts in the
state left by that read. -/
theorem readNodeGraph_reads_head (load : LoaderTable) (fuel : Nat) (pParent : Option CCNode)
    (r r1 r2 : CCBReader) (className : List Nat) (memberVarAssignmentType : Int)
    (hname : readCachedString r = .ok (className, r1))
    (htype : readInt false r1 = .ok (memberVarAssignmentType, r2)) :
    r2.mCurrentBit = 0 ∧
    (memberVarAssignmentType = 0 →
      readNodeGraph load (fuel + 1) pParent r = readNodeBody load fuel pParent className r2) ∧
    (memberVarAssignmentType ≠ 0 →
      readNodeGraph load (fuel + 1) pParent r =
        (readCachedString r2).bind fun x => readNodeBody load fuel pParent className x.2) ∧
    (∀ (rs : CCBReader) (ccNodeLoader : Nat), getCCNodeLoader className rs = .ok ccNodeLoader →
      readNodeBody load fuel pParent className rs =
        (load ccNodeLoader pParent rs).bind fun x =>
          (readInt false (setRootNode x.1 x.2)).bind fun y =>
            readChildren (readNodeGraph load fuel) y.1.toNat x.1 y.2) := by
  refine ⟨readInt_bit _ _ _ _ htype, fun h0 => ?_, fun hne => ?_, fun rs l hl => ?_⟩
  · subst h0
    simp only [readNodeGraph, readNodeHead, hname, Res.ok_bind, htype, ne_eq, not_true_eq_false,
      if_false, Res.pure_eq, readNodeBody]
  · simp only [readNodeGraph, readNodeHead, hname, Res.ok_bind, htype, ne_eq, hne,
      not_false_eq_true, if_true, readNodeBody]
    cases readCachedString r2 <;> rfl
  · simp only [readNodeBody, hl, Res.ok_bind]
    rfl

/-- Witness of C18: a node with assignment type 0; the loader of the example
reads its property byte `7` at byte offset 2, right after the two integers. -/
theorem readNodeGraph_reads_head_witness :
    readNodeGraph byteLoader (0 + 1) none
        { freshReader [([65], 1)] with mBytes := some [1, 1, 7, 1], mStringCache := [[65]] } =
      readNodeBody byteLoader 0 none [65]
        { freshReader [([65], 1)] with
          mBytes := some [1, 1, 7, 1], mCurrentByte := 2, mStringCache := [[65]] } ∧
    readNodeBody byteLoader 0 none [65]
        { freshReader [([65], 1)] with
          mBytes := some [1, 1, 7, 1], mCurrentByte := 2, mStringCache := [[65]] } =
      .ok (CCNode.mk 7 [],
        { freshReader [([65], 1)] with
          mBytes := some [1, 1, 7, 1], mCurrentByte := 4, mStringCache := [[65]],
          mRootNode := some 7 }) :=
  ⟨(readNodeGraph_reads_head byteLoader 0 none
      { freshReader [([65], 1)] with mBytes := some [1, 1, 7, 1], mStringCache := [[65]] }
      { freshReader [([65], 1)] with
        mBytes := some [1, 1, 7, 1], mCurrentByte := 1, mStringCache := [[65]] }
      { freshReader [([65], 1)] with
        mBytes := some [1, 1, 7, 1], mCurrentByte := 2, mStringCache := [[65]] }
      [65] 0 (by decide) (by decide)).2.1 rfl,
   by rfl⟩

/-! ## C19: `readInt` on a finite buffer -/

/-- C19 (as stated, refuted): on the one-byte buffer `0`, read from byte 0, the
scan makes 9 `getBit` calls, one more than `8 * (length - byteOffset) = 8`: the
ninth is the read past the end. And on a buffer of nine bytes holding 32 zero
bits, a one bit and 32 zero bits, every bit read is inside the buffer, yet
`readInt` returns no value: the shift `1 << 32` is undefined. -/
theorem readInt_scan_makes_one_more_call :
    scanCalls 100 (onBuffer (freshReader []) [0]) = 9 ∧
    8 * ([0].length - (onBuffer (freshReader []) [0]).mCurrentByte) = 8 ∧
    scanZeros 100 0 (onBuffer (freshReader []) [0]) = .undefined ∧
    scanZeros 100 0 (onBuffer (freshReader []) [0, 0, 0, 0, 1, 0, 0, 0, 0]) =
      .ok (32, { onBuffer (freshReader []) [0, 0, 0, 0, 1, 0, 0, 0, 0] with
        mCurrentByte := 4, mCurrentBit := 1 }) ∧
    readBits 32 0 { onBuffer (freshReader []) [0, 0, 0, 0, 1, 0, 0, 0, 0] with
        mCurrentByte := 4, mCurrentBit := 1 } =
      .ok (0, { onBuffer (freshReader []) [0, 0, 0, 0, 1, 0, 0, 0, 0] with
        mCurrentByte := 8, mCurrentBit := 1 }) ∧
    readInt false (onBuffer (freshReader []) [0, 0, 0, 0, 1, 0, 0, 0, 0]) = .undefined := by
  refine ⟨by decide, by decide, by decide, by decide, by decide, by decide⟩

/-- C19 (amended): for every buffer and every cursor position with bit offset
at most 7, with a read past the end of the buffer as an outcome that ends the
call: `readInt` either returns a value with the cursor still inside the buffer,
or ends undefined (the read past the end, or the shift `1 << numBits` for 32 or
more leading zero bits); the scan makes at most `8 * (length - byteOffset) + 1`
calls of `getBit` whatever the budget, and a larger budget does not change its
result; and when no bit from the cursor to the end of the buffer is set,
`readInt` ends in the read past the end. -/
theorem readInt_total (pSign : Bool) (r : CCBReader) (b : List Nat) (hb : r.mBytes = some b)
    (hk : r.mCurrentBit ≤ 7) :
    ((∃ (v : Int) (r1 : CCBReader), readInt pSign r = .ok (v, r1) ∧
        r1.mCurrentByte ≤ b.length) ∨ readInt pSign r = .undefined) ∧
    (∀ fuel : Nat, scanCalls fuel r ≤ 8 * (b.length - r.mCurrentByte) + 1) ∧
    (∀ k : Nat, scanZeros (8 * (b.length - r.mCurrentByte) + 1 + k) 0 r =
      scanZeros (8 * (b.length - r.mCurrentByte) + 1) 0 r) ∧
    ((∀ i, bitPos r ≤ i → i < 8 * b.length → bitAt b i = false) →
      readInt pSign r = .undefined) := by
  refine ⟨?_, fun fuel => ?_, fun k => ?_, fun hzero => ?_⟩
  · cases h : readInt pSign r with
    | ok x =>
      obtain ⟨v, r1⟩ := x
      exact Or.inl ⟨v, r1, rfl, readInt_ok_inside pSign r r1 b v hb h⟩
    | abort => exact absurd h (readInt_ne_abort pSign r)
    | undefined => exact Or.inr rfl
    | exhausted => exact absurd h (readInt_ne_exhausted pSign r)
  · have := scanCalls_le fuel r b hb
    omega
  · apply scanZeros_fuel_add
    apply scanZeros_ne_exhausted _ _ _ (by omega)
    intro b2 hb2
    rw [hb] at hb2
    injection hb2 with hb2
    subst hb2
    omega
  · exact readInt_zero_tail pSign r b hb (by omega) hzero

/-- Witness of C19 (amended): two zero bytes read from byte 0. -/
theorem readInt_total_witness :
    readInt false (onBuffer (freshReader []) [0, 0]) = .undefined ∧
    scanCalls 100 (onBuffer (freshReader []) [0, 0]) ≤
      8 * ([0, 0].length - (onBuffer (freshReader []) [0, 0]).mCurrentByte) + 1 :=
  ⟨(readInt_total false (onBuffer (freshReader []) [0, 0]) [0, 0] rfl (by decide)).2.2.2
      (by decide),
   (readInt_total false (onBuffer (freshReader []) [0, 0]) [0, 0] rfl (by decide)).2.1 100⟩

/-! ## C20: the string cache is appended to -/

/-- C20: for every prior cache content and every stream section encoding the
strings `ss` (in a buffer of fewer than `2 ^ 31` bytes, the range of its `int`
size), `readStringCache` leaves the cache equal to the prior content followed
by `ss`. `readNodeGraphFromFile` begins by resetting the byte and bit offsets,
the owner and the root container size, and keeps the cache; so when a reader
whose cache holds `m` strings reads a file with header, version and string
table `ss`, the cache at the start of the node graph is the old content
followed by `ss`: the string `i` of the table is at cache position `m + i`, and
the positions below `m` still hold the old strings. -/
theorem stringCache_appended (ss : List (List Nat)) :
    (∀ (r : CCBReader) (pre post : List Nat),
      (pre ++ encodeStringCache ss ++ post).length < 2 ^ 31 →
      r.mBytes = some (pre ++ encodeStringCache ss ++ post) →
      r.mCurrentByte = pre.length → r.mCurrentBit = 0 →
      readStringCache r =
        .ok (true, { r with mCurrentByte := pre.length + (encodeStringCache ss).length,
                            mStringCache := r.mStringCache ++ ss })) ∧
    (∀ (file : Option (List Nat)) (pOwner : Option Nat) (pParentSize : CCSize) (r0 : CCBReader),
      beginRead file pOwner pParentSize r0 =
        { r0 with mBytes := file, mCurrentByte := 0, mCurrentBit := 0, mOwner := pOwner,
                  mRootContainerSize := pParentSize } ∧
      (beginRead file pOwner pParentSize r0).mStringCache = r0.mStringCache) ∧
    (∀ (kCCBVersion : Nat) (pOwner : Option Nat) (pParentSize : CCSize) (r0 : CCBReader)
        (post : List Nat),
      kCCBVersion < 2 ^ 31 →
      (kMagicBytes ++ encodeVarUInt kCCBVersion ++ encodeStringCache ss ++ post).length < 2 ^ 31 →
      ∃ rA : CCBReader,
        readHeader (kCCBVersion : Int)
          (beginRead (some (kMagicBytes ++ encodeVarUInt kCCBVersion ++ encodeStringCache ss ++ post))
            pOwner pParentSize r0) = .ok (true, rA) ∧
        readStringCache rA =
          .ok (true, { rA with
            mCurrentByte := 4 + (encodeVarUInt kCCBVersion).length + (encodeStringCache ss).length,
            mStringCache := r0.mStringCache ++ ss })) ∧
    (∀ (old : List (List Nat)) (i : Nat), (old ++ ss)[old.length + i]? = ss[i]?) ∧
    (∀ (old : List (List Nat)) (i : Nat), i < old.length → (old ++ ss)[i]? = old[i]?) := by
  have hcache : ∀ (r : CCBReader) (pre post : List Nat),
      (pre ++ encodeStringCache ss ++ post).length < 2 ^ 31 →
      r.mBytes = some (pre ++ encodeStringCache ss ++ post) →
      r.mCurrentByte = pre.length → r.mCurrentBit = 0 →
      readStringCache r =
        .ok (true, { r with mCurrentByte := pre.length + (encodeStringCache ss).length,
                            mStringCache := r.mStringCache ++ ss }) := by
    intro r pre post hsize hb hp hbit
    have hn : ss.length < 2 ^ 31 := by
      have h2 := flatten_encodeUTF8_length ss
      simp only [List.length_append, encodeStringCache] at hsize
      omega
    exact readStringCache_encode ss r pre post hn hb hp hbit
  refine ⟨hcache, fun file pOwner pParentSize r0 => ⟨rfl, rfl⟩, ?_, ?_, ?_⟩
  · intro kCCBVersion pOwner pParentSize r0 post hkv hsize
    have hhead := readHeader_encode
      (beginRead (some (kMagicBytes ++ encodeVarUInt kCCBVersion ++ encodeStringCache ss ++ post))
        pOwner pParentSize r0) (encodeStringCache ss ++ post) kCCBVersion hkv
      (by simp [beginRead, List.append_assoc]) rfl rfl
    refine ⟨_, hhead, ?_⟩
    have h := hcache
      { beginRead (some (kMagicBytes ++ encodeVarUInt kCCBVersion ++ encodeStringCache ss ++ post))
          pOwner pParentSize r0 with mCurrentByte := 4 + (encodeVarUInt kCCBVersion).length }
      (kMagicBytes ++ encodeVarUInt kCCBVersion) post hsize rfl
      (by simp [kMagicBytes]; omega) rfl
    rw [h]
    simp [beginRead, kMagicBytes]
    omega
  · intro old i
    rw [List.getElem?_append_right (by omega), Nat.add_sub_cancel_left]
  · intro old i hi
    rw [List.getElem?_append_left hi]

/-- Witness of C20: a reader whose cache holds the string `x` reads a file of
version 2 with the string table `a`; the cache becomes `x`, `a`. -/
theorem stringCache_appended_witness :
    ∃ rA : CCBReader,
      readHeader ((2 : Nat) : Int)
        (beginRead (some (kMagicBytes ++ encodeVarUInt 2 ++ encodeStringCache [[97]] ++ [1, 1]))
          none ⟨0, 0⟩ { freshReader [] with mStringCache := [[120]] }) = .ok (true, rA) ∧
      readStringCache rA =
        .ok (true, { rA with
          mCurrentByte := 4 + (encodeVarUInt 2).length + (encodeStringCache [[97]]).length,
          mStringCache :=
            ({ freshReader [] with mStringCache := [[120]] } : CCBReader).mStringCache ++
              [[97]] }) :=
  (stringCache_appended [[97]]).2.2.1 2 none ⟨0, 0⟩
    { freshReader [] with mStringCache := [[120]] } [1, 1] (by decide) (by decide)

end CCB
